import Mathlib

set_option maxRecDepth 100000

/-!
Verification of the MCP configuration extract/restore tool pair
(`claude/extract-mcp.js`, `claude/restore-mcp.js`) of the dotfiles
repository.  Strings are modelled as `List Char`; the JavaScript string
and regex operations used by the scripts are embedded as executable
functions, and the two pipelines are modelled as pure functions from the
relevant file contents to the written file contents.
-/

namespace MCP

/-- Strings of the modelled programs, as lists of characters. -/
abbrev Str := List Char

/-- Conversion from Lean string literals. -/
def lit (s : String) : Str := s.toList

/-- The dollar character. -/
def dollar : Char := '$'

/-- Left curly brace. -/
def lbrace : Char := Char.ofNat 123

/-- Right curly brace. -/
def rbrace : Char := Char.ofNat 125

/-- Double quote. -/
def dq : Char := Char.ofNat 34

/-- Backslash. -/
def bslash : Char := Char.ofNat 92

/-- Backtick character. -/
def btick : Char := Char.ofNat 96

/-- Single quote character. -/
def squote : Char := Char.ofNat 39

/-- Placeholder token for a symbolic name, `"${" + name + "}"`. -/
def tokOf (name : Str) : Str := dollar :: lbrace :: (name ++ [rbrace])

/-- Fuel-bounded body of `splitJoin`; the fuel (one unit per character) is
an embedding artifact that keeps the recursion structural. -/
def splitJoinF (sep repl : Str) : Nat → Str → Str
  | _, [] => []
  | 0, s => s
  | fuel + 1, c :: rest =>
    if sep ≠ [] ∧ sep.isPrefixOf (c :: rest) then
      repl ++ splitJoinF sep repl fuel ((c :: rest).drop sep.length)
    else
      c :: splitJoinF sep repl fuel rest

/-- JavaScript `s.split(sep).join(repl)`: replace every (non-overlapping,
leftmost-first) occurrence of `sep` by `repl`.  The scripts only call this
with non-empty separators; for an empty separator this model returns the
string unchanged. -/
def splitJoin (sep repl s : Str) : Str := splitJoinF sep repl s.length s

theorem splitJoinF_stable (sep repl : Str) : ∀ f1 f2 s,
    s.length ≤ f1 → s.length ≤ f2 →
    splitJoinF sep repl f1 s = splitJoinF sep repl f2 s := by
  intro f1
  induction f1 with
  | zero =>
    intro f2 s h1 _
    have : s = [] := List.eq_nil_of_length_eq_zero (by omega)
    subst this
    cases f2 <;> rfl
  | succ f1 ih =>
    intro f2 s h1 h2
    match s with
    | [] => cases f2 <;> rfl
    | c :: rest =>
      cases f2 with
      | zero => simp at h2
      | succ f2 =>
        simp only [splitJoinF]
        by_cases hc : sep ≠ [] ∧ sep.isPrefixOf (c :: rest)
        · rw [if_pos hc, if_pos hc]
          have hs : 0 < sep.length := List.length_pos.mpr hc.1
          have hlen : ((c :: rest).drop sep.length).length ≤ rest.length := by
            simp only [List.length_drop, List.length_cons]
            omega
          rw [ih f2 _ (by simp at h1; omega) (by simp at h2; omega)]
        · rw [if_neg hc, if_neg hc]
          rw [ih f2 rest (by simp at h1; omega) (by simp at h2; omega)]

theorem splitJoin_nil (sep repl : Str) : splitJoin sep repl [] = [] := rfl

theorem splitJoin_cons_pos {sep : Str} (repl : Str) {c : Char} {rest : Str}
    (h : sep ≠ [] ∧ sep.isPrefixOf (c :: rest)) :
    splitJoin sep repl (c :: rest) =
      repl ++ splitJoin sep repl ((c :: rest).drop sep.length) := by
  show splitJoinF sep repl (c :: rest).length (c :: rest) = _
  rw [List.length_cons]
  simp only [splitJoinF]
  rw [if_pos h]
  unfold splitJoin
  congr 1
  apply splitJoinF_stable
  · have hs : 0 < sep.length := List.length_pos.mpr h.1
    simp only [List.length_drop, List.length_cons]
    omega
  · exact Nat.le_refl _

theorem splitJoin_cons_neg {sep : Str} (repl : Str) {c : Char} {rest : Str}
    (h : ¬ (sep ≠ [] ∧ sep.isPrefixOf (c :: rest))) :
    splitJoin sep repl (c :: rest) = c :: splitJoin sep repl rest := by
  show splitJoinF sep repl (c :: rest).length (c :: rest) = _
  rw [List.length_cons]
  simp only [splitJoinF]
  rw [if_neg h]
  rfl

/-- A secret-recognition pattern of the extractor: a literal prefix followed
by one or more characters of a character class (shape of each regex in
`SECRET_PATTERNS`). -/
structure SecPat where
  pref : Str
  cls : Char → Bool
  name : Str

/-- Greedy run of class characters (the `+` part of the regex). -/
def takeRun (cls : Char → Bool) : Str → Str × Str
  | [] => ([], [])
  | c :: rest =>
    if cls c then
      let p := takeRun cls rest
      (c :: p.1, p.2)
    else ([], c :: rest)

/-- Attempt to match the pattern at the head of the string; on success
returns the matched text and the remainder. -/
def tryMatch (p : SecPat) (s : Str) : Option (Str × Str) :=
  if p.pref.isPrefixOf s then
    let r := takeRun p.cls (s.drop p.pref.length)
    if r.1 = [] then none else some (p.pref ++ r.1, r.2)
  else none

theorem takeRun_append (cls : Char → Bool) (s : Str) :
    (takeRun cls s).1 ++ (takeRun cls s).2 = s := by
  induction s with
  | nil => simp [takeRun]
  | cons c rest ih =>
    simp only [takeRun]
    by_cases h : cls c
    · simp [h, ih]
    · simp [h]

theorem tryMatch_consume {p : SecPat} {s m t : Str}
    (h : tryMatch p s = some (m, t)) : s = m ++ t ∧ m.length > p.pref.length := by
  unfold tryMatch at h
  by_cases hp : p.pref.isPrefixOf s
  · simp only [hp, if_true] at h
    by_cases hr : (takeRun p.cls (s.drop p.pref.length)).1 = []
    · simp [hr] at h
    · simp only [hr, if_false, Option.some.injEq, Prod.mk.injEq] at h
      have hpre : p.pref <+: s := List.isPrefixOf_iff_prefix.mp hp
      obtain ⟨u, hu⟩ := hpre
      have hdrop : s.drop p.pref.length = u := by
        rw [← hu, List.drop_left]
      have happ := takeRun_append p.cls (s.drop p.pref.length)
      rw [hdrop] at happ
      constructor
      · rw [← h.1, ← h.2, hdrop, List.append_assoc, happ, hu]
      · have hlen : m.length = p.pref.length + (takeRun p.cls u).1.length := by
          rw [← h.1, hdrop]; simp
        have hpos : 0 < (takeRun p.cls u).1.length := by
          rw [hdrop] at hr
          exact List.length_pos.mpr hr
        omega
  · simp [hp] at h

theorem tryMatch_tail_lt {p : SecPat} {s m t : Str}
    (h : tryMatch p s = some (m, t)) : t.length < s.length := by
  obtain ⟨heq, hlen⟩ := tryMatch_consume h
  have : s.length = m.length + t.length := by rw [heq]; simp
  omega

/-- Fuel-bounded body of the regex engine pass. -/
def scanPatF (p : SecPat) (repl : Str) : Nat → Str → List Str × Str
  | _, [] => ([], [])
  | 0, s => ([], s)
  | fuel + 1, c :: rest =>
    match tryMatch p (c :: rest) with
    | some mt =>
      let r := scanPatF p repl fuel mt.2
      (mt.1 :: r.1, repl ++ r.2)
    | none =>
      let r := scanPatF p repl fuel rest
      (r.1, c :: r.2)

/-- One pass of the regex engine over the string: the list of global
matches (as returned by JavaScript `str.match(re)`) together with the text
with every match replaced by `repl` (as produced by
`str.replace(re, repl)` for a replacement string without `$`-escapes). -/
def scanPat (p : SecPat) (repl : Str) (s : Str) : List Str × Str :=
  scanPatF p repl s.length s

theorem scanPatF_stable (p : SecPat) (repl : Str) : ∀ f1 f2 s,
    s.length ≤ f1 → s.length ≤ f2 →
    scanPatF p repl f1 s = scanPatF p repl f2 s := by
  intro f1
  induction f1 with
  | zero =>
    intro f2 s h1 _
    have : s = [] := List.eq_nil_of_length_eq_zero (by omega)
    subst this
    cases f2 <;> rfl
  | succ f1 ih =>
    intro f2 s h1 h2
    match s with
    | [] => cases f2 <;> rfl
    | c :: rest =>
      cases f2 with
      | zero => simp at h2
      | succ f2 =>
        cases htm : tryMatch p (c :: rest) with
        | some mt =>
          simp only [scanPatF, htm]
          have hlt : mt.2.length < (c :: rest).length := tryMatch_tail_lt htm
          rw [ih f2 mt.2 (by simp at h1 hlt ⊢; omega) (by simp at h2 hlt ⊢; omega)]
        | none =>
          simp only [scanPatF, htm]
          rw [ih f2 rest (by simp at h1; omega) (by simp at h2; omega)]

theorem scanPat_nil (p : SecPat) (repl : Str) : scanPat p repl [] = ([], []) := rfl

theorem scanPat_cons_some {p : SecPat} (repl : Str) {c : Char} {rest m t : Str}
    (h : tryMatch p (c :: rest) = some (m, t)) :
    scanPat p repl (c :: rest) =
      (m :: (scanPat p repl t).1, repl ++ (scanPat p repl t).2) := by
  show scanPatF p repl (c :: rest).length (c :: rest) = _
  rw [List.length_cons]
  simp only [scanPatF, h]
  have hlt : t.length < (c :: rest).length := tryMatch_tail_lt h
  unfold scanPat
  rw [scanPatF_stable p repl rest.length t.length t (by simp at hlt; omega) (Nat.le_refl _)]

theorem scanPat_cons_none {p : SecPat} (repl : Str) {c : Char} {rest : Str}
    (h : tryMatch p (c :: rest) = none) :
    scanPat p repl (c :: rest) =
      ((scanPat p repl rest).1, c :: (scanPat p repl rest).2) := by
  show scanPatF p repl (c :: rest).length (c :: rest) = _
  rw [List.length_cons]
  simp only [scanPatF, h]
  rfl

/-- Character classes of the secret regexes.  `clsAlnum` is `[A-Za-z0-9]`
(ASCII, as in JavaScript). -/
def clsAlnum (c : Char) : Bool := c.isAlpha || c.isDigit

/-- Class `[A-Za-z0-9-]` of the `xoxc-` pattern. -/
def clsXoxc (c : Char) : Bool := clsAlnum c || c = '-'

/-- Class `[A-Za-z0-9%+-]` of the `xoxd-` pattern. -/
def clsXoxd (c : Char) : Bool := clsAlnum c || c = '%' || c = '+' || c = '-'

/-- Class `[A-Za-z0-9_=+-]` of the `ATATT3x` pattern. -/
def clsJira (c : Char) : Bool := clsAlnum c || c = '_' || c = '=' || c = '+' || c = '-'

/-- The fixed ordered table of secret patterns of `extract-mcp.js`. -/
def SECRET_PATTERNS : List SecPat := [
  ⟨lit "sk_test_", clsAlnum, lit "STRIPE_TEST_API_KEY"⟩,
  ⟨lit "sk_live_", clsAlnum, lit "STRIPE_LIVE_API_KEY"⟩,
  ⟨lit "rk_test_", clsAlnum, lit "STRIPE_TEST_RESTRICTED_KEY"⟩,
  ⟨lit "rk_live_", clsAlnum, lit "STRIPE_LIVE_RESTRICTED_KEY"⟩,
  ⟨lit "whsec_", clsAlnum, lit "STRIPE_WEBHOOK_SECRET"⟩,
  ⟨lit "xoxc-", clsXoxc, lit "SLACK_XOXC_TOKEN"⟩,
  ⟨lit "xoxd-", clsXoxd, lit "SLACK_XOXD_TOKEN"⟩,
  ⟨lit "ATATT3x", clsJira, lit "JIRA_API_TOKEN"⟩]

/-- The fixed allow-list of secret-carrying env variable names. -/
def SECRET_ENV_KEYS : List Str := [
  lit "JIRA_API_TOKEN", lit "JIRA_USERNAME",
  lit "LANGFUSE_SECRET_KEY", lit "LANGFUSE_PUBLIC_KEY",
  lit "TWILIO_AUTH_TOKEN", lit "TWILIO_ACCOUNT_SID"]

/-- JavaScript object property update: overwrite in place when the key is
present, append otherwise. -/
def objSet {α : Type} (o : List (Str × α)) (k : Str) (v : α) : List (Str × α) :=
  if o.any (fun q => decide (q.1 = k)) then
    o.map (fun q => if q.1 = k then (k, v) else q)
  else o ++ [(k, v)]

/-- Lookup of an object property. -/
def objGet {α : Type} (o : List (Str × α)) (k : Str) : Option α :=
  match o with
  | [] => none
  | q :: rest => if q.1 = k then some q.2 else objGet rest k

/-- JavaScript spread merge `{...a, ...b}`. -/
def objMerge {α : Type} (a b : List (Str × α)) : List (Str × α) :=
  b.foldl (fun acc q => objSet acc q.1 q.2) a

/-- One step of `extractSecrets` for one pattern (lines 124-134 of
`extract-mcp.js`): if the pattern has a match, record the first match and
replace all matches by the placeholder token. -/
def extractSecretsStep (acc : Str × List (Str × Str)) (p : SecPat) :
    Str × List (Str × Str) :=
  let r := scanPat p (tokOf p.name) acc.1
  match r.1 with
  | [] => acc
  | m :: _ => (r.2, objSet acc.2 p.name m)

/-- The `extractSecrets` function of `extract-mcp.js`. -/
def extractSecrets (s : Str) : Str × List (Str × Str) :=
  SECRET_PATTERNS.foldl extractSecretsStep (s, [])

/-- The `abstractPaths` function of `extract-mcp.js` (lines 138-144):
replace the code directory first, the home directory second. -/
def abstractPaths (codeDir home s : Str) : Str :=
  splitJoin home (tokOf (lit "HOME")) (splitJoin codeDir (tokOf (lit "CODE_DIR")) s)

/-- JSON documents.  Numbers carry their literal text (the scripts never
compute with numbers, they only copy them between documents). -/
inductive Json where
  | null : Json
  | bool (b : Bool) : Json
  | num (val : Str) : Json
  | str (s : Str) : Json
  | arr (items : List Json) : Json
  | obj (fields : List (Str × Json)) : Json

/-- Newline character. -/
def nl : Char := Char.ofNat 10

/-- Indentation emitted by `JSON.stringify(v, null, 2)` at nesting level
`lv`. -/
def ind (lv : Nat) : Str := List.replicate (2 * lv) ' '

/-- Hex digit in lower case, as emitted by `JSON.stringify`. -/
def hexDigit (n : Nat) : Char :=
  if n < 10 then Char.ofNat (48 + n) else Char.ofNat (87 + n)

/-- JSON string escaping of one character, as in `JSON.stringify`. -/
def escChar (c : Char) : Str :=
  if c = dq then [bslash, dq]
  else if c = bslash then [bslash, bslash]
  else if c = Char.ofNat 8 then [bslash, 'b']
  else if c = Char.ofNat 9 then [bslash, 't']
  else if c = nl then [bslash, 'n']
  else if c = Char.ofNat 12 then [bslash, 'f']
  else if c = Char.ofNat 13 then [bslash, 'r']
  else if c.toNat < 32 then
    [bslash, 'u', '0', '0', hexDigit (c.toNat / 16), hexDigit (c.toNat % 16)]
  else [c]

/-- JSON string escaping. -/
def escStr (s : Str) : Str := s.foldr (fun c acc => escChar c ++ acc) []

/-- A JSON string literal: quote, escaped body, quote. -/
def quoteStr (s : Str) : Str := dq :: (escStr s ++ [dq])

mutual

/-- Rendering of a document by `JSON.stringify(v, null, 2)` at nesting
level `lv`. -/
def renderJ : Json → Nat → Str
  | .null, _ => lit "null"
  | .bool true, _ => lit "true"
  | .bool false, _ => lit "false"
  | .num v, _ => v
  | .str s, _ => quoteStr s
  | .arr [], _ => lit "[]"
  | .arr (x :: xs), lv =>
    '[' :: nl :: (renderItems (x :: xs) (lv + 1) ++ (nl :: (ind lv ++ [']'])))
  | .obj [], _ => [lbrace, rbrace]
  | .obj (f :: fs), lv =>
    lbrace :: nl :: (renderFields (f :: fs) (lv + 1) ++ (nl :: (ind lv ++ [rbrace])))

/-- Array items, one per line, comma separated. -/
def renderItems : List Json → Nat → Str
  | [], _ => []
  | [x], lv => ind lv ++ renderJ x lv
  | x :: y :: xs, lv =>
    ind lv ++ renderJ x lv ++ (',' :: nl :: renderItems (y :: xs) lv)

/-- Object fields, one per line, comma separated. -/
def renderFields : List (Str × Json) → Nat → Str
  | [], _ => []
  | [(k, v)], lv => ind lv ++ quoteStr k ++ (':' :: ' ' :: renderJ v lv)
  | (k, v) :: g :: fs, lv =>
    ind lv ++ quoteStr k ++ (':' :: ' ' :: renderJ v lv) ++
      (',' :: nl :: renderFields (g :: fs) lv)

end

/-- JSON whitespace. -/
def isWs (c : Char) : Bool :=
  c = ' ' || c = Char.ofNat 9 || c = nl || c = Char.ofNat 13

/-- Skip leading whitespace. -/
def skipWs : Str → Str
  | [] => []
  | c :: rest => if isWs c then skipWs rest else c :: rest

/-- Drop leading decimal digits. -/
def dropDigits (s : Str) : Str := s.dropWhile Char.isDigit

/-- Fractional part of the JSON number grammar. -/
def chkFrac : Str → Option Str
  | [] => some []
  | d :: r =>
    if d = '.' then
      match r with
      | e :: _ => if e.isDigit then some (dropDigits r) else none
      | [] => none
    else some (d :: r)

/-- Exponent part of the JSON number grammar. -/
def chkExp : Str → Option Str
  | [] => some []
  | d :: r =>
    if d = 'e' ∨ d = 'E' then
      let r2 := match r with
        | s :: r3 => if s = '+' ∨ s = '-' then r3 else s :: r3
        | [] => []
      match r2 with
      | e :: _ => if e.isDigit then some (dropDigits r2) else none
      | [] => none
    else some (d :: r)

/-- Validity of a JSON number literal `-?(0|[1-9][0-9]*)(frac)?(exp)?`. -/
def numValid (s : Str) : Bool :=
  let s1 := match s with
    | c :: r => if c = '-' then r else c :: r
    | [] => []
  match s1 with
  | [] => false
  | c :: r =>
    if c.isDigit then
      let rest := if c = '0' then r else dropDigits r
      match chkFrac rest with
      | none => false
      | some rest2 =>
        match chkExp rest2 with
        | none => false
        | some rest3 => rest3 = []
    else false

/-- Characters that may occur in a JSON number literal. -/
def isNumChar (c : Char) : Bool :=
  c.isDigit || c = '-' || c = '+' || c = '.' || c = 'e' || c = 'E'

/-- Value of a hex digit. -/
def hexVal (c : Char) : Option Nat :=
  if c.isDigit then some (c.toNat - 48)
  else if 97 ≤ c.toNat ∧ c.toNat ≤ 102 then some (c.toNat - 87)
  else if 65 ≤ c.toNat ∧ c.toNat ≤ 70 then some (c.toNat - 55)
  else none

/-- Body of a JSON string literal after the opening quote; returns the
decoded content and the remainder after the closing quote. -/
def parseStrBody (fuel : Nat) (s : Str) : Option (Str × Str) :=
  match fuel, s with
  | 0, _ => none
  | _, [] => none
  | fuel + 1, c :: rest =>
    if c = dq then some ([], rest)
    else if c = bslash then
      match rest with
      | [] => none
      | e :: r2 =>
        if e = dq then (parseStrBody fuel r2).map (fun p => (dq :: p.1, p.2))
        else if e = bslash then (parseStrBody fuel r2).map (fun p => (bslash :: p.1, p.2))
        else if e = '/' then (parseStrBody fuel r2).map (fun p => ('/' :: p.1, p.2))
        else if e = 'b' then (parseStrBody fuel r2).map (fun p => (Char.ofNat 8 :: p.1, p.2))
        else if e = 'f' then (parseStrBody fuel r2).map (fun p => (Char.ofNat 12 :: p.1, p.2))
        else if e = 'n' then (parseStrBody fuel r2).map (fun p => (nl :: p.1, p.2))
        else if e = 'r' then (parseStrBody fuel r2).map (fun p => (Char.ofNat 13 :: p.1, p.2))
        else if e = 't' then (parseStrBody fuel r2).map (fun p => (Char.ofNat 9 :: p.1, p.2))
        else if e = 'u' then
          match r2 with
          | h1 :: h2 :: h3 :: h4 :: r3 =>
            match hexVal h1, hexVal h2, hexVal h3, hexVal h4 with
            | some a, some b, some cc, some d =>
              let n := ((a * 16 + b) * 16 + cc) * 16 + d
              if h : n.isValidChar then
                (parseStrBody fuel r3).map (fun p => (Char.ofNat n :: p.1, p.2))
              else none
            | _, _, _, _ => none
          | _ => none
        else none
    else if c.toNat < 32 then none
    else (parseStrBody fuel rest).map (fun p => (c :: p.1, p.2))

/-- Expect a literal keyword. -/
def expectLit (kw : Str) (s : Str) : Option Str :=
  if kw.isPrefixOf s then some (s.drop kw.length) else none

mutual

/-- Fuel-bounded JSON value parser (model of `JSON.parse`; the fuel is an
artifact of the embedding and is always sufficient for the inputs the
theorems evaluate). -/
def parseVal (fuel : Nat) (s : Str) : Option (Json × Str) :=
  match fuel with
  | 0 => none
  | fuel + 1 =>
    match skipWs s with
    | [] => none
    | c :: rest =>
      if c = 'n' then (expectLit (lit "ull") rest).map (fun r => (Json.null, r))
      else if c = 't' then (expectLit (lit "rue") rest).map (fun r => (Json.bool true, r))
      else if c = 'f' then (expectLit (lit "alse") rest).map (fun r => (Json.bool false, r))
      else if c = dq then (parseStrBody (rest.length + 1) rest).map (fun p => (Json.str p.1, p.2))
      else if c = '[' then
        match skipWs rest with
        | ']' :: r => some (Json.arr [], r)
        | _ => (parseArrItems fuel rest).map (fun p => (Json.arr p.1, p.2))
      else if c = lbrace then
        match skipWs rest with
        | d :: r =>
          if d = rbrace then some (Json.obj [], r)
          else (parseObjItems fuel (d :: r)).map
            (fun p => (Json.obj (p.1.foldl (fun acc kv => objSet acc kv.1 kv.2) []), p.2))
        | [] => none
      else if isNumChar c then
        let numLit := (c :: rest).takeWhile isNumChar
        if numValid numLit then some (Json.num numLit, (c :: rest).dropWhile isNumChar)
        else none
      else none

/-- Items of a non-empty array. -/
def parseArrItems (fuel : Nat) (s : Str) : Option (List Json × Str) :=
  match fuel with
  | 0 => none
  | fuel + 1 =>
    (parseVal fuel s).bind (fun p =>
      match skipWs p.2 with
      | c :: r =>
        if c = ',' then (parseArrItems fuel r).map (fun q => (p.1 :: q.1, q.2))
        else if c = ']' then some ([p.1], r)
        else none
      | [] => none)

/-- Members of a non-empty object, as the raw key/value list in source
order. -/
def parseObjItems (fuel : Nat) (s : Str) : Option (List (Str × Json) × Str) :=
  match fuel with
  | 0 => none
  | fuel + 1 =>
    match skipWs s with
    | c :: rest =>
      if c = dq then
        (parseStrBody (rest.length + 1) rest).bind (fun kp =>
          match skipWs kp.2 with
          | d :: r2 =>
            if d = ':' then
              (parseVal fuel r2).bind (fun vp =>
                match skipWs vp.2 with
                | e :: r3 =>
                  if e = ',' then
                    (parseObjItems fuel r3).map (fun q => ((kp.1, vp.1) :: q.1, q.2))
                  else if e = rbrace then some ([(kp.1, vp.1)], r3)
                  else none
                | [] => none)
            else none
          | [] => none)
      else none
    | [] => none

end

/-- Model of `JSON.parse` on a whole document. -/
def parse (s : Str) : Option Json :=
  match parseVal (2 * s.length + 8) s with
  | some (v, rest) => if skipWs rest = [] then some v else none
  | none => none

/-- Fields of a document when it is an object, `[]` otherwise (the scripts
only ever spread / `Object.entries` objects; spreading a primitive is
outside the modelled scope and yields no own properties for all values
the pipelines produce). -/
def jFields : Json → List (Str × Json)
  | .obj fs => fs
  | _ => []

/-- Property lookup on a document. -/
def objGetJ (j : Json) (k : Str) : Option Json :=
  match j with
  | .obj fs => objGet fs k
  | _ => none

/-- Property assignment `j[k] = v` on a document; assignment to a primitive
is a silent no-op in sloppy-mode JavaScript. -/
def jObjSet (j : Json) (k : Str) (v : Json) : Json :=
  match j with
  | .obj fs => .obj (objSet fs k v)
  | _ => j

/-- Whether a number literal denotes zero. -/
def numIsZero (s : Str) : Bool :=
  ((s.takeWhile (fun c => ¬(c = 'e' ∨ c = 'E'))).filter Char.isDigit).all (· = '0')

/-- JavaScript truthiness of a JSON value. -/
def jsTruthy : Json → Bool
  | .null => false
  | .bool b => b
  | .num v => ¬ numIsZero v
  | .str s => ¬ s.isEmpty
  | .arr _ => true
  | .obj _ => true

/-- Model of `Object.keys(x).length`. -/
def jsKeysCount : Json → Nat
  | .obj fs => fs.length
  | .arr xs => xs.length
  | .str s => s.length
  | _ => 0

mutual

/-- Structural weight of a document, insensitive to the contents of
strings (the termination measure of the env walk: masking env values
replaces strings by strings and preserves the weight). -/
def jweight : Json → Nat
  | .obj fs => 1 + fweight fs
  | .arr xs => 1 + aweight xs
  | _ => 1

/-- Weight of object fields. -/
def fweight : List (Str × Json) → Nat
  | [] => 0
  | kv :: rest => 1 + jweight kv.2 + fweight rest

/-- Weight of array items. -/
def aweight : List Json → Nat
  | [] => 0
  | v :: rest => 1 + jweight v + aweight rest

end

/-- Masking pass over the entries of one `env` object (inner loop of
`extractEnvSecrets`, lines 161-179 of `extract-mcp.js`): a string value
under an allow-listed key that is non-empty and not already a placeholder
is recorded and replaced in place by `"${" + key + "}"`.  (A non-string
truthy value under such a key would crash the script on `startsWith`;
such configurations are outside the modelled scope.) -/
def maskEnvEntries (env : List (Str × Json)) (acc : List (Str × Str)) :
    List (Str × Json) × List (Str × Str) :=
  match env with
  | [] => ([], acc)
  | (k, v) :: rest =>
    match v with
    | Json.str sv =>
      if k ∈ SECRET_ENV_KEYS ∧ sv ≠ [] ∧ ¬ [dollar, lbrace].isPrefixOf sv then
        let r := maskEnvEntries rest (objSet acc k sv)
        ((k, Json.str (tokOf k)) :: r.1, r.2)
      else
        let r := maskEnvEntries rest acc
        ((k, Json.str sv) :: r.1, r.2)
    | _ =>
      let r := maskEnvEntries rest acc
      ((k, v) :: r.1, r.2)

/-- Replacement of the value of the (first) entry with the given key
(model of the property assignment `node.env = ...`; JavaScript objects
have unique keys). -/
def setFirstVal (fields : List (Str × Json)) (k : Str) (v : Json) :
    List (Str × Json) :=
  match fields with
  | [] => []
  | (k0, v0) :: rest =>
    if k0 = k then (k0, v) :: rest else (k0, v0) :: setFirstVal rest k v

theorem objGet_cons_eq {α : Type} (k : Str) (v0 : α) (rest : List (Str × α)) :
    objGet ((k, v0) :: rest) k = some v0 := by
  simp [objGet]

theorem objGet_cons_ne {α : Type} {k0 k : Str} (h : k0 ≠ k) (v0 : α)
    (rest : List (Str × α)) : objGet ((k0, v0) :: rest) k = objGet rest k := by
  simp [objGet, h]

theorem maskEnvEntries_fweight (env : List (Str × Json)) (acc : List (Str × Str)) :
    fweight (maskEnvEntries env acc).1 = fweight env := by
  induction env generalizing acc with
  | nil => simp [maskEnvEntries]
  | cons kv rest ih =>
    obtain ⟨k, v⟩ := kv
    cases v with
    | str sv =>
      simp only [maskEnvEntries]
      split
      · simp [fweight, jweight, ih]
      · simp [fweight, jweight, ih]
    | null => simp [maskEnvEntries, fweight, ih]
    | bool b => simp [maskEnvEntries, fweight, ih]
    | num n => simp [maskEnvEntries, fweight, ih]
    | arr xs => simp [maskEnvEntries, fweight, ih]
    | obj fs => simp [maskEnvEntries, fweight, ih]

theorem setFirstVal_fweight (fields : List (Str × Json)) (k : Str) (v w : Json)
    (hget : objGet fields k = some w) (hw : jweight v = jweight w) :
    fweight (setFirstVal fields k v) = fweight fields := by
  induction fields with
  | nil => simp [objGet] at hget
  | cons kv rest ih =>
    obtain ⟨k0, v0⟩ := kv
    by_cases h : k0 = k
    · subst h
      rw [objGet_cons_eq] at hget
      injection hget with hget
      subst hget
      simp [setFirstVal, fweight, hw]
    · rw [objGet_cons_ne h] at hget
      simp [setFirstVal, h, fweight, ih hget]

/-- Env lookup used by the walk: `node.env` must be a (truthy) object. -/
def envObj (fields : List (Str × Json)) : Option (List (Str × Json)) :=
  match objGet fields (lit "env") with
  | some (Json.obj envfs) => some envfs
  | _ => none

theorem envObj_weight {fields : List (Str × Json)} {envfs : List (Str × Json)}
    (h : envObj fields = some envfs) :
    objGet fields (lit "env") = some (Json.obj envfs) := by
  unfold envObj at h
  match hq : objGet fields (lit "env") with
  | some (Json.obj e) => rw [hq] at h; simp at h; rw [h]
  | some Json.null => rw [hq] at h; simp at h
  | some (Json.bool b) => rw [hq] at h; simp at h
  | some (Json.num n) => rw [hq] at h; simp at h
  | some (Json.str s) => rw [hq] at h; simp at h
  | some (Json.arr xs) => rw [hq] at h; simp at h
  | none => rw [hq] at h; simp at h

theorem objGet_mem {α : Type} {fields : List (Str × α)} {k : Str} {w : α}
    (h : objGet fields k = some w) : (k, w) ∈ fields := by
  induction fields with
  | nil => simp [objGet] at h
  | cons kv rest ih =>
    obtain ⟨k0, v0⟩ := kv
    by_cases hk : k0 = k
    · subst hk
      rw [objGet_cons_eq] at h
      injection h with h
      simp [h]
    · rw [objGet_cons_ne hk] at h
      exact List.mem_cons_of_mem _ (ih h)

theorem mem_fweight {fields : List (Str × Json)} {kv : Str × Json}
    (h : kv ∈ fields) : jweight kv.2 < 1 + fweight fields := by
  induction fields with
  | nil => simp at h
  | cons kv0 rest ih =>
    rcases List.mem_cons.mp h with h | h
    · subst h; simp [fweight]; omega
    · have := ih h
      simp [fweight]; omega

mutual

/-- Fuel-bounded body of the `walk` of `extractEnvSecrets`: mask the
entries of `node.env` first, then recurse into every value of the
(updated) node, threading the collected secrets.  The fuel (bounded below
by the structural weight) keeps the recursion structural. -/
def walkJsonF : Nat → Json → List (Str × Str) → Json × List (Str × Str)
  | 0, j, acc => (j, acc)
  | fuel + 1, Json.obj fields, acc =>
    match envObj fields with
    | some envfs =>
      let m := maskEnvEntries envfs acc
      let r := walkFieldsF fuel (setFirstVal fields (lit "env") (Json.obj m.1)) m.2
      (Json.obj r.1, r.2)
    | none =>
      let r := walkFieldsF fuel fields acc
      (Json.obj r.1, r.2)
  | fuel + 1, Json.arr xs, acc =>
    let r := walkItemsF fuel xs acc
    (Json.arr r.1, r.2)
  | _ + 1, j, acc => (j, acc)

/-- Recursion of the walk over the values of an object. -/
def walkFieldsF : Nat → List (Str × Json) → List (Str × Str) →
    List (Str × Json) × List (Str × Str)
  | 0, fs, acc => (fs, acc)
  | _ + 1, [], acc => ([], acc)
  | fuel + 1, (k, v) :: rest, acc =>
    let rv := walkJsonF fuel v acc
    let rr := walkFieldsF fuel rest rv.2
    ((k, rv.1) :: rr.1, rr.2)

/-- Recursion of the walk over the items of an array. -/
def walkItemsF : Nat → List Json → List (Str × Str) → List Json × List (Str × Str)
  | 0, xs, acc => (xs, acc)
  | _ + 1, [], acc => ([], acc)
  | fuel + 1, v :: rest, acc =>
    let rv := walkJsonF fuel v acc
    let rr := walkItemsF fuel rest rv.2
    (rv.1 :: rr.1, rr.2)

end

/-- The `walk` function applied to a whole document, with adequate fuel. -/
def walkJson (j : Json) (acc : List (Str × Str)) : Json × List (Str × Str) :=
  walkJsonF (jweight j) j acc

/-- The `extractEnvSecrets` function (lines 161-179): returns the masked
document and the collected env secrets. -/
def extractEnvSecrets (j : Json) : Json × List (Str × Str) :=
  walkJson j []

/-- JavaScript `String.prototype.replace` expansion of `$`-escapes in the
replacement string (`$$`, `$&`, backtick and quote forms); `$` followed by
anything else — including `${`, digits (the regexes have no capture
groups) and `$<` (no named groups) — is literal. -/
def expandRepl (matched before after : Str) : Str → Str
  | [] => []
  | c :: rest =>
    if c = dollar then
      match rest with
      | [] => [dollar]
      | d :: rest2 =>
        if d = dollar then dollar :: expandRepl matched before after rest2
        else if d = '&' then matched ++ expandRepl matched before after rest2
        else if d = btick then before ++ expandRepl matched before after rest2
        else if d = squote then after ++ expandRepl matched before after rest2
        else dollar :: expandRepl matched before after (d :: rest2)
    else c :: expandRepl matched before after rest

/-- Fuel-bounded body of `replaceTok`. -/
def replaceTokF (tok val : Str) : Nat → Str → Str → Str
  | _, _, [] => []
  | 0, _, s => s
  | fuel + 1, before, c :: rest =>
    if tok ≠ [] ∧ tok.isPrefixOf (c :: rest) then
      expandRepl tok before ((c :: rest).drop tok.length) val ++
        replaceTokF tok val fuel (before ++ tok) ((c :: rest).drop tok.length)
    else
      c :: replaceTokF tok val fuel (before ++ [c]) rest

/-- JavaScript `s.replace(new RegExp(escapedToken, "g"), val)`: replace
every occurrence of the literal token, expanding `$`-escapes in `val`
against the original string. -/
def replaceTok (tok val s : Str) : Str := replaceTokF tok val s.length [] s

theorem replaceTokF_stable (tok val : Str) : ∀ f1 f2 before s,
    s.length ≤ f1 → s.length ≤ f2 →
    replaceTokF tok val f1 before s = replaceTokF tok val f2 before s := by
  intro f1
  induction f1 with
  | zero =>
    intro f2 before s h1 _
    have : s = [] := List.eq_nil_of_length_eq_zero (by omega)
    subst this
    cases f2 <;> rfl
  | succ f1 ih =>
    intro f2 before s h1 h2
    match s with
    | [] => cases f2 <;> rfl
    | c :: rest =>
      cases f2 with
      | zero => simp at h2
      | succ f2 =>
        simp only [replaceTokF]
        by_cases hc : tok ≠ [] ∧ tok.isPrefixOf (c :: rest)
        · rw [if_pos hc, if_pos hc]
          have hs : 0 < tok.length := List.length_pos.mpr hc.1
          rw [ih f2 _ _ (by simp only [List.length_drop, List.length_cons] at h1 ⊢; omega)
            (by simp only [List.length_drop, List.length_cons] at h2 ⊢; omega)]
        · rw [if_neg hc, if_neg hc]
          rw [ih f2 _ rest (by simp at h1; omega) (by simp at h2; omega)]

mutual

/-- Fuel-bounded JavaScript `String(x)` coercion of a JSON value (used
when a secret value is substituted into the snapshot text). -/
def jsToStringF : Nat → Json → Str
  | _, .null => lit "null"
  | _, .bool true => lit "true"
  | _, .bool false => lit "false"
  | _, .num v => v
  | _, .str s => s
  | _, .obj _ => lit "[object Object]"
  | 0, .arr _ => []
  | fuel + 1, .arr xs => jsArrJoinF fuel xs

/-- Elements of an array joined by commas (`Array.prototype.toString`);
`null` elements render as empty. -/
def jsArrJoinF : Nat → List Json → Str
  | 0, _ => []
  | _ + 1, [] => []
  | fuel + 1, [x] => jsArrElemF fuel x
  | fuel + 1, x :: y :: r => jsArrElemF fuel x ++ ',' :: jsArrJoinF fuel (y :: r)

/-- One array element under `join`. -/
def jsArrElemF : Nat → Json → Str
  | 0, _ => []
  | _ + 1, .null => []
  | fuel + 1, j => jsToStringF fuel j

end

/-- JavaScript `String(x)` with adequate fuel. -/
def jsToString (j : Json) : Str := jsToStringF (3 * jweight j) j

/-- The candidate code-directory names probed by both tools. -/
def CANDIDATE_DIRS : List Str := [lit "code", lit "repos", lit "projects", lit "src"]

/-- Model of `path.join(home, d)` for the names the scripts join. -/
def pathJoin (a b : Str) : Str := a ++ ('/' :: b)

/-- Files the tools write. -/
inductive FileTag where
  | machineCfg : FileTag
  | snapshot : FileTag
  | secretsFile : FileTag
  | liveCfg : FileTag
deriving DecidableEq

/-- Fatal outcomes of a run. -/
inductive RunErr where
  | parseError : RunErr
  | configError : RunErr
deriving DecidableEq

/-- Result of resolving the code directory (lines 85-103 of
`extract-mcp.js`, lines 11-27 of `restore-mcp.js`): the directory and an
optional machine-config write, or a fatal error.  The tool itself always
writes `codeDir` as a string; a machine config whose `codeDir` field is
missing or non-string is outside the modelled scope (the script would
then splice the text `undefined` into paths). -/
def resolveCodeDir (home : Str) (dirExists : Str → Bool)
    (machineCfgFile : Option Str) :
    Option (Str × Option Str) × Option RunErr :=
  match machineCfgFile with
  | some t =>
    match parse t with
    | none => (none, some RunErr.parseError)
    | some j =>
      match objGetJ j (lit "codeDir") with
      | some (Json.str c) => (some (c, none), none)
      | _ => (some ([], none), none)
  | none =>
    match (CANDIDATE_DIRS.map (pathJoin home)).find? dirExists with
    | none => (none, some RunErr.configError)
    | some c =>
      (some (c, some (renderJ (Json.obj [(lit "codeDir", Json.str c)]) 0)), none)

/-- One project entry of the snapshot shape (lines 154-158): kept when the
path is not `"*"` and the project's `mcpServers` is truthy with at least
one key. -/
def projEntry (pv : Str × Json) : Option (Str × Json) :=
  if pv.1 = lit "*" then none
  else
    match objGetJ pv.2 (lit "mcpServers") with
    | some m => if jsTruthy m ∧ 0 < jsKeysCount m then some (pv.1, m) else none
    | none => none

/-- The snapshot object `allMcp = { global, projects }` built from the
live configuration (lines 149-158). -/
def buildAllMcp (cfg : Json) : Json :=
  let globalMcp : Json :=
    match objGetJ cfg (lit "mcpServers") with
    | some g => if jsTruthy g then g else Json.obj []
    | none => Json.obj []
  let projSrc : List (Str × Json) :=
    match objGetJ cfg (lit "projects") with
    | some p => if jsTruthy p then jFields p else []
    | none => []
  Json.obj [(lit "global", globalMcp),
            (lit "projects", Json.obj (projSrc.filterMap projEntry))]

/-- Outcome of one tool run: the files written, in order, and the fatal
error if the run aborted. -/
structure ToolRun where
  writes : List (FileTag × Str)
  err : Option RunErr

/-- The extractor pipeline (`extract-mcp.js`): resolve the code directory
(possibly persisting it), parse the live configuration, build and
sanitize the snapshot, write it, and merge the discovered secrets into
the secrets store. -/
def runExtract (home : Str) (dirExists : Str → Bool) (machineCfgFile : Option Str)
    (liveCfgFile : Str) (secretsFile : Option Str) : ToolRun :=
  match resolveCodeDir home dirExists machineCfgFile with
  | (none, e) => ⟨[], e⟩
  | (some (codeDir, mcWrite), _) =>
    let w0 : List (FileTag × Str) :=
      match mcWrite with
      | some t => [(FileTag.machineCfg, t)]
      | none => []
    match parse liveCfgFile with
    | none => ⟨w0, some RunErr.parseError⟩
    | some cfg =>
      let allMcp := buildAllMcp cfg
      let walked := extractEnvSecrets allMcp
      let jsonStr := renderJ walked.1 0
      let t1 := abstractPaths codeDir home jsonStr
      let es := extractSecrets t1
      let secrets := objMerge walked.2 es.2
      let w1 := w0 ++ [(FileTag.snapshot, es.1)]
      if secrets.isEmpty then ⟨w1, none⟩
      else
        match secretsFile with
        | some t =>
          match parse t with
          | none => ⟨w1, some RunErr.parseError⟩
          | some ex =>
            let merged := objMerge (jFields ex)
              (secrets.map (fun q => (q.1, Json.str q.2)))
            ⟨w1 ++ [(FileTag.secretsFile, renderJ (Json.obj merged) 0)], none⟩
        | none =>
          let merged := secrets.map (fun q => (q.1, Json.str q.2))
          ⟨w1 ++ [(FileTag.secretsFile, renderJ (Json.obj merged) 0)], none⟩

/-- Outcome of a restorer run: files written, fatal error, whether the
missing-secrets warning was printed, and the reported project counts. -/
structure RestoreRun where
  writes : List (FileTag × Str)
  err : Option RunErr
  warnedNoSecrets : Bool
  restoredProjects : Nat
  skippedProjects : Nat

/-- Fields of `cfg.projects || \x7b\x7d` as read by the restorer. -/
def projFieldsOf (cfg : Json) : List (Str × Json) :=
  match objGetJ cfg (lit "projects") with
  | some p => if jsTruthy p then jFields p else []
  | none => []

/-- Fields of an optional value defaulted to the empty object
(`x || \x7b\x7d` followed by object use). -/
def truthyFields (e : Option Json) : List (Str × Json) :=
  match e with
  | some x => if jsTruthy x then jFields x else []
  | none => []

/-- One iteration of the project-restore loop (lines 68-81 of
`restore-mcp.js`): skip the project when its directory does not exist,
otherwise union its servers into the live configuration. -/
def restoreProjStep (dirExists : Str → Bool) (acc : Json × Nat × Nat)
    (pv : Str × Json) : Json × Nat × Nat :=
  if ¬ dirExists pv.1 then (acc.1, acc.2.1, acc.2.2 + 1)
  else
    let cfg := acc.1
    let projsF := projFieldsOf cfg
    let entryF := truthyFields (objGet projsF pv.1)
    let existing := truthyFields (objGet entryF (lit "mcpServers"))
    let entry2 := objSet entryF (lit "mcpServers")
      (Json.obj (objMerge existing (jFields pv.2)))
    let projs2 := objSet projsF pv.1 (Json.obj entry2)
    (jObjSet cfg (lit "projects") (Json.obj projs2), acc.2.1 + 1, acc.2.2)

/-- Global-server merge of the restorer (lines 60-63 of
`restore-mcp.js`): union existing servers with the snapshot's, incoming
entries overwriting same-named existing ones; skipped when the snapshot
global section is absent or empty. -/
def restoreGlobal (backup cfg0 : Json) : Json :=
  match objGetJ backup (lit "global") with
  | some g =>
    if jsTruthy g ∧ 0 < jsKeysCount g then
      let existing : List (Str × Json) :=
        match objGetJ cfg0 (lit "mcpServers") with
        | some m => if jsTruthy m then jFields m else []
        | none => []
      jObjSet cfg0 (lit "mcpServers") (Json.obj (objMerge existing (jFields g)))
    else cfg0
  | none => cfg0

/-- Project-restore loop of the restorer (lines 66-81). -/
def restoreProjects (dirExists : Str → Bool) (backup cfg1 : Json) :
    Json × Nat × Nat :=
  (projFieldsOf backup).foldl (restoreProjStep dirExists) (cfg1, 0, 0)

/-- Secret substitution into the snapshot text (lines 40-49): replace
every `${KEY}` by the stored value, one store entry at a time. -/
def substSecrets (secretsFields : List (Str × Json)) (s : Str) : Str :=
  secretsFields.foldl (fun acc kv => replaceTok (tokOf kv.1) (jsToString kv.2) acc) s

/-- The restorer pipeline (`restore-mcp.js`): resolve the code directory,
substitute paths and secrets into the snapshot text, parse it, merge into
the live configuration and write it back. -/
def runRestore (home : Str) (dirExists : Str → Bool) (machineCfgFile : Option Str)
    (snapshotFile : Str) (secretsFile : Option Str) (liveCfgFile : Option Str) :
    RestoreRun :=
  match resolveCodeDir home dirExists machineCfgFile with
  | (none, e) => ⟨[], e, false, 0, 0⟩
  | (some (codeDir, mcWrite), _) =>
    let w0 : List (FileTag × Str) :=
      match mcWrite with
      | some t => [(FileTag.machineCfg, t)]
      | none => []
    let b1 := splitJoin (tokOf (lit "CODE_DIR")) codeDir snapshotFile
    let b2 := splitJoin (tokOf (lit "HOME")) home b1
    let subst : Option (Str × Bool) :=
      match secretsFile with
      | some t =>
        match parse t with
        | none => none
        | some sec => some (substSecrets (jFields sec) b2, false)
      | none => some (b2, true)
    match subst with
    | none => ⟨w0, some RunErr.parseError, false, 0, 0⟩
    | some (b3, warned) =>
      match parse b3 with
      | none => ⟨w0, some RunErr.parseError, warned, 0, 0⟩
      | some backup =>
        let cfg0? : Option Json :=
          match liveCfgFile with
          | some t => parse t
          | none => some (Json.obj [])
        match cfg0? with
        | none => ⟨w0, some RunErr.parseError, warned, 0, 0⟩
        | some cfg0 =>
          let looped := restoreProjects dirExists backup (restoreGlobal backup cfg0)
          ⟨w0 ++ [(FileTag.liveCfg, renderJ looped.1 0)], none, warned,
            looped.2.1, looped.2.2⟩

/-! Semantics of the regex engine: matches, gaps, decomposition. -/

/-- A string is a match of the pattern: the literal prefix followed by a
non-empty run of class characters. -/
def isPatMatch (p : SecPat) (m : Str) : Prop :=
  ∃ run : Str, run ≠ [] ∧ (∀ c ∈ run, p.cls c = true) ∧ m = p.pref ++ run

/-- The text contains a match of the pattern somewhere. -/
def HasMatch (p : SecPat) (s : Str) : Prop :=
  ∃ m, isPatMatch p m ∧ m <:+: s

/-- Every position of `g`, continued by `k`, fails to start a match. -/
def failAll (p : SecPat) (g k : Str) : Prop :=
  ∀ g1 c g2, g = g1 ++ c :: g2 → tryMatch p (c :: (g2 ++ k)) = none

theorem failAll_nil (p : SecPat) (k : Str) : failAll p [] k := by
  intro g1 c g2 h
  exact absurd h (by simp)

theorem failAll_cons {p : SecPat} {c : Char} {g k : Str}
    (h0 : tryMatch p (c :: (g ++ k)) = none) (h1 : failAll p g k) :
    failAll p (c :: g) k := by
  intro g1 d g2 he
  cases g1 with
  | nil =>
    simp only [List.nil_append, List.cons.injEq] at he
    obtain ⟨rfl, rfl⟩ := he
    exact h0
  | cons e g1' =>
    simp only [List.cons_append, List.cons.injEq] at he
    exact h1 g1' d g2 he.2

theorem takeRun_mem (cls : Char → Bool) (s : Str) :
    ∀ c ∈ (takeRun cls s).1, cls c = true := by
  induction s with
  | nil => simp [takeRun]
  | cons c rest ih =>
    simp only [takeRun]
    by_cases h : cls c
    · simp only [h, if_true]
      intro d hd
      rcases List.mem_cons.mp hd with rfl | hd
      · exact h
      · exact ih d hd
    · simp [h]

theorem takeRun_nonempty {cls : Char → Bool} {c : Char} (rest : Str)
    (h : cls c = true) : (takeRun cls (c :: rest)).1 ≠ [] := by
  simp [takeRun, h]

theorem tryMatch_isPatMatch {p : SecPat} {s m t : Str}
    (h : tryMatch p s = some (m, t)) : isPatMatch p m := by
  unfold tryMatch at h
  by_cases hp : p.pref.isPrefixOf s
  · simp only [hp, if_true] at h
    by_cases hr : (takeRun p.cls (s.drop p.pref.length)).1 = []
    · simp [hr] at h
    · simp only [hr, if_false, Option.some.injEq, Prod.mk.injEq] at h
      exact ⟨_, hr, takeRun_mem _ _, h.1.symm⟩
  · simp [hp] at h

theorem isPatMatch_ne_nil {p : SecPat} {m : Str} (h : isPatMatch p m) : m ≠ [] := by
  obtain ⟨run, hne, _, rfl⟩ := h
  simp [hne]

theorem tryMatch_pos {p : SecPat} {m : Str} (hm : isPatMatch p m) (rest : Str) :
    tryMatch p (m ++ rest) ≠ none := by
  obtain ⟨run, hne, hcls, rfl⟩ := hm
  unfold tryMatch
  have hpre : p.pref.isPrefixOf ((p.pref ++ run) ++ rest) = true := by
    rw [List.append_assoc]
    exact List.isPrefixOf_iff_prefix.mpr ⟨run ++ rest, rfl⟩
  rw [hpre]
  simp only [if_true]
  have hdrop : ((p.pref ++ run) ++ rest).drop p.pref.length = run ++ rest := by
    rw [List.append_assoc, List.drop_left]
  rw [hdrop]
  cases run with
  | nil => exact absurd rfl hne
  | cons c rs =>
    have hc : p.cls c = true := hcls c (by simp)
    have := takeRun_nonempty (rs ++ rest) hc
    simp only [List.cons_append]
    rw [if_neg (by simpa using this)]
    simp

theorem failAll_no_occ {p : SecPat} {g k x m y : Str}
    (hf : failAll p g k) (hm : isPatMatch p m) (he : g = x ++ m ++ y) : False := by
  obtain ⟨c, m', rfl⟩ := List.exists_cons_of_ne_nil (isPatMatch_ne_nil hm)
  have h0 := hf x c (m' ++ y) (by rw [he]; simp)
  apply tryMatch_pos hm (y ++ k)
  simpa [List.append_assoc] using h0

theorem scanPat_decomp (p : SecPat) (tok : Str) (s : Str) :
    ((scanPat p tok s).1 = [] ∧ (scanPat p tok s).2 = s ∧ failAll p s []) ∨
    (∃ g m tail,
      s = g ++ m ++ tail ∧ isPatMatch p m ∧ failAll p g (m ++ tail) ∧
      (scanPat p tok s).1 = m :: (scanPat p tok tail).1 ∧
      (scanPat p tok s).2 = g ++ tok ++ (scanPat p tok tail).2) := by
  generalize hn : s.length = n
  induction n using Nat.strong_induction_on generalizing s with
  | _ n ih =>
    subst hn
    match s with
    | [] => exact Or.inl ⟨rfl, rfl, failAll_nil p []⟩
    | c :: rest =>
      cases htm : tryMatch p (c :: rest) with
      | some mt =>
        obtain ⟨m, t⟩ := mt
        right
        refine ⟨[], m, t, ?_, tryMatch_isPatMatch htm, failAll_nil _ _, ?_, ?_⟩
        · simpa using (tryMatch_consume htm).1
        · rw [scanPat_cons_some tok htm]
        · rw [scanPat_cons_some tok htm]; simp
      | none =>
        have hlt : rest.length < (c :: rest).length := by simp
        rcases ih rest.length hlt rest rfl with ⟨h1, h2, h3⟩ |
          ⟨g, m, tail, hs, hm, hf, hm1, hm2⟩
        · left
          refine ⟨?_, ?_, ?_⟩
          · rw [scanPat_cons_none tok htm]; simpa using h1
          · rw [scanPat_cons_none tok htm]; simpa using h2
          · exact failAll_cons (by simpa using htm) h3
        · right
          refine ⟨c :: g, m, tail, by simp [hs], hm, ?_, ?_, ?_⟩
          · refine failAll_cons ?_ hf
            have hr : g ++ (m ++ tail) = rest := by rw [hs, List.append_assoc]
            rw [hr]
            exact htm
          · rw [scanPat_cons_none tok htm]; simpa using hm1
          · rw [scanPat_cons_none tok htm]; simp [hm2]

/-- Interleaving of `n+1` gaps with `n` pieces. -/
def interleave : List Str → List Str → Str
  | [g], [] => g
  | g :: gaps, m :: ms => g ++ m ++ interleave gaps ms
  | _, _ => []

theorem scanPat_interleave (p : SecPat) (tok : Str) (s : Str) :
    ∃ gaps, gaps.length = (scanPat p tok s).1.length + 1 ∧
      s = interleave gaps (scanPat p tok s).1 ∧
      (scanPat p tok s).2 =
        interleave gaps ((scanPat p tok s).1.map (fun _ => tok)) ∧
      (∀ m ∈ (scanPat p tok s).1, isPatMatch p m) := by
  generalize hn : s.length = n
  induction n using Nat.strong_induction_on generalizing s with
  | _ n ih =>
    subst hn
    rcases scanPat_decomp p tok s with ⟨h1, h2, _⟩ |
      ⟨g, m, tail, hs, hm, _, hm1, hm2⟩
    · exact ⟨[s], by simp [h1], by simp [h1, h2, interleave],
        by simp [h1, h2, interleave], by simp [h1]⟩
    · have hlt : tail.length < s.length := by
        rw [hs]
        have := isPatMatch_ne_nil hm
        have : 0 < m.length := List.length_pos.mpr this
        simp only [List.length_append]
        omega
      obtain ⟨gaps, hg1, hg2, hg3, hg4⟩ := ih tail.length hlt tail rfl
      refine ⟨g :: gaps, by simp [hm1, hg1], ?_, ?_, ?_⟩
      · rw [hm1]
        simp only [interleave]
        rw [hs, ← hg2]
      · rw [hm1, hm2]
        simp only [List.map_cons, interleave]
        rw [← hg3]
      · intro m' hm'
        rw [hm1] at hm'
        rcases List.mem_cons.mp hm' with rfl | hm'
        · exact hm
        · exact hg4 m' hm'

theorem infix_append_split {α : Type} {m a b : List α} (h : m <:+: a ++ b) :
    m <:+: a ∨ m <:+: b ∨
      ∃ m1 m2, m = m1 ++ m2 ∧ m1 ≠ [] ∧ m2 ≠ [] ∧ m1 <:+ a ∧ m2 <+: b := by
  obtain ⟨x, y, hxy⟩ := h
  rcases List.append_eq_append_iff.mp
      (show (x ++ m) ++ y = a ++ b by simpa [List.append_assoc] using hxy) with
    ⟨a', ha1, ha2⟩ | ⟨c', hc1, hc2⟩
  · exact Or.inl ⟨x, a', by rw [ha1, List.append_assoc]⟩
  · rcases List.append_eq_append_iff.mp hc1 with ⟨a2, hb1, hb2⟩ | ⟨x2, hd1, hd2⟩
    · by_cases hc0 : c' = []
      · subst hc0
        left
        refine ⟨x, [], ?_⟩
        simp only [List.append_nil] at hb2 ⊢
        rw [hb1, hb2]
      · by_cases ha20 : a2 = []
        · subst ha20
          right; left
          simp only [List.nil_append] at hb2
          refine ⟨[], y, ?_⟩
          rw [hc2, ← hb2]
          simp
        · right; right
          exact ⟨a2, c', hb2, ha20, hc0, ⟨x, hb1.symm⟩, ⟨y, hc2.symm⟩⟩
    · right; left
      exact ⟨x2, y, by rw [hc2, hd2, List.append_assoc]⟩

/-- Decidable facts about a secret pattern needed for the masking proofs:
the prefix is non-empty, neither prefix nor class contains the placeholder
delimiter characters, and the prefix contains a lower-case letter (so a
match can never sit inside a placeholder name, which is upper case). -/
def PatOk (p : SecPat) : Prop :=
  p.pref ≠ [] ∧ dollar ∉ p.pref ∧ lbrace ∉ p.pref ∧ rbrace ∉ p.pref ∧
  p.cls dollar = false ∧ p.cls lbrace = false ∧ p.cls rbrace = false ∧
  ∃ c ∈ p.pref, c.isLower = true

/-- Decidable facts about a placeholder token: non-empty, starts with `$`,
ends with the closing brace, and contains no lower-case letter. -/
def TokOk (tok : Str) : Prop :=
  tok ≠ [] ∧ tok.head? = some dollar ∧ tok.getLast? = some rbrace ∧
  ∀ c ∈ tok, c.isLower = false

instance (p : SecPat) : Decidable (PatOk p) := by unfold PatOk; infer_instance

instance (tok : Str) : Decidable (TokOk tok) := by unfold TokOk; infer_instance

theorem patOk_all : ∀ p ∈ SECRET_PATTERNS, PatOk p := by decide

theorem tokOk_patterns : ∀ p ∈ SECRET_PATTERNS, TokOk (tokOf p.name) := by decide

theorem match_no_special {p : SecPat} (hp : PatOk p) {m : Str}
    (hm : isPatMatch p m) : dollar ∉ m ∧ lbrace ∉ m ∧ rbrace ∉ m := by
  obtain ⟨run, _, hcls, rfl⟩ := hm
  obtain ⟨_, hd, hlb, hrb, hcd, hcl, hcr, _⟩ := hp
  refine ⟨?_, ?_, ?_⟩ <;> intro hmem
  · rcases List.mem_append.mp hmem with h | h
    · exact hd h
    · rw [hcls _ h] at hcd; simp at hcd
  · rcases List.mem_append.mp hmem with h | h
    · exact hlb h
    · rw [hcls _ h] at hcl; simp at hcl
  · rcases List.mem_append.mp hmem with h | h
    · exact hrb h
    · rw [hcls _ h] at hcr; simp at hcr

theorem match_has_lower {p : SecPat} (hp : PatOk p) {m : Str}
    (hm : isPatMatch p m) : ∃ c ∈ m, c.isLower = true := by
  obtain ⟨run, _, _, rfl⟩ := hm
  obtain ⟨_, _, _, _, _, _, _, c, hc, hl⟩ := hp
  exact ⟨c, List.mem_append.mpr (Or.inl hc), hl⟩

theorem prefix_cons_head {α : Type} {m : List α} {c : α} {rest : List α}
    (h : m <+: c :: rest) (hne : m ≠ []) : c ∈ m := by
  cases m with
  | nil => exact absurd rfl hne
  | cons d m' =>
    have := List.cons_prefix_cons.mp h
    rw [this.1]
    simp

theorem suffix_getLast_mem {α : Type} {m t : List α} (h : m <:+ t)
    (hne : m ≠ []) {x : α} (hx : t.getLast? = some x) : x ∈ m := by
  obtain ⟨u, rfl⟩ := h
  rw [List.getLast?_append_of_ne_nil u hne] at hx
  exact List.mem_of_mem_getLast? hx

/-- A match of a well-formed pattern that occurs in the output of a scan
with a well-formed token already occurred in the input: placeholder
insertion never creates a pattern match. -/
theorem scan_match_infix_to_src (q : SecPat) (tokq : Str) (p : SecPat)
    (htok : TokOk tokq) (hp : PatOk p) (s : Str) {m : Str}
    (hm : isPatMatch p m) (hinf : m <:+: (scanPat q tokq s).2) : m <:+: s := by
  generalize hn : s.length = n
  induction n using Nat.strong_induction_on generalizing s with
  | _ n ih =>
    subst hn
    rcases scanPat_decomp q tokq s with ⟨_, h2, _⟩ |
      ⟨g, mq, tail, hs, hmq, _, _, hm2⟩
    · rwa [h2] at hinf
    · rw [hm2] at hinf
      have hinf' : m <:+: g ++ (tokq ++ (scanPat q tokq tail).2) := by
        simpa [List.append_assoc] using hinf
      have hgpre : g <+: s := ⟨mq ++ tail, by rw [hs, List.append_assoc]⟩
      have htailsuf : tail <:+ s := ⟨g ++ mq, by rw [hs, List.append_assoc]⟩
      rcases infix_append_split hinf' with hcase | hcase | ⟨m1, m2, hm12, h1ne, h2ne, _, hpref⟩
      · exact hcase.trans hgpre.isInfix
      · rcases infix_append_split hcase with hc2 | hc2 | ⟨m1, m2, hm12, h1ne, h2ne, hsuf, _⟩
        · exfalso
          obtain ⟨c, hcm, hcl⟩ := match_has_lower hp hm
          have : c ∈ tokq := hc2.subset hcm
          rw [htok.2.2.2 c this] at hcl
          exact Bool.false_ne_true hcl
        · have hlt : tail.length < s.length := by
            rw [hs]
            have := List.length_pos.mpr (isPatMatch_ne_nil hmq)
            simp only [List.length_append]
            omega
          exact (ih tail.length hlt tail hc2 rfl).trans htailsuf.isInfix
        · exfalso
          have hrb : rbrace ∈ m1 := suffix_getLast_mem hsuf h1ne htok.2.2.1
          have : rbrace ∈ m := by rw [hm12]; exact List.mem_append.mpr (Or.inl hrb)
          exact (match_no_special hp hm).2.2 this
      · exfalso
        obtain ⟨tne, hhead, _, _⟩ := htok
        obtain ⟨d, tokq', rfl⟩ := List.exists_cons_of_ne_nil tne
        simp only [List.head?_cons, Option.some.injEq] at hhead
        subst hhead
        have hd : dollar ∈ m2 := prefix_cons_head (by simpa using hpref) h2ne
        have : dollar ∈ m := by rw [hm12]; exact List.mem_append.mpr (Or.inr hd)
        exact (match_no_special hp hm).1 this

/-- After the scan for a pattern, its output contains no match of that
pattern at all: every match was replaced, and no new one was created. -/
theorem scan_output_no_match (p : SecPat) (tok : Str) (htok : TokOk tok)
    (hp : PatOk p) (s : Str) {m : Str} (hm : isPatMatch p m) :
    ¬ m <:+: (scanPat p tok s).2 := by
  generalize hn : s.length = n
  induction n using Nat.strong_induction_on generalizing s with
  | _ n ih =>
    subst hn
    intro hinf
    rcases scanPat_decomp p tok s with ⟨_, h2, h3⟩ |
      ⟨g, mq, tail, hs, hmq, hfail, _, hm2⟩
    · rw [h2] at hinf
      obtain ⟨x, y, hxy⟩ := hinf
      exact failAll_no_occ h3 hm hxy.symm
    · rw [hm2] at hinf
      have hinf' : m <:+: g ++ (tok ++ (scanPat p tok tail).2) := by
        simpa [List.append_assoc] using hinf
      rcases infix_append_split hinf' with hcase | hcase | ⟨m1, m2, hm12, h1ne, h2ne, _, hpref⟩
      · obtain ⟨x, y, hxy⟩ := hcase
        exact failAll_no_occ hfail hm hxy.symm
      · rcases infix_append_split hcase with hc2 | hc2 | ⟨m1, m2, hm12, h1ne, h2ne, hsuf, _⟩
        · obtain ⟨c, hcm, hcl⟩ := match_has_lower hp hm
          have : c ∈ tok := hc2.subset hcm
          rw [htok.2.2.2 c this] at hcl
          exact Bool.false_ne_true hcl
        · have hlt : tail.length < s.length := by
            rw [hs]
            have := List.length_pos.mpr (isPatMatch_ne_nil hmq)
            simp only [List.length_append]
            omega
          exact ih tail.length hlt tail rfl hc2
        · have hrb : rbrace ∈ m1 := suffix_getLast_mem hsuf h1ne htok.2.2.1
          have : rbrace ∈ m := by rw [hm12]; exact List.mem_append.mpr (Or.inl hrb)
          exact (match_no_special hp hm).2.2 this
      · obtain ⟨tne, hhead, _, _⟩ := htok
        obtain ⟨d, tok', rfl⟩ := List.exists_cons_of_ne_nil tne
        simp only [List.head?_cons, Option.some.injEq] at hhead
        subst hhead
        have hd : dollar ∈ m2 := prefix_cons_head (by simpa using hpref) h2ne
        have : dollar ∈ m := by rw [hm12]; exact List.mem_append.mpr (Or.inr hd)
        exact (match_no_special hp hm).1 this

theorem hasMatch_iff_scan (p : SecPat) (tok s : Str) :
    HasMatch p s ↔ (scanPat p tok s).1 ≠ [] := by
  constructor
  · rintro ⟨m, hm, x, y, hxy⟩
    rcases scanPat_decomp p tok s with ⟨h1, h2, h3⟩ |
      ⟨g, mm, tail, hs, _, _, hm1, _⟩
    · exact (failAll_no_occ h3 hm hxy.symm).elim
    · rw [hm1]; simp
  · intro h
    rcases scanPat_decomp p tok s with ⟨h1, _, _⟩ |
      ⟨g, m, tail, hs, hm, _, hm1, _⟩
    · exact absurd h1 h
    · exact ⟨m, hm, g, tail, hs.symm⟩

theorem leftmost_of_failAll {p : SecPat} {g mid tail : Str}
    (hf : failAll p g (mid ++ tail)) (m' x y : Str) (hm : isPatMatch p m')
    (he : g ++ (mid ++ tail) = x ++ (m' ++ y)) : g.length ≤ x.length := by
  by_contra hlt
  push_neg at hlt
  rcases List.append_eq_append_iff.mp he with ⟨a', ha1, ha2⟩ | ⟨c', hc1, hc2⟩
  · rw [ha1] at hlt
    rw [List.length_append] at hlt
    omega
  · have hc'ne : c' ≠ [] := by
      intro h0
      subst h0
      simp only [List.append_nil] at hc1
      rw [hc1] at hlt
      omega
    obtain ⟨d, c'', rfl⟩ := List.exists_cons_of_ne_nil hc'ne
    have h0 := hf x d c'' hc1
    apply tryMatch_pos hm y
    rw [hc2]
    simpa [List.append_assoc] using h0

/-- The step records the leftmost match of the pattern: the text splits as
gap, match, tail, and no match occurrence starts inside the gap. -/
def RecordsFirst (p : SecPat) (s v : Str) : Prop :=
  ∃ g tail, s = g ++ v ++ tail ∧ isPatMatch p v ∧
    ∀ x m' y, isPatMatch p m' → s = x ++ m' ++ y → g.length ≤ x.length

/-- The output is the input with every match (possibly several, with
distinct values) replaced by the single placeholder token. -/
def MasksAll (p : SecPat) (tok s out : Str) : Prop :=
  ∃ gaps ms, ms ≠ [] ∧ (∀ m ∈ ms, isPatMatch p m) ∧
    s = interleave gaps ms ∧ out = interleave gaps (ms.map (fun _ => tok))

/-- C3: for every document text and every secret pattern, if the pattern
has at least one match then the step records the first match (in document
order) under the pattern name and replaces all matches — including
distinct values — with the single placeholder token; if the pattern has
no match, no entry is recorded and the text is unchanged. -/
theorem claim_C3 (p : SecPat) (s : Str) (σ : List (Str × Str)) :
    (¬ HasMatch p s → extractSecretsStep (s, σ) p = (s, σ)) ∧
    (HasMatch p s → ∃ v,
      extractSecretsStep (s, σ) p =
        ((scanPat p (tokOf p.name) s).2, objSet σ p.name v) ∧
      RecordsFirst p s v ∧
      MasksAll p (tokOf p.name) s (scanPat p (tokOf p.name) s).2) := by
  constructor
  · intro hno
    have h0 : (scanPat p (tokOf p.name) s).1 = [] := by
      by_contra hne
      exact hno ((hasMatch_iff_scan p (tokOf p.name) s).mpr hne)
    simp [extractSecretsStep, h0]
  · intro hyes
    have h0 : (scanPat p (tokOf p.name) s).1 ≠ [] :=
      (hasMatch_iff_scan p (tokOf p.name) s).mp hyes
    rcases scanPat_decomp p (tokOf p.name) s with ⟨h1, _, _⟩ |
      ⟨g, m, tail, hs, hm, hf, hm1, hm2⟩
    · exact absurd h1 h0
    refine ⟨m, ?_, ?_, ?_⟩
    · simp [extractSecretsStep, hm1]
    · refine ⟨g, tail, hs, hm, ?_⟩
      intro x m' y hm' he
      refine leftmost_of_failAll hf m' x y hm' ?_
      rw [← List.append_assoc, ← hs, he, List.append_assoc]
    · obtain ⟨gaps, _, hg2, hg3, hg4⟩ := scanPat_interleave p (tokOf p.name) s
      exact ⟨gaps, (scanPat p (tokOf p.name) s).1, by rw [hm1]; simp, hg4, hg2, hg3⟩

/-- Witness for C3 at a concrete text with two distinct matches of the
`sk_test_` pattern. -/
theorem claim_C3_witness :
    HasMatch ⟨lit "sk_test_", clsAlnum, lit "STRIPE_TEST_API_KEY"⟩ (lit "a sk_test_X b sk_test_YY c") ∧
    (∃ v,
      extractSecretsStep (lit "a sk_test_X b sk_test_YY c", []) ⟨lit "sk_test_", clsAlnum, lit "STRIPE_TEST_API_KEY"⟩ =
        ((scanPat ⟨lit "sk_test_", clsAlnum, lit "STRIPE_TEST_API_KEY"⟩ (tokOf (lit "STRIPE_TEST_API_KEY")) (lit "a sk_test_X b sk_test_YY c")).2,
          objSet [] (lit "STRIPE_TEST_API_KEY") v) ∧
      RecordsFirst ⟨lit "sk_test_", clsAlnum, lit "STRIPE_TEST_API_KEY"⟩ (lit "a sk_test_X b sk_test_YY c") v ∧
      MasksAll ⟨lit "sk_test_", clsAlnum, lit "STRIPE_TEST_API_KEY"⟩ (tokOf (lit "STRIPE_TEST_API_KEY")) (lit "a sk_test_X b sk_test_YY c")
        (scanPat ⟨lit "sk_test_", clsAlnum, lit "STRIPE_TEST_API_KEY"⟩ (tokOf (lit "STRIPE_TEST_API_KEY")) (lit "a sk_test_X b sk_test_YY c")).2) := by
  have hm : HasMatch ⟨lit "sk_test_", clsAlnum, lit "STRIPE_TEST_API_KEY"⟩ (lit "a sk_test_X b sk_test_YY c") :=
    (hasMatch_iff_scan _ (tokOf (lit "STRIPE_TEST_API_KEY")) _).mpr (by decide)
  exact ⟨hm, (claim_C3 _ _ []).2 hm⟩

theorem prefix_append_cases {α : Type} {s a b : List α} (h : s <+: a ++ b) :
    s <+: a ∨ ∃ r, s = a ++ r ∧ r <+: b := by
  obtain ⟨u, hu⟩ := h
  rcases List.append_eq_append_iff.mp hu with ⟨a', h1, h2⟩ | ⟨c', h1, h2⟩
  · exact Or.inl ⟨a', h1.symm⟩
  · exact Or.inr ⟨c', h1, u, h2.symm⟩

theorem splitJoin_head_match (sep repl t : Str) (hne : sep ≠ []) :
    splitJoin sep repl (sep ++ t) = repl ++ splitJoin sep repl t := by
  obtain ⟨c, sep', hsep⟩ := List.exists_cons_of_ne_nil hne
  subst hsep
  have hpre : (c :: sep').isPrefixOf ((c :: sep') ++ t) = true :=
    List.isPrefixOf_iff_prefix.mpr ⟨t, rfl⟩
  rw [List.cons_append]
  rw [splitJoin_cons_pos repl ⟨hne, by rw [← List.cons_append]; exact hpre⟩]
  congr 1
  rw [← List.cons_append, List.drop_left]

theorem splitJoin_no_match_pfx (sep repl : Str) {block rest : Str}
    (hfail : ∀ x c y, block = x ++ c :: y →
      ¬ sep.isPrefixOf (c :: (y ++ rest)) = true) :
    splitJoin sep repl (block ++ rest) = block ++ splitJoin sep repl rest := by
  induction block with
  | nil => simp
  | cons c b ih =>
    rw [List.cons_append]
    rw [splitJoin_cons_neg repl (fun hand => hfail [] c b rfl (by simpa using hand.2))]
    rw [ih (fun x d y hxy => hfail (c :: x) d y (by rw [hxy]; rfl))]
    rfl

theorem token_block_fail {sep : Str} (block : Str)
    (hlast : block.getLast? = some rbrace)
    (hrb : rbrace ∉ sep) (hinf : ¬ sep <:+: block) (rest : Str) :
    ∀ x c y, block = x ++ c :: y →
      ¬ sep.isPrefixOf (c :: (y ++ rest)) = true := by
  intro x c y hxy hp
  have hpre : sep <+: (c :: y) ++ rest := by
    simpa using List.isPrefixOf_iff_prefix.mp hp
  have hsuf : (c :: y) <:+ block := ⟨x, hxy.symm⟩
  rcases prefix_append_cases hpre with hca | ⟨r, hr1, _⟩
  · exact hinf (hca.isInfix.trans hsuf.isInfix)
  · apply hrb
    have hmem : rbrace ∈ c :: y := suffix_getLast_mem hsuf (by simp) hlast
    rw [hr1]
    exact List.mem_append.mpr (Or.inl hmem)

theorem tokPrefix_ne (a b : Str) :
    tokOf (lit "CODE_DIR") ++ a ≠ tokOf (lit "HOME") ++ b := by
  intro h
  have hc : lit "CODE_DIR" = 'C' :: lit "ODE_DIR" := rfl
  have hh : lit "HOME" = 'H' :: lit "OME" := rfl
  rw [tokOf, tokOf, hc, hh] at h
  simp at h

/-- C2: for a code directory under the home directory, the path
abstraction rewrites an occurrence of the code directory into
`${CODE_DIR}` (code directory first, home second), so a text starting
with the code directory starts with `${CODE_DIR}` in the output and never
with `${HOME}`. -/
theorem claim_C2 (home ext t : Str)
    (hext : ext ≠ []) (hd : dollar ∉ home) (hrb : rbrace ∉ home)
    (hblk : ¬ home <:+: tokOf (lit "CODE_DIR")) :
    abstractPaths (home ++ ext) home ((home ++ ext) ++ t) =
      tokOf (lit "CODE_DIR") ++
        splitJoin home (tokOf (lit "HOME"))
          (splitJoin (home ++ ext) (tokOf (lit "CODE_DIR")) t) ∧
    ∀ r, abstractPaths (home ++ ext) home ((home ++ ext) ++ t) ≠
      tokOf (lit "HOME") ++ r := by
  have hcne : home ++ ext ≠ [] := by simp [hext]
  have h1 : splitJoin (home ++ ext) (tokOf (lit "CODE_DIR")) ((home ++ ext) ++ t) =
      tokOf (lit "CODE_DIR") ++ splitJoin (home ++ ext) (tokOf (lit "CODE_DIR")) t :=
    splitJoin_head_match _ _ _ hcne
  have h2 : splitJoin home (tokOf (lit "HOME"))
      (tokOf (lit "CODE_DIR") ++ splitJoin (home ++ ext) (tokOf (lit "CODE_DIR")) t) =
      tokOf (lit "CODE_DIR") ++ splitJoin home (tokOf (lit "HOME"))
        (splitJoin (home ++ ext) (tokOf (lit "CODE_DIR")) t) :=
    splitJoin_no_match_pfx home (tokOf (lit "HOME"))
      (token_block_fail (tokOf (lit "CODE_DIR")) (by decide) hrb hblk _)
  constructor
  · unfold abstractPaths
    rw [h1, h2]
  · intro r hcontra
    unfold abstractPaths at hcontra
    rw [h1, h2] at hcontra
    exact tokPrefix_ne _ _ hcontra

/-- Witness for C2 at the spec example: `codeDir = /home/alice/code`,
`HOME = /home/alice`, source path `/home/alice/code/proj`. -/
theorem claim_C2_witness :
    (lit "/code" ≠ [] ∧ dollar ∉ lit "/home/alice" ∧ rbrace ∉ lit "/home/alice" ∧
      ¬ lit "/home/alice" <:+: tokOf (lit "CODE_DIR")) ∧
    (abstractPaths (lit "/home/alice" ++ lit "/code") (lit "/home/alice")
        ((lit "/home/alice" ++ lit "/code") ++ lit "/proj") =
      tokOf (lit "CODE_DIR") ++
        splitJoin (lit "/home/alice") (tokOf (lit "HOME"))
          (splitJoin (lit "/home/alice" ++ lit "/code") (tokOf (lit "CODE_DIR")) (lit "/proj")) ∧
     ∀ r, abstractPaths (lit "/home/alice" ++ lit "/code") (lit "/home/alice")
        ((lit "/home/alice" ++ lit "/code") ++ lit "/proj") ≠ tokOf (lit "HOME") ++ r) ∧
    abstractPaths (lit "/home/alice/code") (lit "/home/alice")
      (lit "/home/alice/code/proj") = lit "${CODE_DIR}/proj" :=
  ⟨by decide,
   claim_C2 (lit "/home/alice") (lit "/code") (lit "/proj")
     (by decide) (by decide) (by decide) (by decide),
   by rfl⟩

/-! Object lemma kit. -/

theorem objGet_cons_self {α : Type} {q : Str × α} {k : Str} (h : q.1 = k)
    (rest : List (Str × α)) : objGet (q :: rest) k = some q.2 := by
  simp [objGet, h]

theorem objGet_cons_ne2 {α : Type} {q : Str × α} {k : Str} (h : q.1 ≠ k)
    (rest : List (Str × α)) : objGet (q :: rest) k = objGet rest k := by
  simp [objGet, h]

theorem objGet_map_set_self {α : Type} (o : List (Str × α)) (k : Str) (v : α) :
    objGet (o.map (fun q => if q.1 = k then (k, v) else q)) k =
      if o.any (fun q => decide (q.1 = k)) then some v else none := by
  induction o with
  | nil => rfl
  | cons q os ih =>
    by_cases hq : q.1 = k
    · simp only [List.map_cons, if_pos hq, List.any_cons]
      rw [objGet_cons_self (show ((k, v) : Str × α).1 = k from rfl)]
      have hdec : decide (q.1 = k) = true := by simp [hq]
      simp only [hdec, Bool.true_or, if_true]
    · simp only [List.map_cons, if_neg hq, List.any_cons]
      have hdec : decide (q.1 = k) = false := by simp [hq]
      rw [objGet_cons_ne2 hq, ih]
      simp only [hdec, Bool.false_or]

theorem objGet_map_set_other {α : Type} (o : List (Str × α)) {k k' : Str}
    (hkk : k' ≠ k) (v : α) :
    objGet (o.map (fun q => if q.1 = k then (k, v) else q)) k' = objGet o k' := by
  induction o with
  | nil => rfl
  | cons q os ih =>
    by_cases hq : q.1 = k
    · simp only [List.map_cons, if_pos hq]
      rw [objGet_cons_ne2 (show ((k, v) : Str × α).1 ≠ k' from Ne.symm hkk)]
      rw [objGet_cons_ne2 (by rw [hq]; exact Ne.symm hkk)]
      exact ih
    · simp only [List.map_cons, if_neg hq]
      by_cases hq' : q.1 = k'
      · rw [objGet_cons_self hq', objGet_cons_self hq']
      · rw [objGet_cons_ne2 hq', objGet_cons_ne2 hq']
        exact ih

theorem objGet_append_single_other {α : Type} (o : List (Str × α)) {k k' : Str}
    (hkk : k' ≠ k) (v : α) : objGet (o ++ [(k, v)]) k' = objGet o k' := by
  induction o with
  | nil =>
    show objGet [(k, v)] k' = objGet ([] : List (Str × α)) k'
    rw [objGet_cons_ne2 (show ((k, v) : Str × α).1 ≠ k' from Ne.symm hkk)]
  | cons q os ih =>
    by_cases hq' : q.1 = k'
    · rw [List.cons_append, objGet_cons_self hq', objGet_cons_self hq']
    · rw [List.cons_append, objGet_cons_ne2 hq', objGet_cons_ne2 hq']
      exact ih

theorem objGet_append_of_ne {α : Type} {o : List (Str × α)} {k : Str}
    (h : ∀ q ∈ o, q.1 ≠ k) (rest : List (Str × α)) :
    objGet (o ++ rest) k = objGet rest k := by
  induction o with
  | nil => rfl
  | cons q os ih =>
    rw [List.cons_append, objGet_cons_ne2 (h q (by simp))]
    exact ih (fun q' hq' => h q' (by simp [hq']))

theorem objGet_objSet_self {α : Type} (o : List (Str × α)) (k : Str) (v : α) :
    objGet (objSet o k v) k = some v := by
  unfold objSet
  by_cases h : o.any (fun q => decide (q.1 = k))
  · rw [if_pos h, objGet_map_set_self, if_pos h]
  · rw [if_neg h]
    have hne : ∀ q ∈ o, q.1 ≠ k := by
      intro q hq hc
      exact h (List.any_eq_true.mpr ⟨q, hq, by simp [hc]⟩)
    rw [objGet_append_of_ne hne]
    exact objGet_cons_self (show ((k, v) : Str × α).1 = k from rfl) []

theorem objGet_objSet_other {α : Type} (o : List (Str × α)) {k k' : Str}
    (hkk : k' ≠ k) (v : α) : objGet (objSet o k v) k' = objGet o k' := by
  unfold objSet
  by_cases h : o.any (fun q => decide (q.1 = k))
  · rw [if_pos h]
    exact objGet_map_set_other o hkk v
  · rw [if_neg h]
    exact objGet_append_single_other o hkk v

theorem objGetJ_jObjSet_other (j : Json) {k k' : Str} (hkk : k' ≠ k) (v : Json) :
    objGetJ (jObjSet j k v) k' = objGetJ j k' := by
  cases j with
  | obj fs =>
    show objGet (objSet fs k v) k' = objGet fs k'
    exact objGet_objSet_other fs hkk v
  | null => rfl
  | bool b => rfl
  | num n => rfl
  | str s => rfl
  | arr xs => rfl

theorem objGet_objMerge {α : Type} (a b : List (Str × α)) (k : Str)
    (hnd : (b.map Prod.fst).Nodup) :
    objGet (objMerge a b) k =
      match objGet b k with
      | some v => some v
      | none => objGet a k := by
  induction b generalizing a with
  | nil => rfl
  | cons q bs ih =>
    have hnd' : (bs.map Prod.fst).Nodup := (List.nodup_cons.mp hnd).2
    have hq : q.1 ∉ bs.map Prod.fst := (List.nodup_cons.mp hnd).1
    show objGet (objMerge (objSet a q.1 q.2) bs) k = _
    rw [ih _ hnd']
    by_cases hqk : q.1 = k
    · subst hqk
      have hbs : objGet bs q.1 = none := by
        cases hob : objGet bs q.1 with
        | none => rfl
        | some w =>
          exact absurd (List.mem_map.mpr ⟨(q.1, w), objGet_mem hob, rfl⟩) hq
      rw [hbs, objGet_cons_self rfl, objGet_objSet_self]
    · rw [objGet_cons_ne2 hqk, objGet_objSet_other a (fun hkq => hqk hkq.symm) q.2]

/-! Frame lemmas of the restorer merge. -/

theorem restoreProjStep_frame (dirExists : Str → Bool) (acc : Json × Nat × Nat)
    (pv : Str × Json) {k : Str} (hk : k ≠ lit "projects") :
    objGetJ (restoreProjStep dirExists acc pv).1 k = objGetJ acc.1 k := by
  unfold restoreProjStep
  by_cases hd : dirExists pv.1
  · rw [if_neg (by simp [hd])]
    exact objGetJ_jObjSet_other acc.1 hk _
  · rw [if_pos (by simp [hd])]

theorem restoreProjects_fold_frame (dirExists : Str → Bool) {k : Str}
    (hk : k ≠ lit "projects") : ∀ (l : List (Str × Json)) (acc : Json × Nat × Nat),
    objGetJ (l.foldl (restoreProjStep dirExists) acc).1 k = objGetJ acc.1 k := by
  intro l
  induction l with
  | nil => intro acc; rfl
  | cons pv rest ih =>
    intro acc
    rw [List.foldl_cons, ih, restoreProjStep_frame dirExists acc pv hk]

theorem restoreProjects_frame (dirExists : Str → Bool) (backup cfg1 : Json)
    {k : Str} (hk : k ≠ lit "projects") :
    objGetJ (restoreProjects dirExists backup cfg1).1 k = objGetJ cfg1 k := by
  unfold restoreProjects
  exact restoreProjects_fold_frame dirExists hk _ _

theorem restoreGlobal_frame (backup cfg0 : Json) {k : Str}
    (hk : k ≠ lit "mcpServers") :
    objGetJ (restoreGlobal backup cfg0) k = objGetJ cfg0 k := by
  unfold restoreGlobal
  cases hg : objGetJ backup (lit "global") with
  | none => rfl
  | some g =>
    show objGetJ (if jsTruthy g ∧ 0 < jsKeysCount g then _ else cfg0) k = _
    by_cases hc : jsTruthy g ∧ 0 < jsKeysCount g
    · rw [if_pos hc]
      exact objGetJ_jObjSet_other cfg0 hk _
    · rw [if_neg hc]

/-- Characterization of a successful restorer run in terms of its stages. -/
theorem runRestore_success (home : Str) (dirExists : Str → Bool)
    (mc : Option Str) (snap : Str) (sec : Option Str) (live : Option Str)
    {codeDir : Str} {mw : Option Str} {e0 : Option RunErr}
    (h1 : resolveCodeDir home dirExists mc = (some (codeDir, mw), e0))
    {secFields : List (Str × Json)} {warned : Bool}
    (h2 : (∃ t sj, sec = some t ∧ parse t = some sj ∧ secFields = jFields sj ∧
            warned = false) ∨
          (sec = none ∧ secFields = [] ∧ warned = true))
    {backup : Json}
    (h3 : parse (substSecrets secFields
      (splitJoin (tokOf (lit "HOME")) home
        (splitJoin (tokOf (lit "CODE_DIR")) codeDir snap))) = some backup)
    {cfg0 : Json}
    (h4 : (∃ t, live = some t ∧ parse t = some cfg0) ∨
          (live = none ∧ cfg0 = Json.obj [])) :
    runRestore home dirExists mc snap sec live =
      ⟨(match mw with | some t => [(FileTag.machineCfg, t)] | none => []) ++
        [(FileTag.liveCfg,
          renderJ (restoreProjects dirExists backup (restoreGlobal backup cfg0)).1 0)],
       none, warned,
       (restoreProjects dirExists backup (restoreGlobal backup cfg0)).2.1,
       (restoreProjects dirExists backup (restoreGlobal backup cfg0)).2.2⟩ := by
  unfold runRestore
  simp only [h1]
  rcases h2 with ⟨t, sj, rfl, hps, hsf, rfl⟩ | ⟨rfl, hsf, rfl⟩
  · simp only [hps, ← hsf, h3]
    rcases h4 with ⟨t2, rfl, hc⟩ | ⟨rfl, rfl⟩
    · simp only [hc]
      cases mw <;> rfl
    · cases mw <;> rfl
  · rw [hsf] at h3
    have h3' : parse (splitJoin (tokOf (lit "HOME")) home
        (splitJoin (tokOf (lit "CODE_DIR")) codeDir snap)) = some backup := h3
    simp only [h3']
    rcases h4 with ⟨t2, rfl, hc⟩ | ⟨rfl, rfl⟩
    · simp only [hc]
      cases mw <;> rfl
    · cases mw <;> rfl

/-- C7: the configuration written back by the Restorer agrees with the
pre-existing live configuration on every top-level field other than
`mcpServers` and `projects`. -/
theorem claim_C7 (home : Str) (dirExists : Str → Bool)
    (mc : Option Str) (snap : Str) (sec : Option Str) (live : Option Str)
    {codeDir : Str} {mw : Option Str} {e0 : Option RunErr}
    (h1 : resolveCodeDir home dirExists mc = (some (codeDir, mw), e0))
    {secFields : List (Str × Json)} {warned : Bool}
    (h2 : (∃ t sj, sec = some t ∧ parse t = some sj ∧ secFields = jFields sj ∧
            warned = false) ∨
          (sec = none ∧ secFields = [] ∧ warned = true))
    {backup : Json}
    (h3 : parse (substSecrets secFields
      (splitJoin (tokOf (lit "HOME")) home
        (splitJoin (tokOf (lit "CODE_DIR")) codeDir snap))) = some backup)
    {cfg0 : Json}
    (h4 : (∃ t, live = some t ∧ parse t = some cfg0) ∨
          (live = none ∧ cfg0 = Json.obj [])) :
    ∃ final : Json,
      (runRestore home dirExists mc snap sec live).writes =
        (match mw with | some t => [(FileTag.machineCfg, t)] | none => []) ++
          [(FileTag.liveCfg, renderJ final 0)] ∧
      (runRestore home dirExists mc snap sec live).err = none ∧
      ∀ k : Str, k ≠ lit "mcpServers" → k ≠ lit "projects" →
        objGetJ final k = objGetJ cfg0 k := by
  refine ⟨(restoreProjects dirExists backup (restoreGlobal backup cfg0)).1, ?_, ?_, ?_⟩
  · rw [runRestore_success home dirExists mc snap sec live h1 h2 h3 h4]
  · rw [runRestore_success home dirExists mc snap sec live h1 h2 h3 h4]
  · intro k hk1 hk2
    rw [restoreProjects_frame dirExists backup _ hk2]
    rw [restoreGlobal_frame backup cfg0 hk1]

/-- Witness for C7: restoring an empty snapshot into a live configuration
holding an unrelated `theme` field leaves that field unchanged. -/
theorem claim_C7_witness :
    ∃ final : Json,
      (runRestore (lit "/home/alice") (fun _ => false)
          (some (renderJ (Json.obj [(lit "codeDir", Json.str (lit "/home/alice/code"))]) 0))
          (lit "\x7b\x7d") none
          (some (renderJ (Json.obj [(lit "theme", Json.str (lit "dark"))]) 0))).writes =
        [(FileTag.liveCfg, renderJ final 0)] ∧
      (runRestore (lit "/home/alice") (fun _ => false)
          (some (renderJ (Json.obj [(lit "codeDir", Json.str (lit "/home/alice/code"))]) 0))
          (lit "\x7b\x7d") none
          (some (renderJ (Json.obj [(lit "theme", Json.str (lit "dark"))]) 0))).err = none ∧
      ∀ k : Str, k ≠ lit "mcpServers" → k ≠ lit "projects" →
        objGetJ final k =
          objGetJ (Json.obj [(lit "theme", Json.str (lit "dark"))]) k :=
  claim_C7 (lit "/home/alice") (fun _ => false)
    (some (renderJ (Json.obj [(lit "codeDir", Json.str (lit "/home/alice/code"))]) 0))
    (lit "\x7b\x7d") none
    (some (renderJ (Json.obj [(lit "theme", Json.str (lit "dark"))]) 0))
    rfl (Or.inr ⟨rfl, rfl, rfl⟩) rfl (Or.inl ⟨_, rfl, rfl⟩)

/-! Entry-level lemmas of the project-restore loop. -/

theorem restoreProjStep_skip (dirExists : Str → Bool) (acc : Json × Nat × Nat)
    (pv : Str × Json) (h : dirExists pv.1 = false) :
    restoreProjStep dirExists acc pv = (acc.1, acc.2.1, acc.2.2 + 1) := by
  unfold restoreProjStep
  rw [if_pos (by simp [h])]

theorem restoreProjStep_hit (dirExists : Str → Bool) (acc : Json × Nat × Nat)
    (pv : Str × Json) (h : dirExists pv.1 = true) :
    restoreProjStep dirExists acc pv =
      (jObjSet acc.1 (lit "projects")
        (Json.obj (objSet (projFieldsOf acc.1) pv.1
          (Json.obj (objSet (truthyFields (objGet (projFieldsOf acc.1) pv.1))
            (lit "mcpServers")
            (Json.obj (objMerge
              (truthyFields (objGet
                (truthyFields (objGet (projFieldsOf acc.1) pv.1))
                (lit "mcpServers")))
              (jFields pv.2))))))),
       acc.2.1 + 1, acc.2.2) := by
  unfold restoreProjStep
  rw [if_neg (by simp [h])]

theorem jObjSet_isObj {fs : List (Str × Json)} (k : Str) (v : Json) :
    ∃ fs2, jObjSet (Json.obj fs) k v = Json.obj fs2 := ⟨objSet fs k v, rfl⟩

theorem projFieldsOf_set (fs : List (Str × Json)) (pj : List (Str × Json)) :
    projFieldsOf (jObjSet (Json.obj fs) (lit "projects") (Json.obj pj)) = pj := by
  show (match objGet (objSet fs (lit "projects") (Json.obj pj)) (lit "projects") with
    | some p => if jsTruthy p then jFields p else []
    | none => []) = pj
  rw [objGet_objSet_self]
  rfl

theorem restoreProjStep_entry_other (dirExists : Str → Bool)
    (acc : Json × Nat × Nat) (pv : Str × Json) {p : Str} (hne : pv.1 ≠ p) :
    objGet (projFieldsOf (restoreProjStep dirExists acc pv).1) p =
      objGet (projFieldsOf acc.1) p := by
  by_cases h : dirExists pv.1
  · rw [restoreProjStep_hit dirExists acc pv h]
    cases hc : acc.1 with
    | obj fs =>
      rw [← hc]
      show objGet (projFieldsOf (jObjSet acc.1 (lit "projects") _)) p = _
      rw [hc, projFieldsOf_set]
      exact objGet_objSet_other _ (fun hpq => hne hpq.symm) _
    | null => rfl
    | bool b => rfl
    | num n => rfl
    | str st => rfl
    | arr xs => rfl
  · rw [restoreProjStep_skip dirExists acc pv (by simpa using h)]

theorem restoreProjStep_obj {fs : List (Str × Json)} (dirExists : Str → Bool)
    (acc : Json × Nat × Nat) (pv : Str × Json) (hc : acc.1 = Json.obj fs) :
    ∃ fs2, (restoreProjStep dirExists acc pv).1 = Json.obj fs2 := by
  by_cases h : dirExists pv.1
  · rw [restoreProjStep_hit dirExists acc pv h, hc]
    exact jObjSet_isObj _ _
  · rw [restoreProjStep_skip dirExists acc pv (by simpa using h)]
    exact ⟨fs, hc⟩

theorem fold_entry_other (dirExists : Str → Bool) (l : List (Str × Json))
    {p : Str} (hp : p ∉ l.map Prod.fst) :
    ∀ acc, objGet (projFieldsOf ((l.foldl (restoreProjStep dirExists) acc)).1) p =
      objGet (projFieldsOf acc.1) p := by
  induction l with
  | nil => intro acc; rfl
  | cons pv rest ih =>
    intro acc
    have hne : pv.1 ≠ p := fun hc =>
      hp (by rw [List.map_cons, ← hc]; exact List.mem_cons_self _ _)
    have hp' : p ∉ rest.map Prod.fst := fun hc =>
      hp (by rw [List.map_cons]; exact List.mem_cons_of_mem _ hc)
    rw [List.foldl_cons]
    exact (ih hp' _).trans (restoreProjStep_entry_other dirExists acc pv hne)

theorem fold_obj (dirExists : Str → Bool) (l : List (Str × Json)) :
    ∀ acc (fs : List (Str × Json)), acc.1 = Json.obj fs →
    ∃ fs2, ((l.foldl (restoreProjStep dirExists) acc)).1 = Json.obj fs2 := by
  induction l with
  | nil => intro acc fs h; exact ⟨fs, h⟩
  | cons pv rest ih =>
    intro acc fs h
    obtain ⟨fs2, h2⟩ := restoreProjStep_obj dirExists acc pv h
    exact ih _ fs2 h2

theorem restoreProjStep_entry_hit {fs : List (Str × Json)} (dirExists : Str → Bool)
    (acc : Json × Nat × Nat) (p : Str) (sv : Json) (hobj : acc.1 = Json.obj fs)
    (h : dirExists p = true) :
    objGet (projFieldsOf (restoreProjStep dirExists acc (p, sv)).1) p =
      some (Json.obj (objSet (truthyFields (objGet (projFieldsOf acc.1) p))
        (lit "mcpServers")
        (Json.obj (objMerge
          (truthyFields (objGet (truthyFields (objGet (projFieldsOf acc.1) p))
            (lit "mcpServers")))
          (jFields sv))))) := by
  rw [restoreProjStep_hit dirExists acc (p, sv) h, hobj]
  rw [projFieldsOf_set]
  rw [objGet_objSet_self]

theorem restoreGlobal_obj {fs0 : List (Str × Json)} (backup cfg0 : Json)
    (h : cfg0 = Json.obj fs0) :
    ∃ fs1, restoreGlobal backup cfg0 = Json.obj fs1 := by
  unfold restoreGlobal
  cases hg : objGetJ backup (lit "global") with
  | none => exact ⟨fs0, h⟩
  | some g =>
    show ∃ fs1, (if jsTruthy g ∧ 0 < jsKeysCount g then _ else cfg0) = Json.obj fs1
    by_cases hc : jsTruthy g ∧ 0 < jsKeysCount g
    · rw [if_pos hc, h]
      exact jObjSet_isObj _ _
    · rw [if_neg hc]
      exact ⟨fs0, h⟩

theorem projFieldsOf_global (backup cfg0 : Json) :
    projFieldsOf (restoreGlobal backup cfg0) = projFieldsOf cfg0 := by
  unfold projFieldsOf
  rw [restoreGlobal_frame backup cfg0 (by decide)]

/-- C10: when a project path is restored, only the `mcpServers` field of
that project's pre-existing settings object is modified (set to the union
of existing and incoming servers, incoming winning); every other field of
the entry is unchanged. -/
theorem claim_C10 (home : Str) (dirExists : Str → Bool)
    (mc : Option Str) (snap : Str) (sec : Option Str) (live : Option Str)
    {codeDir : Str} {mw : Option Str} {e0 : Option RunErr}
    (h1 : resolveCodeDir home dirExists mc = (some (codeDir, mw), e0))
    {secFields : List (Str × Json)} {warned : Bool}
    (h2 : (∃ t sj, sec = some t ∧ parse t = some sj ∧ secFields = jFields sj ∧
            warned = false) ∨
          (sec = none ∧ secFields = [] ∧ warned = true))
    {backup : Json}
    (h3 : parse (substSecrets secFields
      (splitJoin (tokOf (lit "HOME")) home
        (splitJoin (tokOf (lit "CODE_DIR")) codeDir snap))) = some backup)
    {cfg0 : Json}
    (h4 : (∃ t, live = some t ∧ parse t = some cfg0) ∨
          (live = none ∧ cfg0 = Json.obj []))
    (p : Str) (sv : Json) (l1 l2 : List (Str × Json)) (fs0 : List (Str × Json))
    (hsplit : projFieldsOf backup = l1 ++ (p, sv) :: l2)
    (hp1 : p ∉ l1.map Prod.fst) (hp2 : p ∉ l2.map Prod.fst)
    (hdir : dirExists p = true)
    (hobj : cfg0 = Json.obj fs0) :
    ∃ final entryNew,
      (runRestore home dirExists mc snap sec live).writes =
        (match mw with | some t => [(FileTag.machineCfg, t)] | none => []) ++
          [(FileTag.liveCfg, renderJ final 0)] ∧
      objGet (projFieldsOf final) p = some (Json.obj entryNew) ∧
      objGet entryNew (lit "mcpServers") =
        some (Json.obj (objMerge
          (truthyFields (objGet (truthyFields (objGet (projFieldsOf cfg0) p))
            (lit "mcpServers")))
          (jFields sv))) ∧
      ∀ k : Str, k ≠ lit "mcpServers" →
        objGet entryNew k = objGet (truthyFields (objGet (projFieldsOf cfg0) p)) k := by
  obtain ⟨fs1, hfs1⟩ := restoreGlobal_obj backup cfg0 hobj
  have hacc1 : ((restoreGlobal backup cfg0, 0, 0) : Json × Nat × Nat).1 = Json.obj fs1 := hfs1
  obtain ⟨fsA, hfsA⟩ := fold_obj dirExists l1 (restoreGlobal backup cfg0, 0, 0) fs1 hacc1
  have hE : objGet (projFieldsOf (l1.foldl (restoreProjStep dirExists)
      (restoreGlobal backup cfg0, 0, 0)).1) p = objGet (projFieldsOf cfg0) p := by
    rw [fold_entry_other dirExists l1 hp1]
    show objGet (projFieldsOf (restoreGlobal backup cfg0)) p = _
    rw [projFieldsOf_global]
  have hfold : restoreProjects dirExists backup (restoreGlobal backup cfg0) =
      l2.foldl (restoreProjStep dirExists)
        (restoreProjStep dirExists
          (l1.foldl (restoreProjStep dirExists) (restoreGlobal backup cfg0, 0, 0))
          (p, sv)) := by
    unfold restoreProjects
    rw [hsplit, List.foldl_append, List.foldl_cons]
  refine ⟨(restoreProjects dirExists backup (restoreGlobal backup cfg0)).1,
    objSet (truthyFields (objGet (projFieldsOf cfg0) p)) (lit "mcpServers")
      (Json.obj (objMerge
        (truthyFields (objGet (truthyFields (objGet (projFieldsOf cfg0) p))
          (lit "mcpServers")))
        (jFields sv))), ?_, ?_, ?_, ?_⟩
  · rw [runRestore_success home dirExists mc snap sec live h1 h2 h3 h4]
    cases mw <;> rfl
  · rw [hfold]
    rw [fold_entry_other dirExists l2 hp2]
    have := restoreProjStep_entry_hit dirExists
      (l1.foldl (restoreProjStep dirExists) (restoreGlobal backup cfg0, 0, 0))
      p sv hfsA hdir
    rw [this, hE]
  · rw [objGet_objSet_self]
  · intro k hk
    rw [objGet_objSet_other _ hk]

/-- Witness for C10: restoring a project whose entry already holds a
`hasTrust` flag and an `old` server updates only `mcpServers`. -/
theorem claim_C10_witness :
    ∃ final entryNew,
      (runRestore (lit "/home/alice")
          (fun s => decide (s = lit "/home/alice/code/proj"))
          (some (renderJ (Json.obj [(lit "codeDir", Json.str (lit "/home/alice/code"))]) 0))
          (renderJ (Json.obj [(lit "global", Json.obj []),
            (lit "projects", Json.obj [(lit "/home/alice/code/proj",
              Json.obj [(lit "srv", Json.str (lit "x"))])])]) 0)
          none
          (some (renderJ (Json.obj [(lit "projects", Json.obj
            [(lit "/home/alice/code/proj", Json.obj
              [(lit "hasTrust", Json.bool true),
               (lit "mcpServers", Json.obj [(lit "old", Json.str (lit "y"))])])])]) 0))).writes =
        [(FileTag.liveCfg, renderJ final 0)] ∧
      objGet (projFieldsOf final) (lit "/home/alice/code/proj") =
        some (Json.obj entryNew) ∧
      objGet entryNew (lit "mcpServers") =
        some (Json.obj (objMerge
          (truthyFields (objGet (truthyFields (objGet (projFieldsOf
            (Json.obj [(lit "projects", Json.obj
              [(lit "/home/alice/code/proj", Json.obj
                [(lit "hasTrust", Json.bool true),
                 (lit "mcpServers", Json.obj [(lit "old", Json.str (lit "y"))])])])]))
            (lit "/home/alice/code/proj"))) (lit "mcpServers")))
          (jFields (Json.obj [(lit "srv", Json.str (lit "x"))])))) ∧
      ∀ k : Str, k ≠ lit "mcpServers" →
        objGet entryNew k = objGet (truthyFields (objGet (projFieldsOf
          (Json.obj [(lit "projects", Json.obj
            [(lit "/home/alice/code/proj", Json.obj
              [(lit "hasTrust", Json.bool true),
               (lit "mcpServers", Json.obj [(lit "old", Json.str (lit "y"))])])])]))
          (lit "/home/alice/code/proj"))) k :=
  claim_C10 (lit "/home/alice")
    (fun s => decide (s = lit "/home/alice/code/proj"))
    (some (renderJ (Json.obj [(lit "codeDir", Json.str (lit "/home/alice/code"))]) 0))
    (renderJ (Json.obj [(lit "global", Json.obj []),
      (lit "projects", Json.obj [(lit "/home/alice/code/proj",
        Json.obj [(lit "srv", Json.str (lit "x"))])])]) 0)
    none
    (some (renderJ (Json.obj [(lit "projects", Json.obj
      [(lit "/home/alice/code/proj", Json.obj
        [(lit "hasTrust", Json.bool true),
         (lit "mcpServers", Json.obj [(lit "old", Json.str (lit "y"))])])])]) 0))
    rfl (Or.inr ⟨rfl, rfl, rfl⟩) rfl (Or.inl ⟨_, rfl, rfl⟩)
    (lit "/home/alice/code/proj") (Json.obj [(lit "srv", Json.str (lit "x"))])
    [] [] _ rfl (by decide) (by decide) (by decide) rfl

theorem fold_counts (dirExists : Str → Bool) (l : List (Str × Json)) :
    ∀ acc : Json × Nat × Nat,
      (l.foldl (restoreProjStep dirExists) acc).2.1 =
        acc.2.1 + (l.filter (fun pv => dirExists pv.1)).length ∧
      (l.foldl (restoreProjStep dirExists) acc).2.2 =
        acc.2.2 + (l.filter (fun pv => !(dirExists pv.1))).length := by
  induction l with
  | nil => intro acc; simp
  | cons pv rest ih =>
    intro acc
    rw [List.foldl_cons]
    by_cases h : dirExists pv.1
    · have hstep : restoreProjStep dirExists acc pv =
          (jObjSet acc.1 (lit "projects") _, acc.2.1 + 1, acc.2.2) :=
        restoreProjStep_hit dirExists acc pv h
      rw [hstep]
      obtain ⟨ih1, ih2⟩ := ih _
      constructor
      · rw [ih1]
        simp [List.filter_cons, h]
        omega
      · rw [ih2]
        simp [List.filter_cons, h]
    · have hstep := restoreProjStep_skip dirExists acc pv (by simpa using h)
      rw [hstep]
      obtain ⟨ih1, ih2⟩ := ih _
      constructor
      · rw [ih1]
        simp [List.filter_cons, h]
      · rw [ih2]
        simp [List.filter_cons, h]
        omega

theorem fold_entry_missing (dirExists : Str → Bool) (l : List (Str × Json))
    {p : Str} (hdir : dirExists p = false) :
    ∀ acc, objGet (projFieldsOf ((l.foldl (restoreProjStep dirExists) acc)).1) p =
      objGet (projFieldsOf acc.1) p := by
  induction l with
  | nil => intro acc; rfl
  | cons pv rest ih =>
    intro acc
    rw [List.foldl_cons]
    refine (ih _).trans ?_
    by_cases hq : pv.1 = p
    · rw [restoreProjStep_skip dirExists acc pv (by rw [hq]; exact hdir)]
    · exact restoreProjStep_entry_other dirExists acc pv hq

/-- C6: project paths in the snapshot whose directory is missing are
skipped — the live configuration's entry for such a path is exactly what
it was before (in particular none is created), and each missing path
contributes exactly one to the reported skipped count; existing paths are
merged and counted as restored instead. -/
theorem claim_C6 (home : Str) (dirExists : Str → Bool)
    (mc : Option Str) (snap : Str) (sec : Option Str) (live : Option Str)
    {codeDir : Str} {mw : Option Str} {e0 : Option RunErr}
    (h1 : resolveCodeDir home dirExists mc = (some (codeDir, mw), e0))
    {secFields : List (Str × Json)} {warned : Bool}
    (h2 : (∃ t sj, sec = some t ∧ parse t = some sj ∧ secFields = jFields sj ∧
            warned = false) ∨
          (sec = none ∧ secFields = [] ∧ warned = true))
    {backup : Json}
    (h3 : parse (substSecrets secFields
      (splitJoin (tokOf (lit "HOME")) home
        (splitJoin (tokOf (lit "CODE_DIR")) codeDir snap))) = some backup)
    {cfg0 : Json}
    (h4 : (∃ t, live = some t ∧ parse t = some cfg0) ∨
          (live = none ∧ cfg0 = Json.obj [])) :
    ∃ final : Json,
      (runRestore home dirExists mc snap sec live).writes =
        (match mw with | some t => [(FileTag.machineCfg, t)] | none => []) ++
          [(FileTag.liveCfg, renderJ final 0)] ∧
      (runRestore home dirExists mc snap sec live).skippedProjects =
        ((projFieldsOf backup).filter (fun pv => !(dirExists pv.1))).length ∧
      (runRestore home dirExists mc snap sec live).restoredProjects =
        ((projFieldsOf backup).filter (fun pv => dirExists pv.1)).length ∧
      ∀ p : Str, dirExists p = false →
        objGet (projFieldsOf final) p = objGet (projFieldsOf cfg0) p := by
  refine ⟨(restoreProjects dirExists backup (restoreGlobal backup cfg0)).1,
    ?_, ?_, ?_, ?_⟩
  · rw [runRestore_success home dirExists mc snap sec live h1 h2 h3 h4]
  · rw [runRestore_success home dirExists mc snap sec live h1 h2 h3 h4]
    show (restoreProjects dirExists backup (restoreGlobal backup cfg0)).2.2 = _
    unfold restoreProjects
    rw [(fold_counts dirExists (projFieldsOf backup) _).2]
    simp
  · rw [runRestore_success home dirExists mc snap sec live h1 h2 h3 h4]
    show (restoreProjects dirExists backup (restoreGlobal backup cfg0)).2.1 = _
    unfold restoreProjects
    rw [(fold_counts dirExists (projFieldsOf backup) _).1]
    simp
  · intro p hdir
    show objGet (projFieldsOf (restoreProjects dirExists backup
      (restoreGlobal backup cfg0)).1) p = _
    unfold restoreProjects
    rw [fold_entry_missing dirExists (projFieldsOf backup) hdir]
    show objGet (projFieldsOf (restoreGlobal backup cfg0)) p = _
    rw [projFieldsOf_global]

/-- Witness for C6: a snapshot referencing a missing `ghost` project and
an existing `proj` project; the ghost is skipped (count one) and no entry
is created for it. -/
theorem claim_C6_witness :
    ∃ final : Json,
      (runRestore (lit "/home/alice")
          (fun s => decide (s = lit "/home/alice/code/proj"))
          (some (renderJ (Json.obj [(lit "codeDir", Json.str (lit "/home/alice/code"))]) 0))
          (renderJ (Json.obj [(lit "global", Json.obj []),
            (lit "projects", Json.obj
              [(lit "/home/alice/code/ghost", Json.obj [(lit "g", Json.str (lit "x"))]),
               (lit "/home/alice/code/proj", Json.obj [(lit "s", Json.str (lit "y"))])])]) 0)
          none (some (renderJ (Json.obj []) 0))).writes =
        [(FileTag.liveCfg, renderJ final 0)] ∧
      (runRestore (lit "/home/alice")
          (fun s => decide (s = lit "/home/alice/code/proj"))
          (some (renderJ (Json.obj [(lit "codeDir", Json.str (lit "/home/alice/code"))]) 0))
          (renderJ (Json.obj [(lit "global", Json.obj []),
            (lit "projects", Json.obj
              [(lit "/home/alice/code/ghost", Json.obj [(lit "g", Json.str (lit "x"))]),
               (lit "/home/alice/code/proj", Json.obj [(lit "s", Json.str (lit "y"))])])]) 0)
          none (some (renderJ (Json.obj []) 0))).skippedProjects =
        ((projFieldsOf (Json.obj [(lit "global", Json.obj []),
            (lit "projects", Json.obj
              [(lit "/home/alice/code/ghost", Json.obj [(lit "g", Json.str (lit "x"))]),
               (lit "/home/alice/code/proj", Json.obj [(lit "s", Json.str (lit "y"))])])])).filter
          (fun pv => !((fun s => decide (s = lit "/home/alice/code/proj")) pv.1))).length ∧
      (runRestore (lit "/home/alice")
          (fun s => decide (s = lit "/home/alice/code/proj"))
          (some (renderJ (Json.obj [(lit "codeDir", Json.str (lit "/home/alice/code"))]) 0))
          (renderJ (Json.obj [(lit "global", Json.obj []),
            (lit "projects", Json.obj
              [(lit "/home/alice/code/ghost", Json.obj [(lit "g", Json.str (lit "x"))]),
               (lit "/home/alice/code/proj", Json.obj [(lit "s", Json.str (lit "y"))])])]) 0)
          none (some (renderJ (Json.obj []) 0))).restoredProjects =
        ((projFieldsOf (Json.obj [(lit "global", Json.obj []),
            (lit "projects", Json.obj
              [(lit "/home/alice/code/ghost", Json.obj [(lit "g", Json.str (lit "x"))]),
               (lit "/home/alice/code/proj", Json.obj [(lit "s", Json.str (lit "y"))])])])).filter
          (fun pv => (fun s => decide (s = lit "/home/alice/code/proj")) pv.1)).length ∧
      ∀ p : Str, (fun s => decide (s = lit "/home/alice/code/proj")) p = false →
        objGet (projFieldsOf final) p = objGet (projFieldsOf (Json.obj [])) p :=
  claim_C6 (lit "/home/alice")
    (fun s => decide (s = lit "/home/alice/code/proj"))
    (some (renderJ (Json.obj [(lit "codeDir", Json.str (lit "/home/alice/code"))]) 0))
    (renderJ (Json.obj [(lit "global", Json.obj []),
            (lit "projects", Json.obj
              [(lit "/home/alice/code/ghost", Json.obj [(lit "g", Json.str (lit "x"))]),
               (lit "/home/alice/code/proj", Json.obj [(lit "s", Json.str (lit "y"))])])]) 0)
    none (some (renderJ (Json.obj []) 0))
    rfl (Or.inr ⟨rfl, rfl, rfl⟩) rfl (Or.inl ⟨_, rfl, rfl⟩)

/-! Render/parse round trip: `JSON.parse(JSON.stringify(v, null, 2))`
recovers `v` for documents whose strings need no escaping, whose number
literals are canonical, and whose objects have no duplicate keys — which
covers every document the tools write. -/

/-- A character `JSON.stringify` emits verbatim inside a string literal:
printable, not the quote, not the backslash. -/
def benignChar (c : Char) : Bool :=
  decide (32 ≤ c.toNat) && !decide (c = dq) && !decide (c = bslash)

/-- A string whose rendering needs no escapes. -/
def benignStr (s : Str) : Bool := s.all benignChar

/-- A number literal that the parser reproduces exactly. -/
def numOk (v : Str) : Bool :=
  !v.isEmpty && v.all isNumChar && numValid v

mutual

/-- A document whose rendering parses back to itself: benign strings and
keys, canonical number literals, no duplicate object keys. -/
def benignJson : Json → Bool
  | .null => true
  | .bool _ => true
  | .num v => numOk v
  | .str s => benignStr s
  | .arr xs => benignItems xs
  | .obj fs => decide ((fs.map Prod.fst).Nodup) && benignFields fs

/-- `benignJson` on every array item. -/
def benignItems : List Json → Bool
  | [] => true
  | x :: xs => benignJson x && benignItems xs

/-- `benignJson` on every field value, benign keys. -/
def benignFields : List (Str × Json) → Bool
  | [] => true
  | f :: fs => benignStr f.1 && benignJson f.2 && benignFields fs

end

mutual

/-- Parser fuel sufficient for a rendered document. -/
def psizeV : Json → Nat
  | .arr (x :: xs) => 1 + psizeItems (x :: xs)
  | .obj (f :: fs) => 1 + psizeFields (f :: fs)
  | _ => 1

/-- Parser fuel sufficient for rendered array items. -/
def psizeItems : List Json → Nat
  | [] => 1
  | x :: xs => 1 + psizeV x + psizeItems xs

/-- Parser fuel sufficient for rendered object fields. -/
def psizeFields : List (Str × Json) → Nat
  | [] => 1
  | f :: fs => 1 + psizeV f.2 + psizeFields fs

end

/-- The text following a rendered value must not begin with a number
character (so a rendered number literal is not extended). -/
def restOk : Str → Bool
  | [] => true
  | c :: _ => !(isNumChar c)

/-- The text a rendered item list is followed by, from the second item
on. -/
def itemsTail : List Json → Nat → Str
  | [], _ => []
  | y :: ys, lv => ',' :: nl :: renderItems (y :: ys) lv

/-- The text a rendered field list is followed by, from the second field
on. -/
def fieldsTail : List (Str × Json) → Nat → Str
  | [], _ => []
  | g :: gs, lv => ',' :: nl :: renderFields (g :: gs) lv

theorem psizeV_pos (x : Json) : 1 ≤ psizeV x := by
  cases x with
  | arr items => cases items <;> simp [psizeV]
  | obj fields => cases fields <;> simp [psizeV]
  | _ => simp [psizeV]

theorem psizeItems_pos (xs : List Json) : 1 ≤ psizeItems xs := by
  cases xs <;> simp [psizeItems] <;> omega

theorem psizeFields_pos (fs : List (Str × Json)) : 1 ≤ psizeFields fs := by
  cases fs <;> simp [psizeFields] <;> omega

theorem ind_all_ws (lv : Nat) : (ind lv).all isWs = true := by
  rw [ind, List.all_eq_true]
  intro c hc
  rw [List.eq_of_mem_replicate hc]
  decide

theorem skipWs_ws_append {w : Str} (hw : w.all isWs = true) (s : Str) :
    skipWs (w ++ s) = skipWs s := by
  induction w with
  | nil => rfl
  | cons c w ih =>
    rw [List.all_cons, Bool.and_eq_true] at hw
    rw [List.cons_append]
    show (if isWs c then skipWs (w ++ s) else c :: (w ++ s)) = skipWs s
    rw [if_pos hw.1, ih hw.2]

theorem skipWs_not_ws {c : Char} (h : isWs c = false) (s : Str) :
    skipWs (c :: s) = c :: s := by
  show (if isWs c then skipWs s else c :: s) = c :: s
  rw [h, if_neg Bool.false_ne_true]

theorem skipWs_skipWs (s : Str) : skipWs (skipWs s) = skipWs s := by
  induction s with
  | nil => rfl
  | cons c rest ih =>
    cases hc : isWs c with
    | true =>
      show skipWs (if isWs c then skipWs rest else c :: rest) = _
      rw [hc]
      show skipWs (skipWs rest) = skipWs (c :: rest)
      rw [ih]
      show skipWs rest = if isWs c then skipWs rest else c :: rest
      rw [hc, if_pos rfl]
    | false => rw [skipWs_not_ws hc, skipWs_not_ws hc]

theorem parseVal_succ (f : Nat) (s : Str) :
    parseVal (f + 1) s =
      (match skipWs s with
      | [] => none
      | c :: rest =>
        if c = 'n' then (expectLit (lit "ull") rest).map (fun r => (Json.null, r))
        else if c = 't' then (expectLit (lit "rue") rest).map (fun r => (Json.bool true, r))
        else if c = 'f' then (expectLit (lit "alse") rest).map (fun r => (Json.bool false, r))
        else if c = dq then (parseStrBody (rest.length + 1) rest).map (fun p => (Json.str p.1, p.2))
        else if c = '[' then
          match skipWs rest with
          | ']' :: r => some (Json.arr [], r)
          | _ => (parseArrItems f rest).map (fun p => (Json.arr p.1, p.2))
        else if c = lbrace then
          match skipWs rest with
          | d :: r =>
            if d = rbrace then some (Json.obj [], r)
            else (parseObjItems f (d :: r)).map
              (fun p => (Json.obj (p.1.foldl (fun acc kv => objSet acc kv.1 kv.2) []), p.2))
          | [] => none
        else if isNumChar c then
          let numLit := (c :: rest).takeWhile isNumChar
          if numValid numLit then some (Json.num numLit, (c :: rest).dropWhile isNumChar)
          else none
        else none) := rfl

theorem parseArrItems_succ (f : Nat) (s : Str) :
    parseArrItems (f + 1) s =
      (parseVal f s).bind (fun p =>
        match skipWs p.2 with
        | c :: r =>
          if c = ',' then (parseArrItems f r).map (fun q => (p.1 :: q.1, q.2))
          else if c = ']' then some ([p.1], r)
          else none
        | [] => none) := rfl

theorem parseObjItems_succ (f : Nat) (s : Str) :
    parseObjItems (f + 1) s =
      (match skipWs s with
      | c :: rest =>
        if c = dq then
          (parseStrBody (rest.length + 1) rest).bind (fun kp =>
            match skipWs kp.2 with
            | d :: r2 =>
              if d = ':' then
                (parseVal f r2).bind (fun vp =>
                  match skipWs vp.2 with
                  | e :: r3 =>
                    if e = ',' then
                      (parseObjItems f r3).map (fun q => ((kp.1, vp.1) :: q.1, q.2))
                    else if e = rbrace then some ([(kp.1, vp.1)], r3)
                    else none
                  | [] => none)
              else none
            | [] => none)
        else none
      | [] => none) := rfl

theorem parseVal_ws (fuel : Nat) (w : Str) (hw : w.all isWs = true) (s : Str) :
    parseVal fuel (w ++ s) = parseVal fuel s := by
  cases fuel with
  | zero => rfl
  | succ f => rw [parseVal_succ, parseVal_succ, skipWs_ws_append hw]

theorem parseArrItems_ws (fuel : Nat) (w : Str) (hw : w.all isWs = true) (s : Str) :
    parseArrItems fuel (w ++ s) = parseArrItems fuel s := by
  cases fuel with
  | zero => rfl
  | succ f => rw [parseArrItems_succ, parseArrItems_succ, parseVal_ws f w hw]

theorem parseObjItems_ws (fuel : Nat) (w : Str) (hw : w.all isWs = true) (s : Str) :
    parseObjItems fuel (w ++ s) = parseObjItems fuel s := by
  cases fuel with
  | zero => rfl
  | succ f => rw [parseObjItems_succ, parseObjItems_succ, skipWs_ws_append hw]

theorem parseObjItems_skip (fuel : Nat) (s : Str) :
    parseObjItems fuel (skipWs s) = parseObjItems fuel s := by
  cases fuel with
  | zero => rfl
  | succ f => rw [parseObjItems_succ, parseObjItems_succ, skipWs_skipWs]

theorem escChar_benign {c : Char} (h : benignChar c = true) : escChar c = [c] := by
  simp only [benignChar, Bool.and_eq_true, Bool.not_eq_true', decide_eq_true_eq,
    decide_eq_false_iff_not] at h
  obtain ⟨⟨h32, hdq⟩, hbs⟩ := h
  have h8 : c ≠ Char.ofNat 8 := by intro e; subst e; exact absurd h32 (by decide)
  have h9 : c ≠ Char.ofNat 9 := by intro e; subst e; exact absurd h32 (by decide)
  have hnl : c ≠ nl := by intro e; subst e; exact absurd h32 (by decide)
  have h12 : c ≠ Char.ofNat 12 := by intro e; subst e; exact absurd h32 (by decide)
  have h13 : c ≠ Char.ofNat 13 := by intro e; subst e; exact absurd h32 (by decide)
  unfold escChar
  rw [if_neg hdq, if_neg hbs, if_neg h8, if_neg h9, if_neg hnl, if_neg h12,
    if_neg h13, if_neg (by omega)]

theorem escStr_benign {s : Str} (h : benignStr s = true) : escStr s = s := by
  induction s with
  | nil => rfl
  | cons c rest ih =>
    rw [benignStr, List.all_cons, Bool.and_eq_true] at h
    show escChar c ++ escStr rest = c :: rest
    rw [escChar_benign h.1, ih h.2]
    rfl

theorem parseStrBody_benign_step {c : Char} (hdq : c ≠ dq) (hbs : c ≠ bslash)
    (h32 : ¬ c.toNat < 32) (f : Nat) (s : Str) :
    parseStrBody (f + 1) (c :: s) =
      (parseStrBody f s).map (fun p => (c :: p.1, p.2)) := by
  show (if c = dq then some ([], s)
    else if c = bslash then _
    else if c.toNat < 32 then none
    else (parseStrBody f s).map (fun p => (c :: p.1, p.2))) = _
  rw [if_neg hdq, if_neg hbs, if_neg h32]

theorem parseStrBody_benign : ∀ (s : Str), benignStr s = true →
    ∀ (fuel : Nat) (rest : Str), s.length < fuel →
    parseStrBody fuel (s ++ (dq :: rest)) = some (s, rest) := by
  intro s
  induction s with
  | nil =>
    intro _ fuel rest hf
    match fuel, hf with
    | f + 1, _ => rfl
  | cons c cs ih =>
    intro hb fuel rest hf
    rw [benignStr, List.all_cons, Bool.and_eq_true] at hb
    simp only [benignChar, Bool.and_eq_true, Bool.not_eq_true', decide_eq_true_eq,
      decide_eq_false_iff_not] at hb
    obtain ⟨⟨⟨h32, hdq⟩, hbs⟩, hcs⟩ := hb
    match fuel, hf with
    | f + 1, hf =>
      rw [List.cons_append, parseStrBody_benign_step hdq hbs (by omega),
        ih hcs f rest (by simp at hf; omega)]
      rfl

theorem expectLit_append (kw rest : Str) : expectLit kw (kw ++ rest) = some rest := by
  unfold expectLit
  rw [if_pos (List.isPrefixOf_iff_prefix.mpr (List.prefix_append kw rest)),
    List.drop_left]

theorem ws_not_numChar {c : Char} (h : isWs c = true) : isNumChar c = false := by
  simp only [isWs, Bool.or_eq_true, decide_eq_true_eq] at h
  rcases h with ((e | e) | e) | e <;> subst e <;> decide

theorem numChar_not_ws {c : Char} (h : isNumChar c = true) : isWs c = false := by
  cases hw : isWs c with
  | false => rfl
  | true => rw [ws_not_numChar hw] at h; exact absurd h (by decide)

theorem takeWhile_num (v rest : Str) (hv : v.all isNumChar = true)
    (hr : restOk rest = true) :
    (v ++ rest).takeWhile isNumChar = v ∧ (v ++ rest).dropWhile isNumChar = rest := by
  induction v with
  | nil =>
    cases rest with
    | nil => exact ⟨rfl, rfl⟩
    | cons c r =>
      simp only [restOk, Bool.not_eq_true'] at hr
      exact ⟨by simp [List.takeWhile_cons, hr], by simp [List.dropWhile_cons, hr]⟩
  | cons c v ih =>
    rw [List.all_cons, Bool.and_eq_true] at hv
    obtain ⟨ht, hd⟩ := ih hv.2
    constructor
    · rw [List.cons_append, List.takeWhile_cons, hv.1, ht, if_pos rfl]
    · rw [List.cons_append, List.dropWhile_cons, hv.1, hd, if_pos rfl]

theorem numOk_parts {v : Str} (h : numOk v = true) :
    v ≠ [] ∧ v.all isNumChar = true ∧ numValid v = true := by
  simp only [numOk, Bool.and_eq_true, Bool.not_eq_true'] at h
  exact ⟨by
    intro e
    subst e
    simp at h, h.1.2, h.2⟩

theorem numOk_head {v : Str} (h : numOk v = true) :
    ∃ c r, v = c :: r ∧ isNumChar c = true := by
  obtain ⟨hne, hall, _⟩ := numOk_parts h
  cases v with
  | nil => exact absurd rfl hne
  | cons c r =>
    rw [List.all_cons, Bool.and_eq_true] at hall
    exact ⟨c, r, rfl, hall.1⟩

theorem restOk_close {close : Str} (hws : close.all isWs = true) {b : Char}
    (hb : isNumChar b = false) (rest : Str) :
    restOk (close ++ (b :: rest)) = true := by
  cases close with
  | nil => simp [restOk, hb]
  | cons c cl =>
    rw [List.all_cons, Bool.and_eq_true] at hws
    simp [restOk, ws_not_numChar hws.1]

theorem renderJ_head (x : Json) (lv : Nat) (hb : benignJson x = true) :
    ∃ c t, renderJ x lv = c :: t ∧ isWs c = false ∧ c ≠ ']' ∧ c ≠ rbrace := by
  cases x with
  | null => exact ⟨'n', _, rfl, by decide, by decide, by decide⟩
  | bool b => cases b with
    | false => exact ⟨'f', _, rfl, by decide, by decide, by decide⟩
    | true => exact ⟨'t', _, rfl, by decide, by decide, by decide⟩
  | num v =>
    obtain ⟨c, r, hv, hc⟩ := numOk_head hb
    refine ⟨c, r, by rw [renderJ, hv], numChar_not_ws hc, ?_, ?_⟩
    · intro e; subst e; exact absurd hc (by decide)
    · intro e; subst e; exact absurd hc (by decide)
  | str s => exact ⟨dq, _, rfl, by decide, by decide, by decide⟩
  | arr items =>
    cases items with
    | nil => exact ⟨'[', _, rfl, by decide, by decide, by decide⟩
    | cons y ys => exact ⟨'[', _, rfl, by decide, by decide, by decide⟩
  | obj fields =>
    cases fields with
    | nil => exact ⟨lbrace, _, rfl, by decide, by decide, by decide⟩
    | cons g gs => exact ⟨lbrace, _, rfl, by decide, by decide, by decide⟩

theorem renderItems_split (x : Json) (xs : List Json) (lv : Nat) :
    renderItems (x :: xs) lv = ind lv ++ (renderJ x lv ++ itemsTail xs lv) := by
  cases xs with
  | nil =>
    show ind lv ++ renderJ x lv = _
    rw [itemsTail, List.append_nil]
  | cons y ys =>
    show ind lv ++ renderJ x lv ++ (',' :: nl :: renderItems (y :: ys) lv) = _
    rw [itemsTail, List.append_assoc]

theorem renderFields_split (k : Str) (v : Json) (fs : List (Str × Json)) (lv : Nat) :
    renderFields ((k, v) :: fs) lv =
      ind lv ++ (quoteStr k ++ ((':' :: ' ' :: renderJ v lv) ++ fieldsTail fs lv)) := by
  cases fs with
  | nil =>
    show ind lv ++ quoteStr k ++ (':' :: ' ' :: renderJ v lv) = _
    rw [fieldsTail, List.append_nil, List.append_assoc]
  | cons g gs =>
    show ind lv ++ quoteStr k ++ (':' :: ' ' :: renderJ v lv) ++
      (',' :: nl :: renderFields (g :: gs) lv) = _
    rw [fieldsTail, List.append_assoc, List.append_assoc]

theorem objSet_append {α : Type} {o : List (Str × α)} {k : Str}
    (h : ¬ k ∈ o.map Prod.fst) (v : α) :
    objSet o k v = o ++ [(k, v)] := by
  unfold objSet
  rw [if_neg]
  intro hc
  rw [List.any_eq_true] at hc
  obtain ⟨q, hq, he⟩ := hc
  rw [decide_eq_true_eq] at he
  exact h (List.mem_map.mpr ⟨q, hq, he⟩)

theorem numChar_branches {c : Char} (h : isNumChar c = true) :
    c ≠ 'n' ∧ c ≠ 't' ∧ c ≠ 'f' ∧ c ≠ dq ∧ c ≠ '[' ∧ c ≠ lbrace := by
  refine ⟨?_, ?_, ?_, ?_, ?_, ?_⟩ <;> intro e <;> subst e <;> exact absurd h (by decide)

theorem skipWs_ind_block {b : Str} {c0 : Char} {t0 : Str} (hb : b = c0 :: t0)
    (hw0 : isWs c0 = false) (pre after : Str) (hpre : pre.all isWs = true) (lv : Nat) :
    skipWs (pre ++ ((ind lv ++ b) ++ after)) = c0 :: (t0 ++ after) := by
  rw [skipWs_ws_append hpre, List.append_assoc, skipWs_ws_append (ind_all_ws lv), hb]
  exact skipWs_not_ws hw0 _

theorem foldl_objSet_nodup {α : Type} : ∀ (fs acc : List (Str × α)),
    ((acc ++ fs).map Prod.fst).Nodup →
    fs.foldl (fun a kv => objSet a kv.1 kv.2) acc = acc ++ fs := by
  intro fs
  induction fs with
  | nil => intro acc _; rw [List.foldl_nil, List.append_nil]
  | cons f fs ih =>
    intro acc hnd
    rw [List.foldl_cons]
    have hk : ¬ f.1 ∈ acc.map Prod.fst := by
      intro hmem
      rw [List.map_append, List.nodup_append] at hnd
      exact hnd.2.2 hmem (by rw [List.map_cons]; exact List.mem_cons_self _ _)
    rw [objSet_append hk]
    have h2 : (((acc ++ [f]) ++ fs).map Prod.fst).Nodup := by
      rw [List.append_assoc, List.singleton_append]
      exact hnd
    exact (ih (acc ++ [f]) h2).trans
      (by rw [List.append_assoc, List.singleton_append])

theorem parse_render_all : ∀ fuel : Nat,
    (∀ (x : Json) (lv : Nat) (rest : Str), benignJson x = true → psizeV x ≤ fuel →
      restOk rest = true → parseVal fuel (renderJ x lv ++ rest) = some (x, rest)) ∧
    (∀ (xs : List Json) (lv : Nat) (close rest : Str), xs ≠ [] → benignItems xs = true →
      psizeItems xs ≤ fuel → close.all isWs = true →
      parseArrItems fuel (renderItems xs lv ++ (close ++ (']' :: rest))) = some (xs, rest)) ∧
    (∀ (fs : List (Str × Json)) (lv : Nat) (close rest : Str), fs ≠ [] →
      benignFields fs = true → psizeFields fs ≤ fuel → close.all isWs = true →
      parseObjItems fuel (renderFields fs lv ++ (close ++ (rbrace :: rest))) = some (fs, rest)) := by
  intro fuel
  induction fuel with
  | zero =>
    refine ⟨fun x _ _ _ hps _ => absurd hps (by have := psizeV_pos x; omega),
      fun xs _ _ _ _ _ hps _ => absurd hps (by have := psizeItems_pos xs; omega),
      fun fs _ _ _ _ _ hps _ => absurd hps (by have := psizeFields_pos fs; omega)⟩
  | succ f ih =>
    obtain ⟨ihV, ihI, ihF⟩ := ih
    refine ⟨?_, ?_, ?_⟩
    · intro x lv rest hb hps hr
      cases x with
      | null =>
        show parseVal (f + 1) ('n' :: (lit "ull" ++ rest)) = some (Json.null, rest)
        rw [parseVal_succ]
        simp only [skipWs_not_ws (show isWs 'n' = false by decide)]
        show (expectLit (lit "ull") (lit "ull" ++ rest)).map (fun r2 => (Json.null, r2)) =
          some (Json.null, rest)
        rw [expectLit_append]
        rfl
      | bool b =>
        cases b with
        | true =>
          show parseVal (f + 1) ('t' :: (lit "rue" ++ rest)) = some (Json.bool true, rest)
          rw [parseVal_succ]
          simp only [skipWs_not_ws (show isWs 't' = false by decide)]
          show (expectLit (lit "rue") (lit "rue" ++ rest)).map (fun r2 => (Json.bool true, r2)) =
            some (Json.bool true, rest)
          rw [expectLit_append]
          rfl
        | false =>
          show parseVal (f + 1) ('f' :: (lit "alse" ++ rest)) = some (Json.bool false, rest)
          rw [parseVal_succ]
          simp only [skipWs_not_ws (show isWs 'f' = false by decide)]
          show (expectLit (lit "alse") (lit "alse" ++ rest)).map (fun r2 => (Json.bool false, r2)) =
            some (Json.bool false, rest)
          rw [expectLit_append]
          rfl
      | num v =>
        have hnum : numOk v = true := hb
        obtain ⟨hne, hall, hvalid⟩ := numOk_parts hnum
        obtain ⟨c, r, hv, hc⟩ := numOk_head hnum
        obtain ⟨hn, ht2, hf2, hdq2, hlb2, hbr2⟩ := numChar_branches hc
        subst hv
        obtain ⟨htw, hdw⟩ := takeWhile_num (c :: r) rest hall hr
        have htw2 : (c :: (r ++ rest)).takeWhile isNumChar = c :: r := htw
        have hdw2 : (c :: (r ++ rest)).dropWhile isNumChar = rest := hdw
        show parseVal (f + 1) (c :: (r ++ rest)) = some (Json.num (c :: r), rest)
        rw [parseVal_succ]
        simp only [skipWs_not_ws (numChar_not_ws hc)]
        show (if c = 'n' then (expectLit (lit "ull") (r ++ rest)).map (fun r2 => (Json.null, r2))
          else if c = 't' then (expectLit (lit "rue") (r ++ rest)).map (fun r2 => (Json.bool true, r2))
          else if c = 'f' then (expectLit (lit "alse") (r ++ rest)).map (fun r2 => (Json.bool false, r2))
          else if c = dq then (parseStrBody ((r ++ rest).length + 1) (r ++ rest)).map (fun p => (Json.str p.1, p.2))
          else if c = '[' then
            match skipWs (r ++ rest) with
            | ']' :: r2 => some (Json.arr [], r2)
            | _ => (parseArrItems f (r ++ rest)).map (fun p => (Json.arr p.1, p.2))
          else if c = lbrace then
            match skipWs (r ++ rest) with
            | d :: r2 =>
              if d = rbrace then some (Json.obj [], r2)
              else (parseObjItems f (d :: r2)).map
                (fun p => (Json.obj (p.1.foldl (fun acc kv => objSet acc kv.1 kv.2) []), p.2))
            | [] => none
          else if isNumChar c = true then
            if numValid ((c :: (r ++ rest)).takeWhile isNumChar) then
              some (Json.num ((c :: (r ++ rest)).takeWhile isNumChar),
                (c :: (r ++ rest)).dropWhile isNumChar)
            else none
          else none) = some (Json.num (c :: r), rest)
        rw [if_neg hn, if_neg ht2, if_neg hf2, if_neg hdq2, if_neg hlb2, if_neg hbr2,
          htw2, hdw2, hc, if_pos rfl, if_pos hvalid]
      | str s =>
        have hbs2 : benignStr s = true := hb
        have hesc : escStr s = s := escStr_benign hbs2
        show parseVal (f + 1) (dq :: ((escStr s ++ [dq]) ++ rest)) = some (Json.str s, rest)
        rw [parseVal_succ]
        simp only [skipWs_not_ws (show isWs dq = false by decide)]
        show (parseStrBody (((escStr s ++ [dq]) ++ rest).length + 1) ((escStr s ++ [dq]) ++ rest)).map
          (fun p => (Json.str p.1, p.2)) = some (Json.str s, rest)
        rw [List.append_assoc, List.singleton_append, hesc,
          parseStrBody_benign s hbs2 _ rest (by rw [List.length_append, List.length_cons]; omega)]
        rfl
      | arr items =>
        cases items with
        | nil => rfl
        | cons x xs =>
          have hbi0 : benignItems (x :: xs) = true := hb
          have hbi : (benignJson x && benignItems xs) = true := hbi0
          rw [Bool.and_eq_true] at hbi
          have hpse : psizeV (Json.arr (x :: xs)) = 1 + psizeItems (x :: xs) := rfl
          have hpsi : psizeItems (x :: xs) ≤ f := by omega
          obtain ⟨c0, t0, hx, hw0, hne0, hne1⟩ := renderJ_head x (lv + 1) hbi.1
          have hbody : renderJ x (lv + 1) ++ itemsTail xs (lv + 1) =
              c0 :: (t0 ++ itemsTail xs (lv + 1)) := by rw [hx]; rfl
          show parseVal (f + 1)
            ('[' :: (nl :: ((renderItems (x :: xs) (lv + 1) ++ (nl :: (ind lv ++ [']']))) ++ rest))) =
            some (Json.arr (x :: xs), rest)
          rw [parseVal_succ]
          simp only [skipWs_not_ws (show isWs '[' = false by decide)]
          show (match skipWs (nl :: ((renderItems (x :: xs) (lv + 1) ++ (nl :: (ind lv ++ [']']))) ++ rest)) with
            | ']' :: r2 => some (Json.arr [], r2)
            | _ => (parseArrItems f (nl :: ((renderItems (x :: xs) (lv + 1) ++ (nl :: (ind lv ++ [']']))) ++ rest))).map
                (fun p => (Json.arr p.1, p.2))) = some (Json.arr (x :: xs), rest)
          have hsw : skipWs (nl :: ((renderItems (x :: xs) (lv + 1) ++ (nl :: (ind lv ++ [']']))) ++ rest)) =
              c0 :: ((t0 ++ itemsTail xs (lv + 1)) ++ ((nl :: (ind lv ++ [']'])) ++ rest)) := by
            conv_lhs => rw [renderItems_split, List.append_assoc]
            exact skipWs_ind_block hbody hw0 ([nl] : Str) _ (by decide) (lv + 1)
          split
          · rename_i r2 heq
            rw [hsw] at heq
            exact absurd (List.cons.inj heq).1 hne0
          · have hwsA : parseArrItems f (nl :: ((renderItems (x :: xs) (lv + 1) ++ (nl :: (ind lv ++ [']']))) ++ rest)) =
                parseArrItems f ((renderItems (x :: xs) (lv + 1) ++ (nl :: (ind lv ++ [']']))) ++ rest) :=
              parseArrItems_ws f ([nl] : Str) (by decide) _
            have hshape : (renderItems (x :: xs) (lv + 1) ++ (nl :: (ind lv ++ [']']))) ++ rest =
                renderItems (x :: xs) (lv + 1) ++ ((nl :: ind lv) ++ (']' :: rest)) := by
              rw [List.append_assoc]
              show renderItems (x :: xs) (lv + 1) ++ (nl :: ((ind lv ++ [']']) ++ rest)) = _
              rw [List.append_assoc, List.singleton_append]
              rfl
            rw [hwsA, hshape,
              ihI (x :: xs) (lv + 1) (nl :: ind lv) rest (List.cons_ne_nil x xs) hbi0 hpsi
                (by rw [List.all_cons, ind_all_ws]; decide)]
            rfl
      | obj fields =>
        cases fields with
        | nil => rfl
        | cons g gs =>
          obtain ⟨k, v⟩ := g
          have hbo : (decide ((((k, v) :: gs).map Prod.fst).Nodup) && benignFields ((k, v) :: gs)) = true := hb
          rw [Bool.and_eq_true, decide_eq_true_eq] at hbo
          obtain ⟨hnodup, hbf⟩ := hbo
          have hpse : psizeV (Json.obj ((k, v) :: gs)) = 1 + psizeFields ((k, v) :: gs) := rfl
          have hpsf : psizeFields ((k, v) :: gs) ≤ f := by omega
          show parseVal (f + 1)
            (lbrace :: (nl :: ((renderFields ((k, v) :: gs) (lv + 1) ++ (nl :: (ind lv ++ [rbrace]))) ++ rest))) =
            some (Json.obj ((k, v) :: gs), rest)
          rw [parseVal_succ]
          simp only [skipWs_not_ws (show isWs lbrace = false by decide)]
          have hbody : quoteStr k ++ ((':' :: ' ' :: renderJ v (lv + 1)) ++ fieldsTail gs (lv + 1)) =
              dq :: ((escStr k ++ [dq]) ++ ((':' :: ' ' :: renderJ v (lv + 1)) ++ fieldsTail gs (lv + 1))) := rfl
          have hsw : skipWs (nl :: ((renderFields ((k, v) :: gs) (lv + 1) ++ (nl :: (ind lv ++ [rbrace]))) ++ rest)) =
              dq :: (((escStr k ++ [dq]) ++ ((':' :: ' ' :: renderJ v (lv + 1)) ++ fieldsTail gs (lv + 1))) ++
                ((nl :: (ind lv ++ [rbrace])) ++ rest)) := by
            conv_lhs => rw [renderFields_split, List.append_assoc]
            exact skipWs_ind_block hbody (by decide) ([nl] : Str) _ (by decide) (lv + 1)
          rw [hsw]
          show (parseObjItems f (dq :: (((escStr k ++ [dq]) ++ ((':' :: ' ' :: renderJ v (lv + 1)) ++ fieldsTail gs (lv + 1))) ++
              ((nl :: (ind lv ++ [rbrace])) ++ rest)))).map
              (fun p => (Json.obj (p.1.foldl (fun acc kv => objSet acc kv.1 kv.2) []), p.2)) =
            some (Json.obj ((k, v) :: gs), rest)
          have heqtail : (nl :: (ind lv ++ [rbrace])) ++ rest = (nl :: ind lv) ++ (rbrace :: rest) := by
            show nl :: ((ind lv ++ [rbrace]) ++ rest) = nl :: (ind lv ++ (rbrace :: rest))
            rw [List.append_assoc, List.singleton_append]
          rw [heqtail]
          have hswY : skipWs (renderFields ((k, v) :: gs) (lv + 1) ++ ((nl :: ind lv) ++ (rbrace :: rest))) =
              dq :: (((escStr k ++ [dq]) ++ ((':' :: ' ' :: renderJ v (lv + 1)) ++ fieldsTail gs (lv + 1))) ++
                ((nl :: ind lv) ++ (rbrace :: rest))) := by
            conv_lhs => rw [renderFields_split]
            exact skipWs_ind_block hbody (by decide) ([] : Str) _ (by decide) (lv + 1)
          have hstep : parseObjItems f (dq :: (((escStr k ++ [dq]) ++ ((':' :: ' ' :: renderJ v (lv + 1)) ++ fieldsTail gs (lv + 1))) ++
              ((nl :: ind lv) ++ (rbrace :: rest)))) =
              parseObjItems f (renderFields ((k, v) :: gs) (lv + 1) ++ ((nl :: ind lv) ++ (rbrace :: rest))) := by
            rw [← hswY]
            exact parseObjItems_skip f _
          rw [hstep,
            ihF ((k, v) :: gs) (lv + 1) (nl :: ind lv) rest (List.cons_ne_nil (k, v) gs) hbf hpsf
              (by rw [List.all_cons, ind_all_ws]; decide)]
          have hfold : ((k, v) :: gs).foldl (fun acc kv => objSet acc kv.1 kv.2) [] = (k, v) :: gs :=
            foldl_objSet_nodup ((k, v) :: gs) [] hnodup
          show some (Json.obj (((k, v) :: gs).foldl (fun acc kv => objSet acc kv.1 kv.2) []), rest) =
            some (Json.obj ((k, v) :: gs), rest)
          rw [hfold]
    · intro xs lv close rest hne hb hps hws
      cases xs with
      | nil => exact absurd rfl hne
      | cons x xs =>
        have hbi : (benignJson x && benignItems xs) = true := hb
        rw [Bool.and_eq_true] at hbi
        have hpse : psizeItems (x :: xs) = 1 + psizeV x + psizeItems xs := rfl
        rw [parseArrItems_succ]
        have hinput : renderItems (x :: xs) lv ++ (close ++ (']' :: rest)) =
            ind lv ++ (renderJ x lv ++ (itemsTail xs lv ++ (close ++ (']' :: rest)))) := by
          rw [renderItems_split, List.append_assoc, List.append_assoc]
        rw [hinput]
        have hpv : parseVal f (ind lv ++ (renderJ x lv ++ (itemsTail xs lv ++ (close ++ (']' :: rest))))) =
            parseVal f (renderJ x lv ++ (itemsTail xs lv ++ (close ++ (']' :: rest)))) :=
          parseVal_ws f (ind lv) (ind_all_ws lv) _
        have hrest2 : restOk (itemsTail xs lv ++ (close ++ (']' :: rest))) = true := by
          cases xs with
          | nil => exact restOk_close hws (by decide) rest
          | cons y ys => rfl
        rw [hpv, ihV x lv _ hbi.1 (by omega) hrest2]
        cases xs with
        | nil =>
          have hskip : skipWs (itemsTail ([] : List Json) lv ++ (close ++ (']' :: rest))) = ']' :: rest := by
            show skipWs (close ++ (']' :: rest)) = ']' :: rest
            rw [skipWs_ws_append hws]
            exact skipWs_not_ws (by decide) rest
          show (match skipWs (itemsTail ([] : List Json) lv ++ (close ++ (']' :: rest))) with
            | c :: r2 =>
              if c = ',' then (parseArrItems f r2).map (fun q => (x :: q.1, q.2))
              else if c = ']' then some ([x], r2)
              else none
            | [] => none) = some ([x], rest)
          rw [hskip]
          rfl
        | cons y ys =>
          have hskip : skipWs (itemsTail (y :: ys) lv ++ (close ++ (']' :: rest))) =
              ',' :: (nl :: (renderItems (y :: ys) lv ++ (close ++ (']' :: rest)))) :=
            skipWs_not_ws (by decide) _
          show (match skipWs (itemsTail (y :: ys) lv ++ (close ++ (']' :: rest))) with
            | c :: r2 =>
              if c = ',' then (parseArrItems f r2).map (fun q => (x :: q.1, q.2))
              else if c = ']' then some ([x], r2)
              else none
            | [] => none) = some (x :: y :: ys, rest)
          rw [hskip]
          show (parseArrItems f (nl :: (renderItems (y :: ys) lv ++ (close ++ (']' :: rest))))).map
              (fun q => (x :: q.1, q.2)) = some (x :: y :: ys, rest)
          have hws2 : parseArrItems f (nl :: (renderItems (y :: ys) lv ++ (close ++ (']' :: rest)))) =
              parseArrItems f (renderItems (y :: ys) lv ++ (close ++ (']' :: rest))) :=
            parseArrItems_ws f ([nl] : Str) (by decide) _
          rw [hws2, ihI (y :: ys) lv close rest (List.cons_ne_nil y ys) hbi.2 (by omega) hws]
          rfl
    · intro fs lv close rest hne hb hps hws
      cases fs with
      | nil => exact absurd rfl hne
      | cons g gs =>
        obtain ⟨k, v⟩ := g
        have hbf : (benignStr k && benignJson v && benignFields gs) = true := hb
        rw [Bool.and_eq_true, Bool.and_eq_true] at hbf
        obtain ⟨⟨hbk, hbv⟩, hbgs⟩ := hbf
        have hpse : psizeFields ((k, v) :: gs) = 1 + psizeV v + psizeFields gs := rfl
        have hesc : escStr k = k := escStr_benign hbk
        rw [parseObjItems_succ]
        have hbody : quoteStr k ++ ((':' :: ' ' :: renderJ v lv) ++ fieldsTail gs lv) =
            dq :: ((escStr k ++ [dq]) ++ ((':' :: ' ' :: renderJ v lv) ++ fieldsTail gs lv)) := rfl
        have hsw : skipWs (renderFields ((k, v) :: gs) lv ++ (close ++ (rbrace :: rest))) =
            dq :: (((escStr k ++ [dq]) ++ ((':' :: ' ' :: renderJ v lv) ++ fieldsTail gs lv)) ++
              (close ++ (rbrace :: rest))) := by
          conv_lhs => rw [renderFields_split]
          exact skipWs_ind_block hbody (by decide) ([] : Str) _ (by decide) lv
        rw [hsw]
        show (parseStrBody ((((escStr k ++ [dq]) ++ ((':' :: ' ' :: renderJ v lv) ++ fieldsTail gs lv)) ++ (close ++ (rbrace :: rest))).length + 1)
            (((escStr k ++ [dq]) ++ ((':' :: ' ' :: renderJ v lv) ++ fieldsTail gs lv)) ++ (close ++ (rbrace :: rest)))).bind
          (fun kp =>
            match skipWs kp.2 with
            | d :: r2 =>
              if d = ':' then
                (parseVal f r2).bind (fun vp =>
                  match skipWs vp.2 with
                  | e :: r3 =>
                    if e = ',' then
                      (parseObjItems f r3).map (fun q => ((kp.1, vp.1) :: q.1, q.2))
                    else if e = rbrace then some ([(kp.1, vp.1)], r3)
                    else none
                  | [] => none)
              else none
            | [] => none) = some ((k, v) :: gs, rest)
        have harr : ((escStr k ++ [dq]) ++ ((':' :: ' ' :: renderJ v lv) ++ fieldsTail gs lv)) ++ (close ++ (rbrace :: rest)) =
            escStr k ++ (dq :: (((':' :: ' ' :: renderJ v lv) ++ fieldsTail gs lv) ++ (close ++ (rbrace :: rest)))) := by
          rw [List.append_assoc, List.append_assoc, List.singleton_append]
        rw [harr, hesc,
          parseStrBody_benign k hbk _ _ (by rw [List.length_append, List.length_cons]; omega)]
        show (match skipWs (((':' :: ' ' :: renderJ v lv) ++ fieldsTail gs lv) ++ (close ++ (rbrace :: rest))) with
          | d :: r2 =>
            if d = ':' then
              (parseVal f r2).bind (fun vp =>
                match skipWs vp.2 with
                | e :: r3 =>
                  if e = ',' then (parseObjItems f r3).map (fun q => ((k, vp.1) :: q.1, q.2))
                  else if e = rbrace then some ([(k, vp.1)], r3)
                  else none
                | [] => none)
            else none
          | [] => none) = some ((k, v) :: gs, rest)
        have hsw2 : skipWs (((':' :: ' ' :: renderJ v lv) ++ fieldsTail gs lv) ++ (close ++ (rbrace :: rest))) =
            ':' :: (' ' :: ((renderJ v lv ++ fieldsTail gs lv) ++ (close ++ (rbrace :: rest)))) :=
          skipWs_not_ws (by decide) _
        rw [hsw2]
        show (parseVal f (' ' :: ((renderJ v lv ++ fieldsTail gs lv) ++ (close ++ (rbrace :: rest))))).bind
            (fun vp =>
              match skipWs vp.2 with
              | e :: r3 =>
                if e = ',' then (parseObjItems f r3).map (fun q => ((k, vp.1) :: q.1, q.2))
                else if e = rbrace then some ([(k, vp.1)], r3)
                else none
              | [] => none) = some ((k, v) :: gs, rest)
        have hpv2 : parseVal f (' ' :: ((renderJ v lv ++ fieldsTail gs lv) ++ (close ++ (rbrace :: rest)))) =
            parseVal f ((renderJ v lv ++ fieldsTail gs lv) ++ (close ++ (rbrace :: rest))) :=
          parseVal_ws f ([' '] : Str) (by decide) _
        have harr2 : (renderJ v lv ++ fieldsTail gs lv) ++ (close ++ (rbrace :: rest)) =
            renderJ v lv ++ (fieldsTail gs lv ++ (close ++ (rbrace :: rest))) := List.append_assoc _ _ _
        have hrest2 : restOk (fieldsTail gs lv ++ (close ++ (rbrace :: rest))) = true := by
          cases gs with
          | nil => exact restOk_close hws (by decide) rest
          | cons g2 gs2 => rfl
        rw [hpv2, harr2, ihV v lv _ hbv (by omega) hrest2]
        cases gs with
        | nil =>
          have hskip : skipWs (fieldsTail ([] : List (Str × Json)) lv ++ (close ++ (rbrace :: rest))) = rbrace :: rest := by
            show skipWs (close ++ (rbrace :: rest)) = rbrace :: rest
            rw [skipWs_ws_append hws]
            exact skipWs_not_ws (by decide) rest
          show (match skipWs (fieldsTail ([] : List (Str × Json)) lv ++ (close ++ (rbrace :: rest))) with
            | e :: r3 =>
              if e = ',' then (parseObjItems f r3).map (fun q => ((k, v) :: q.1, q.2))
              else if e = rbrace then some ([(k, v)], r3)
              else none
            | [] => none) = some ([(k, v)], rest)
          rw [hskip]
          rfl
        | cons g2 gs2 =>
          have hskip : skipWs (fieldsTail (g2 :: gs2) lv ++ (close ++ (rbrace :: rest))) =
              ',' :: (nl :: (renderFields (g2 :: gs2) lv ++ (close ++ (rbrace :: rest)))) :=
            skipWs_not_ws (by decide) _
          show (match skipWs (fieldsTail (g2 :: gs2) lv ++ (close ++ (rbrace :: rest))) with
            | e :: r3 =>
              if e = ',' then (parseObjItems f r3).map (fun q => ((k, v) :: q.1, q.2))
              else if e = rbrace then some ([(k, v)], r3)
              else none
            | [] => none) = some ((k, v) :: g2 :: gs2, rest)
          rw [hskip]
          show (parseObjItems f (nl :: (renderFields (g2 :: gs2) lv ++ (close ++ (rbrace :: rest))))).map
              (fun q => ((k, v) :: q.1, q.2)) = some ((k, v) :: g2 :: gs2, rest)
          have hws3 : parseObjItems f (nl :: (renderFields (g2 :: gs2) lv ++ (close ++ (rbrace :: rest)))) =
              parseObjItems f (renderFields (g2 :: gs2) lv ++ (close ++ (rbrace :: rest))) :=
            parseObjItems_ws f ([nl] : Str) (by decide) _
          rw [hws3, ihF (g2 :: gs2) lv close rest (List.cons_ne_nil g2 gs2) hbgs (by omega) hws]
          rfl

theorem psize_le_render : ∀ n : Nat,
    (∀ x, jweight x ≤ n → benignJson x = true → ∀ lv, psizeV x ≤ (renderJ x lv).length) ∧
    (∀ xs, aweight xs ≤ n → xs ≠ [] → benignItems xs = true → ∀ lv,
      psizeItems xs ≤ (renderItems xs lv).length + 2) ∧
    (∀ fs, fweight fs ≤ n → fs ≠ [] → benignFields fs = true → ∀ lv,
      psizeFields fs ≤ (renderFields fs lv).length + 2) := by
  intro n
  induction n using Nat.strong_induction_on with
  | _ n ih =>
    refine ⟨?_, ?_, ?_⟩
    · intro x hw hb lv
      cases x with
      | null => show (1 : Nat) ≤ 4; omega
      | bool b => cases b with
        | true => show (1 : Nat) ≤ 4; omega
        | false => show (1 : Nat) ≤ 5; omega
      | num v =>
        have hnum : numOk v = true := hb
        show (1 : Nat) ≤ v.length
        have := (numOk_parts hnum).1
        have : 0 < v.length := List.length_pos.mpr this
        omega
      | str s =>
        show (1 : Nat) ≤ (dq :: (escStr s ++ [dq])).length
        rw [List.length_cons]
        omega
      | arr items =>
        cases items with
        | nil => show (1 : Nat) ≤ 2; omega
        | cons x xs =>
          have hb0 : benignItems (x :: xs) = true := hb
          have hwa : jweight (Json.arr (x :: xs)) = 1 + aweight (x :: xs) := rfl
          have hwa2 : aweight (x :: xs) = 1 + jweight x + aweight xs := rfl
          have hIH := (ih (n - 1) (by omega)).2.1 (x :: xs) (by omega)
            (List.cons_ne_nil x xs) hb0 (lv + 1)
          have hlen : (renderJ (Json.arr (x :: xs)) lv).length =
              (renderItems (x :: xs) (lv + 1)).length + (2 * lv + 4) := by
            show ('[' :: nl :: (renderItems (x :: xs) (lv + 1) ++ (nl :: (ind lv ++ [']'])))).length = _
            rw [List.length_cons, List.length_cons, List.length_append, List.length_cons,
              List.length_append, ind, List.length_replicate, List.length_singleton]
            omega
          have hpe : psizeV (Json.arr (x :: xs)) = 1 + psizeItems (x :: xs) := rfl
          omega
      | obj fields =>
        cases fields with
        | nil => show (1 : Nat) ≤ 2; omega
        | cons g gs =>
          have hbo : (decide (((g :: gs).map Prod.fst).Nodup) && benignFields (g :: gs)) = true := hb
          rw [Bool.and_eq_true] at hbo
          have hwo : jweight (Json.obj (g :: gs)) = 1 + fweight (g :: gs) := rfl
          have hwo2 : fweight (g :: gs) = 1 + jweight g.2 + fweight gs := rfl
          have hIH := (ih (n - 1) (by omega)).2.2 (g :: gs) (by omega)
            (List.cons_ne_nil g gs) hbo.2 (lv + 1)
          have hlen : (renderJ (Json.obj (g :: gs)) lv).length =
              (renderFields (g :: gs) (lv + 1)).length + (2 * lv + 4) := by
            show (lbrace :: nl :: (renderFields (g :: gs) (lv + 1) ++ (nl :: (ind lv ++ [rbrace])))).length = _
            rw [List.length_cons, List.length_cons, List.length_append, List.length_cons,
              List.length_append, ind, List.length_replicate, List.length_singleton]
            omega
          have hpe : psizeV (Json.obj (g :: gs)) = 1 + psizeFields (g :: gs) := rfl
          omega
    · intro xs hw hne hb lv
      cases xs with
      | nil => exact absurd rfl hne
      | cons x xs =>
        have hbi : (benignJson x && benignItems xs) = true := hb
        rw [Bool.and_eq_true] at hbi
        have haw : aweight (x :: xs) = 1 + jweight x + aweight xs := rfl
        have hIHx := (ih (n - 1) (by omega)).1 x (by omega) hbi.1 lv
        have hlen : (renderItems (x :: xs) lv).length =
            2 * lv + (renderJ x lv).length + (itemsTail xs lv).length := by
          rw [renderItems_split, List.length_append, List.length_append, ind,
            List.length_replicate]
          omega
        have hpi : psizeItems (x :: xs) = 1 + psizeV x + psizeItems xs := rfl
        cases xs with
        | nil =>
          have htail : (itemsTail ([] : List Json) lv).length = 0 := rfl
          have hp0 : psizeItems ([] : List Json) = 1 := rfl
          omega
        | cons y ys =>
          have hIHr := (ih (n - 1) (by omega)).2.1 (y :: ys) (by omega)
            (List.cons_ne_nil y ys) hbi.2 lv
          have htail : (itemsTail (y :: ys) lv).length = 2 + (renderItems (y :: ys) lv).length := by
            show (',' :: nl :: renderItems (y :: ys) lv).length = _
            rw [List.length_cons, List.length_cons]
            omega
          omega
    · intro fs hw hne hb lv
      cases fs with
      | nil => exact absurd rfl hne
      | cons g gs =>
        obtain ⟨k, v⟩ := g
        have hbf : (benignStr k && benignJson v && benignFields gs) = true := hb
        rw [Bool.and_eq_true, Bool.and_eq_true] at hbf
        obtain ⟨⟨hbk, hbv⟩, hbgs⟩ := hbf
        have hfw : fweight ((k, v) :: gs) = 1 + jweight v + fweight gs := rfl
        have hIHv := (ih (n - 1) (by omega)).1 v (by omega) hbv lv
        have hqlen : (quoteStr k).length = (escStr k).length + 2 := by
          show (dq :: (escStr k ++ [dq])).length = _
          rw [List.length_cons, List.length_append, List.length_singleton]
        have hlen : (renderFields ((k, v) :: gs) lv).length =
            2 * lv + (quoteStr k).length + (2 + (renderJ v lv).length) +
              (fieldsTail gs lv).length := by
          rw [renderFields_split, List.length_append, List.length_append, List.length_append,
            List.length_cons, List.length_cons, ind, List.length_replicate]
          omega
        have hpf : psizeFields ((k, v) :: gs) = 1 + psizeV v + psizeFields gs := rfl
        cases gs with
        | nil =>
          have htail : (fieldsTail ([] : List (Str × Json)) lv).length = 0 := rfl
          have hp0 : psizeFields ([] : List (Str × Json)) = 1 := rfl
          omega
        | cons g2 gs2 =>
          have hIHr := (ih (n - 1) (by omega)).2.2 (g2 :: gs2) (by omega)
            (List.cons_ne_nil g2 gs2) hbgs lv
          have htail : (fieldsTail (g2 :: gs2) lv).length = 2 + (renderFields (g2 :: gs2) lv).length := by
            show (',' :: nl :: renderFields (g2 :: gs2) lv).length = _
            rw [List.length_cons, List.length_cons]
            omega
          omega

/-- `JSON.parse` recovers any benign document from its
`JSON.stringify(v, null, 2)` rendering. -/
theorem parse_render (x : Json) (hb : benignJson x = true) :
    parse (renderJ x 0) = some x := by
  have hfuel : psizeV x ≤ 2 * (renderJ x 0).length + 8 := by
    have := (psize_le_render (jweight x)).1 x (Nat.le_refl _) hb 0
    omega
  have hmain := (parse_render_all (2 * (renderJ x 0).length + 8)).1 x 0 [] hb hfuel rfl
  rw [List.append_nil] at hmain
  unfold parse
  rw [hmain]
  rfl

/-! Key/value invariants of the object operations, and benignity of the
documents the extractor builds. -/

theorem benignFields_mem : ∀ {fs : List (Str × Json)}, benignFields fs = true ↔
    ∀ kv ∈ fs, benignStr kv.1 = true ∧ benignJson kv.2 = true := by
  intro fs
  induction fs with
  | nil => exact ⟨fun _ kv h => absurd h (List.not_mem_nil kv), fun _ => rfl⟩
  | cons g gs ih =>
    constructor
    · intro h kv hkv
      have h2 : (benignStr g.1 && benignJson g.2 && benignFields gs) = true := h
      rw [Bool.and_eq_true, Bool.and_eq_true] at h2
      rcases List.mem_cons.mp hkv with h3 | h3
      · subst h3; exact ⟨h2.1.1, h2.1.2⟩
      · exact ih.mp h2.2 kv h3
    · intro h
      show (benignStr g.1 && benignJson g.2 && benignFields gs) = true
      rw [Bool.and_eq_true, Bool.and_eq_true]
      exact ⟨⟨(h g (List.mem_cons_self g gs)).1, (h g (List.mem_cons_self g gs)).2⟩,
        ih.mpr (fun kv hkv => h kv (List.mem_cons_of_mem g hkv))⟩

theorem mem_objSet {α : Type} {o : List (Str × α)} {k : Str} {v : α} {q : Str × α}
    (h : q ∈ objSet o k v) : q ∈ o ∨ q = (k, v) := by
  unfold objSet at h
  by_cases ha : o.any (fun r => decide (r.1 = k))
  · rw [if_pos ha] at h
    obtain ⟨r, hr, he⟩ := List.mem_map.mp h
    by_cases hrk : r.1 = k
    · rw [if_pos hrk] at he; right; exact he.symm
    · rw [if_neg hrk] at he; left; rw [← he]; exact hr
  · rw [if_neg ha] at h
    rcases List.mem_append.mp h with h1 | h2
    · left; exact h1
    · right; exact List.mem_singleton.mp h2

theorem objSet_nodup {α : Type} (o : List (Str × α)) (k : Str) (v : α)
    (hnd : (o.map Prod.fst).Nodup) : ((objSet o k v).map Prod.fst).Nodup := by
  unfold objSet
  by_cases h : o.any (fun q => decide (q.1 = k))
  · rw [if_pos h]
    have hmap : (o.map (fun q => if q.1 = k then (k, v) else q)).map Prod.fst =
        o.map Prod.fst := by
      clear hnd h
      induction o with
      | nil => rfl
      | cons q os ih2 =>
        rw [List.map_cons, List.map_cons, List.map_cons]
        by_cases hq : q.1 = k
        · rw [if_pos hq]
          show k :: _ = q.1 :: _
          rw [hq, ih2]
        · rw [if_neg hq, ih2]
    rw [hmap]
    exact hnd
  · rw [if_neg h, List.map_append]
    rw [List.nodup_append]
    refine ⟨hnd, List.nodup_singleton _, ?_⟩
    intro a ha hb
    rw [List.map_singleton, List.mem_singleton] at hb
    subst hb
    obtain ⟨q, hq, he⟩ := List.mem_map.mp ha
    exact absurd (List.any_eq_true.mpr ⟨q, hq, by simp [he]⟩) h

theorem objMerge_mem {α : Type} : ∀ (b a : List (Str × α)) (q : Str × α),
    q ∈ objMerge a b → q ∈ a ∨ q ∈ b := by
  intro b
  induction b with
  | nil => intro a q h; left; exact h
  | cons r bs ih =>
    intro a q h
    have h2 : q ∈ objMerge (objSet a r.1 r.2) bs := h
    rcases ih (objSet a r.1 r.2) q h2 with h3 | h3
    · rcases mem_objSet h3 with h4 | h4
      · left; exact h4
      · right
        have hqr : q = r := h4
        rw [hqr]
        exact List.mem_cons_self r bs
    · right; exact List.mem_cons_of_mem r h3

theorem objMerge_nodup {α : Type} : ∀ (b a : List (Str × α)),
    (a.map Prod.fst).Nodup → ((objMerge a b).map Prod.fst).Nodup := by
  intro b
  induction b with
  | nil => intro a h; exact h
  | cons r bs ih => intro a h; exact ih (objSet a r.1 r.2) (objSet_nodup a r.1 r.2 h)

theorem objGet_of_mem_nodup {α : Type} : ∀ {o : List (Str × α)},
    (o.map Prod.fst).Nodup → ∀ {kv : Str × α}, kv ∈ o → objGet o kv.1 = some kv.2 := by
  intro o
  induction o with
  | nil => intro _ kv h; exact absurd h (List.not_mem_nil kv)
  | cons q os ih =>
    intro hnd kv h
    rcases List.mem_cons.mp h with h1 | h1
    · subst h1; exact objGet_cons_self rfl os
    · have hq : q.1 ≠ kv.1 := by
        intro e
        have hm : kv.1 ∈ os.map Prod.fst := List.mem_map.mpr ⟨kv, h1, rfl⟩
        rw [← e] at hm
        exact (List.nodup_cons.mp hnd).1 hm
      rw [objGet_cons_ne2 hq]
      exact ih (List.nodup_cons.mp hnd).2 h1

theorem objSet_map_id {α : Type} : ∀ {o : List (Str × α)} {k : Str},
    ¬ k ∈ o.map Prod.fst → ∀ (v : α),
    o.map (fun q => if q.1 = k then (k, v) else q) = o := by
  intro o
  induction o with
  | nil => intro k _ v; rfl
  | cons q os ih =>
    intro k h v
    rw [List.map_cons,
      if_neg (fun e => h (by rw [List.map_cons, ← e]; exact List.mem_cons_self _ _)),
      ih (fun hm => h (by rw [List.map_cons]; exact List.mem_cons_of_mem _ hm)) v]

theorem objSet_self {α : Type} : ∀ {o : List (Str × α)}, (o.map Prod.fst).Nodup →
    ∀ {k : Str} {v : α}, objGet o k = some v → objSet o k v = o := by
  intro o hnd k v hget
  have hm : (k, v) ∈ o := objGet_mem hget
  unfold objSet
  rw [if_pos (List.any_eq_true.mpr ⟨(k, v), hm, by simp⟩)]
  clear hm
  induction o with
  | nil => rfl
  | cons q os ih =>
    by_cases hq : q.1 = k
    · rw [List.map_cons, if_pos hq]
      have hv : q.2 = v := by
        rw [objGet_cons_self hq] at hget
        exact Option.some.inj hget
      have hqe : (k, v) = q := by rw [← hq, ← hv]
      have hknot : ¬ k ∈ os.map Prod.fst := by
        rw [← hq]
        exact (List.nodup_cons.mp hnd).1
      rw [objSet_map_id hknot, hqe]
    · rw [List.map_cons, if_neg hq]
      rw [objGet_cons_ne2 hq] at hget
      rw [ih (List.nodup_cons.mp hnd).2 hget]

theorem objMerge_self_stable {α : Type} : ∀ (s A : List (Str × α)),
    (A.map Prod.fst).Nodup → (∀ kv ∈ s, objGet A kv.1 = some kv.2) →
    objMerge A s = A := by
  intro s
  induction s with
  | nil => intro A _ _; rfl
  | cons r s ih =>
    intro A hnd hvals
    have h1 : objSet A r.1 r.2 = A := objSet_self hnd (hvals r (List.mem_cons_self r s))
    show objMerge (objSet A r.1 r.2) s = A
    rw [h1]
    exact ih A hnd (fun kv hkv => hvals kv (List.mem_cons_of_mem r hkv))

theorem isDigit_ge {c : Char} (h : c.isDigit = true) : 32 ≤ c.toNat := by
  simp [Char.isDigit, UInt32.le_def] at h
  obtain ⟨h1, _⟩ := h
  rw [BitVec.le_def] at h1
  simp at h1
  show 32 ≤ c.val.toBitVec.toNat
  omega

theorem isUpper_ge {c : Char} (h : c.isUpper = true) : 32 ≤ c.toNat := by
  simp [Char.isUpper, UInt32.le_def] at h
  obtain ⟨h1, _⟩ := h
  rw [BitVec.le_def] at h1
  simp at h1
  show 32 ≤ c.val.toBitVec.toNat
  omega

theorem isLower_ge {c : Char} (h : c.isLower = true) : 32 ≤ c.toNat := by
  simp [Char.isLower, UInt32.le_def] at h
  obtain ⟨h1, _⟩ := h
  rw [BitVec.le_def] at h1
  simp at h1
  show 32 ≤ c.val.toBitVec.toNat
  omega

theorem clsAlnum_benign {c : Char} (h : clsAlnum c = true) : benignChar c = true := by
  have hh := h
  rw [clsAlnum, Bool.or_eq_true, Char.isAlpha, Bool.or_eq_true] at hh
  have h32 : 32 ≤ c.toNat := by
    rcases hh with (h1 | h1) | h1
    · exact isUpper_ge h1
    · exact isLower_ge h1
    · exact isDigit_ge h1
  have hdq : ¬(c = dq) := by intro e; subst e; exact absurd h (by decide)
  have hbs : ¬(c = bslash) := by intro e; subst e; exact absurd h (by decide)
  simp only [benignChar, Bool.and_eq_true, Bool.not_eq_true', decide_eq_true_eq,
    decide_eq_false_iff_not]
  exact ⟨⟨h32, hdq⟩, hbs⟩

theorem clsXoxc_benign {c : Char} (h : clsXoxc c = true) : benignChar c = true := by
  rw [clsXoxc, Bool.or_eq_true] at h
  rcases h with h | h
  · exact clsAlnum_benign h
  · rw [decide_eq_true_eq] at h; subst h; decide

theorem clsXoxd_benign {c : Char} (h : clsXoxd c = true) : benignChar c = true := by
  rw [clsXoxd, Bool.or_eq_true, Bool.or_eq_true, Bool.or_eq_true] at h
  rcases h with ((h | h) | h) | h
  · exact clsAlnum_benign h
  all_goals rw [decide_eq_true_eq] at h; subst h; decide

theorem clsJira_benign {c : Char} (h : clsJira c = true) : benignChar c = true := by
  rw [clsJira, Bool.or_eq_true, Bool.or_eq_true, Bool.or_eq_true, Bool.or_eq_true] at h
  rcases h with (((h | h) | h) | h) | h
  · exact clsAlnum_benign h
  all_goals rw [decide_eq_true_eq] at h; subst h; decide

/-- A pattern whose prefix, name and class characters are all benign. -/
def PatBenign (p : SecPat) : Prop :=
  benignStr p.name = true ∧ p.pref.all benignChar = true ∧
    ∀ c, p.cls c = true → benignChar c = true

theorem patBenign_all : ∀ p ∈ SECRET_PATTERNS, PatBenign p := by
  intro p hp
  simp only [SECRET_PATTERNS, List.mem_cons, List.not_mem_nil, or_false] at hp
  rcases hp with rfl | rfl | rfl | rfl | rfl | rfl | rfl | rfl
  · exact ⟨by decide, by decide, fun c => clsAlnum_benign⟩
  · exact ⟨by decide, by decide, fun c => clsAlnum_benign⟩
  · exact ⟨by decide, by decide, fun c => clsAlnum_benign⟩
  · exact ⟨by decide, by decide, fun c => clsAlnum_benign⟩
  · exact ⟨by decide, by decide, fun c => clsAlnum_benign⟩
  · exact ⟨by decide, by decide, fun c => clsXoxc_benign⟩
  · exact ⟨by decide, by decide, fun c => clsXoxd_benign⟩
  · exact ⟨by decide, by decide, fun c => clsJira_benign⟩

theorem isPatMatch_benign {p : SecPat} {m : Str} (hp : PatBenign p)
    (hm : isPatMatch p m) : benignStr m = true := by
  obtain ⟨run, _, hcls, he⟩ := hm
  subst he
  rw [benignStr, List.all_append, Bool.and_eq_true]
  refine ⟨hp.2.1, ?_⟩
  rw [List.all_eq_true]
  intro c hc
  exact hp.2.2 c (hcls c hc)

theorem scanPat_matches (p : SecPat) (repl : Str) : ∀ n (s : Str), s.length ≤ n →
    ∀ m ∈ (scanPat p repl s).1, isPatMatch p m := by
  intro n
  induction n with
  | zero =>
    intro s hs m hm
    have : s = [] := List.eq_nil_of_length_eq_zero (by omega)
    subst this
    rw [scanPat_nil] at hm
    exact absurd hm (List.not_mem_nil m)
  | succ n ih =>
    intro s hs m hm
    cases s with
    | nil =>
      rw [scanPat_nil] at hm
      exact absurd hm (List.not_mem_nil m)
    | cons c rest =>
      cases htm : tryMatch p (c :: rest) with
      | some mt =>
        obtain ⟨m0, t0⟩ := mt
        rw [scanPat_cons_some repl htm] at hm
        rcases List.mem_cons.mp hm with rfl | hm2
        · exact tryMatch_isPatMatch htm
        · have hlt := tryMatch_tail_lt htm
          exact ih t0 (by simp at hs hlt ⊢; omega) m hm2
      | none =>
        rw [scanPat_cons_none repl htm] at hm
        exact ih rest (by simp at hs; omega) m hm

theorem tokOf_benign {k : Str} (hk : benignStr k = true) :
    benignStr (tokOf k) = true := by
  show ((dollar :: lbrace :: (k ++ [rbrace])).all benignChar) = true
  rw [List.all_cons, List.all_cons, List.all_append, Bool.and_eq_true, Bool.and_eq_true,
    Bool.and_eq_true]
  exact ⟨by decide, by decide, hk, by decide⟩

theorem pathJoin_benign {a b : Str} (ha : benignStr a = true) (hb : benignStr b = true) :
    benignStr (pathJoin a b) = true := by
  show ((a ++ ('/' :: b)).all benignChar) = true
  rw [List.all_append, Bool.and_eq_true, List.all_cons, Bool.and_eq_true]
  exact ⟨ha, by decide, hb⟩

/-- Invariant of the env-secret accumulator: keys from the allow-list,
benign values, no duplicate keys. -/
def AccOk (acc : List (Str × Str)) : Prop :=
  (∀ kv ∈ acc, kv.1 ∈ SECRET_ENV_KEYS ∧ benignStr kv.2 = true) ∧
    (acc.map Prod.fst).Nodup

theorem accOk_nil : AccOk [] :=
  ⟨fun kv h => absurd h (List.not_mem_nil kv), List.nodup_nil⟩

theorem accOk_objSet {acc : List (Str × Str)} (h : AccOk acc) {k sv : Str}
    (hk : k ∈ SECRET_ENV_KEYS) (hv : benignStr sv = true) : AccOk (objSet acc k sv) := by
  refine ⟨?_, objSet_nodup acc k sv h.2⟩
  intro kv hkv
  rcases mem_objSet hkv with h1 | h1
  · exact h.1 kv h1
  · rw [h1]; exact ⟨hk, hv⟩

theorem maskEnvEntries_acc : ∀ (env : List (Str × Json)) (acc : List (Str × Str)),
    benignFields env = true → AccOk acc → AccOk (maskEnvEntries env acc).2 := by
  intro env
  induction env with
  | nil => intro acc _ h; exact h
  | cons kv rest ih =>
    intro acc hb hacc
    obtain ⟨k, v⟩ := kv
    have hb2 : (benignStr k && benignJson v && benignFields rest) = true := hb
    rw [Bool.and_eq_true, Bool.and_eq_true] at hb2
    obtain ⟨⟨hbk, hbv⟩, hbrest⟩ := hb2
    cases v with
    | str sv =>
      by_cases hcond : k ∈ SECRET_ENV_KEYS ∧ sv ≠ [] ∧ ¬ [dollar, lbrace].isPrefixOf sv
      · have hstep : (maskEnvEntries ((k, Json.str sv) :: rest) acc).2 =
            (maskEnvEntries rest (objSet acc k sv)).2 := by
          simp only [maskEnvEntries, if_pos hcond]
        rw [hstep]
        exact ih _ hbrest (accOk_objSet hacc hcond.1 hbv)
      · have hstep : (maskEnvEntries ((k, Json.str sv) :: rest) acc).2 =
            (maskEnvEntries rest acc).2 := by
          simp only [maskEnvEntries, if_neg hcond]
        rw [hstep]
        exact ih _ hbrest hacc
    | null => exact ih _ hbrest hacc
    | bool b => exact ih _ hbrest hacc
    | num n => exact ih _ hbrest hacc
    | arr xs => exact ih _ hbrest hacc
    | obj fs2 => exact ih _ hbrest hacc

theorem maskEnvEntries_benign : ∀ (env : List (Str × Json)) (acc : List (Str × Str)),
    benignFields env = true → benignFields (maskEnvEntries env acc).1 = true ∧
      (maskEnvEntries env acc).1.map Prod.fst = env.map Prod.fst := by
  intro env
  induction env with
  | nil => intro acc _; exact ⟨rfl, rfl⟩
  | cons kv rest ih =>
    intro acc hb
    obtain ⟨k, v⟩ := kv
    have hb2 : (benignStr k && benignJson v && benignFields rest) = true := hb
    rw [Bool.and_eq_true, Bool.and_eq_true] at hb2
    obtain ⟨⟨hbk, hbv⟩, hbrest⟩ := hb2
    cases v with
    | str sv =>
      by_cases hcond : k ∈ SECRET_ENV_KEYS ∧ sv ≠ [] ∧ ¬ [dollar, lbrace].isPrefixOf sv
      · have hstep : maskEnvEntries ((k, Json.str sv) :: rest) acc =
            ((k, Json.str (tokOf k)) :: (maskEnvEntries rest (objSet acc k sv)).1,
             (maskEnvEntries rest (objSet acc k sv)).2) := by
          simp only [maskEnvEntries, if_pos hcond]
        obtain ⟨hben, hkeys⟩ := ih (objSet acc k sv) hbrest
        rw [hstep]
        constructor
        · show (benignStr k && benignJson (Json.str (tokOf k)) &&
            benignFields (maskEnvEntries rest (objSet acc k sv)).1) = true
          rw [Bool.and_eq_true, Bool.and_eq_true]
          exact ⟨⟨hbk, tokOf_benign hbk⟩, hben⟩
        · show k :: (maskEnvEntries rest (objSet acc k sv)).1.map Prod.fst =
            k :: rest.map Prod.fst
          rw [hkeys]
      · have hstep : maskEnvEntries ((k, Json.str sv) :: rest) acc =
            ((k, Json.str sv) :: (maskEnvEntries rest acc).1,
             (maskEnvEntries rest acc).2) := by
          simp only [maskEnvEntries, if_neg hcond]
        obtain ⟨hben, hkeys⟩ := ih acc hbrest
        rw [hstep]
        constructor
        · show (benignStr k && benignJson (Json.str sv) &&
            benignFields (maskEnvEntries rest acc).1) = true
          rw [Bool.and_eq_true, Bool.and_eq_true]
          exact ⟨⟨hbk, hbv⟩, hben⟩
        · show k :: (maskEnvEntries rest acc).1.map Prod.fst = k :: rest.map Prod.fst
          rw [hkeys]
    | null =>
      obtain ⟨hben, hkeys⟩ := ih acc hbrest
      refine ⟨?_, ?_⟩
      · show (benignStr k && benignJson Json.null &&
          benignFields (maskEnvEntries rest acc).1) = true
        rw [Bool.and_eq_true, Bool.and_eq_true]
        exact ⟨⟨hbk, rfl⟩, hben⟩
      · show k :: (maskEnvEntries rest acc).1.map Prod.fst = k :: rest.map Prod.fst
        rw [hkeys]
    | bool b =>
      obtain ⟨hben, hkeys⟩ := ih acc hbrest
      refine ⟨?_, ?_⟩
      · show (benignStr k && benignJson (Json.bool b) &&
          benignFields (maskEnvEntries rest acc).1) = true
        rw [Bool.and_eq_true, Bool.and_eq_true]
        exact ⟨⟨hbk, rfl⟩, hben⟩
      · show k :: (maskEnvEntries rest acc).1.map Prod.fst = k :: rest.map Prod.fst
        rw [hkeys]
    | num n =>
      obtain ⟨hben, hkeys⟩ := ih acc hbrest
      refine ⟨?_, ?_⟩
      · show (benignStr k && benignJson (Json.num n) &&
          benignFields (maskEnvEntries rest acc).1) = true
        rw [Bool.and_eq_true, Bool.and_eq_true]
        exact ⟨⟨hbk, hbv⟩, hben⟩
      · show k :: (maskEnvEntries rest acc).1.map Prod.fst = k :: rest.map Prod.fst
        rw [hkeys]
    | arr xs =>
      obtain ⟨hben, hkeys⟩ := ih acc hbrest
      refine ⟨?_, ?_⟩
      · show (benignStr k && benignJson (Json.arr xs) &&
          benignFields (maskEnvEntries rest acc).1) = true
        rw [Bool.and_eq_true, Bool.and_eq_true]
        exact ⟨⟨hbk, hbv⟩, hben⟩
      · show k :: (maskEnvEntries rest acc).1.map Prod.fst = k :: rest.map Prod.fst
        rw [hkeys]
    | obj fs2 =>
      obtain ⟨hben, hkeys⟩ := ih acc hbrest
      refine ⟨?_, ?_⟩
      · show (benignStr k && benignJson (Json.obj fs2) &&
          benignFields (maskEnvEntries rest acc).1) = true
        rw [Bool.and_eq_true, Bool.and_eq_true]
        exact ⟨⟨hbk, hbv⟩, hben⟩
      · show k :: (maskEnvEntries rest acc).1.map Prod.fst = k :: rest.map Prod.fst
        rw [hkeys]

theorem setFirstVal_benign : ∀ (fields : List (Str × Json)) (k : Str) (v : Json),
    benignFields fields = true → benignJson v = true →
    benignFields (setFirstVal fields k v) = true ∧
      (setFirstVal fields k v).map Prod.fst = fields.map Prod.fst := by
  intro fields
  induction fields with
  | nil => intro k v _ _; exact ⟨rfl, rfl⟩
  | cons kv rest ih =>
    intro k v hb hv
    obtain ⟨k0, v0⟩ := kv
    have hb2 : (benignStr k0 && benignJson v0 && benignFields rest) = true := hb
    rw [Bool.and_eq_true, Bool.and_eq_true] at hb2
    obtain ⟨⟨hbk, hbv⟩, hbrest⟩ := hb2
    by_cases hk : k0 = k
    · have hstep : setFirstVal ((k0, v0) :: rest) k v = (k0, v) :: rest := by
        simp only [setFirstVal, if_pos hk]
      rw [hstep]
      refine ⟨?_, rfl⟩
      show (benignStr k0 && benignJson v && benignFields rest) = true
      rw [Bool.and_eq_true, Bool.and_eq_true]
      exact ⟨⟨hbk, hv⟩, hbrest⟩
    · have hstep : setFirstVal ((k0, v0) :: rest) k v =
          (k0, v0) :: setFirstVal rest k v := by
        simp only [setFirstVal, if_neg hk]
      obtain ⟨h1, h2⟩ := ih k v hbrest hv
      rw [hstep]
      constructor
      · show (benignStr k0 && benignJson v0 && benignFields (setFirstVal rest k v)) = true
        rw [Bool.and_eq_true, Bool.and_eq_true]
        exact ⟨⟨hbk, hbv⟩, h1⟩
      · show k0 :: (setFirstVal rest k v).map Prod.fst = k0 :: rest.map Prod.fst
        rw [h2]

theorem walk_acc : ∀ n : Nat,
    (∀ (j : Json) (acc : List (Str × Str)), benignJson j = true → AccOk acc →
      AccOk (walkJsonF n j acc).2) ∧
    (∀ (fs : List (Str × Json)) (acc : List (Str × Str)), benignFields fs = true →
      AccOk acc → AccOk (walkFieldsF n fs acc).2) ∧
    (∀ (xs : List Json) (acc : List (Str × Str)), benignItems xs = true →
      AccOk acc → AccOk (walkItemsF n xs acc).2) := by
  intro n
  induction n with
  | zero => exact ⟨fun _ _ _ h => h, fun _ _ _ h => h, fun _ _ _ h => h⟩
  | succ n ih =>
    obtain ⟨ihJ, ihF, ihI⟩ := ih
    refine ⟨?_, ?_, ?_⟩
    · intro j acc hb hacc
      cases j with
      | obj fields =>
        have hb2 : (decide ((fields.map Prod.fst).Nodup) && benignFields fields) = true := hb
        rw [Bool.and_eq_true, decide_eq_true_eq] at hb2
        obtain ⟨hnd, hbf⟩ := hb2
        cases henv : envObj fields with
        | some envfs =>
          have hmem := objGet_mem (envObj_weight henv)
          have hbenv : benignJson (Json.obj envfs) = true :=
            (benignFields_mem.mp hbf _ hmem).2
          have hbenv2 : (decide ((envfs.map Prod.fst).Nodup) && benignFields envfs) = true :=
            hbenv
          rw [Bool.and_eq_true, decide_eq_true_eq] at hbenv2
          have hmask := maskEnvEntries_benign envfs acc hbenv2.2
          have hmacc := maskEnvEntries_acc envfs acc hbenv2.2 hacc
          have hsetb : benignJson (Json.obj (maskEnvEntries envfs acc).1) = true := by
            show (decide (((maskEnvEntries envfs acc).1.map Prod.fst).Nodup) &&
              benignFields (maskEnvEntries envfs acc).1) = true
            rw [Bool.and_eq_true, decide_eq_true_eq, hmask.2]
            exact ⟨hbenv2.1, hmask.1⟩
          have hset := setFirstVal_benign fields (lit "env")
            (Json.obj (maskEnvEntries envfs acc).1) hbf hsetb
          have hstep : (walkJsonF (n + 1) (Json.obj fields) acc).2 =
              (walkFieldsF n (setFirstVal fields (lit "env")
                (Json.obj (maskEnvEntries envfs acc).1)) (maskEnvEntries envfs acc).2).2 := by
            simp only [walkJsonF, henv]
          rw [hstep]
          exact ihF _ _ hset.1 hmacc
        | none =>
          have hstep : (walkJsonF (n + 1) (Json.obj fields) acc).2 =
              (walkFieldsF n fields acc).2 := by
            simp only [walkJsonF, henv]
          rw [hstep]
          exact ihF _ _ hbf hacc
      | arr xs => exact ihI _ _ hb hacc
      | null => exact hacc
      | bool b => exact hacc
      | num v => exact hacc
      | str s => exact hacc
    · intro fs acc hb hacc
      cases fs with
      | nil => exact hacc
      | cons kv rest =>
        obtain ⟨k, v⟩ := kv
        have hb2 : (benignStr k && benignJson v && benignFields rest) = true := hb
        rw [Bool.and_eq_true, Bool.and_eq_true] at hb2
        show AccOk (walkFieldsF n rest (walkJsonF n v acc).2).2
        exact ihF rest _ hb2.2 (ihJ v acc hb2.1.2 hacc)
    · intro xs acc hb hacc
      cases xs with
      | nil => exact hacc
      | cons v rest =>
        have hb2 : (benignJson v && benignItems rest) = true := hb
        rw [Bool.and_eq_true] at hb2
        show AccOk (walkItemsF n rest (walkJsonF n v acc).2).2
        exact ihI rest _ hb2.2 (ihJ v acc hb2.1 hacc)

/-- Invariant of the pattern-secret accumulator. -/
def ExAcc (l : List (Str × Str)) : Prop :=
  (∀ kv ∈ l, benignStr kv.1 = true ∧ benignStr kv.2 = true) ∧ (l.map Prod.fst).Nodup

theorem extract_fold_ok : ∀ (ps : List SecPat), (∀ p ∈ ps, PatBenign p) →
    ∀ acc : Str × List (Str × Str), ExAcc acc.2 →
    ExAcc (ps.foldl extractSecretsStep acc).2 := by
  intro ps
  induction ps with
  | nil => intro _ acc h; exact h
  | cons p ps ih =>
    intro hps acc hacc
    show ExAcc ((ps.foldl extractSecretsStep (extractSecretsStep acc p))).2
    apply ih (fun q hq => hps q (List.mem_cons_of_mem p hq))
    unfold extractSecretsStep
    cases hscan : (scanPat p (tokOf p.name) acc.1).1 with
    | nil =>
      simp only [hscan]
      exact hacc
    | cons m ms =>
      simp only [hscan]
      have hp := hps p (List.mem_cons_self p ps)
      have hm : isPatMatch p m :=
        scanPat_matches p (tokOf p.name) acc.1.length acc.1 (Nat.le_refl _) m
          (by rw [hscan]; exact List.mem_cons_self m ms)
      refine ⟨?_, objSet_nodup _ _ _ hacc.2⟩
      intro kv hkv
      rcases mem_objSet hkv with h1 | h1
      · exact hacc.1 kv h1
      · rw [h1]
        exact ⟨hp.1, isPatMatch_benign hp hm⟩

theorem envKeys_benign : ∀ k ∈ SECRET_ENV_KEYS, benignStr k = true := by decide

theorem objGetJ_benign {j : Json} (hb : benignJson j = true) {k : Str} {v : Json}
    (h : objGetJ j k = some v) : benignJson v = true := by
  cases j with
  | obj fs =>
    have hb2 : (decide ((fs.map Prod.fst).Nodup) && benignFields fs) = true := hb
    rw [Bool.and_eq_true] at hb2
    exact (benignFields_mem.mp hb2.2 _ (objGet_mem h)).2
  | null => exact absurd h (by simp [objGetJ])
  | bool b => exact absurd h (by simp [objGetJ])
  | num n => exact absurd h (by simp [objGetJ])
  | str s => exact absurd h (by simp [objGetJ])
  | arr xs => exact absurd h (by simp [objGetJ])

theorem jFields_benign {j : Json} (hb : benignJson j = true) :
    benignFields (jFields j) = true ∧ ((jFields j).map Prod.fst).Nodup := by
  cases j with
  | obj fs =>
    have hb2 : (decide ((fs.map Prod.fst).Nodup) && benignFields fs) = true := hb
    rw [Bool.and_eq_true, decide_eq_true_eq] at hb2
    exact ⟨hb2.2, hb2.1⟩
  | null => exact ⟨rfl, List.nodup_nil⟩
  | bool b => exact ⟨rfl, List.nodup_nil⟩
  | num n => exact ⟨rfl, List.nodup_nil⟩
  | str s => exact ⟨rfl, List.nodup_nil⟩
  | arr xs => exact ⟨rfl, List.nodup_nil⟩

theorem projEntry_some {pv : Str × Json} {kv : Str × Json} (h : projEntry pv = some kv) :
    kv.1 = pv.1 ∧ ∃ m, objGetJ pv.2 (lit "mcpServers") = some m ∧ kv = (pv.1, m) := by
  unfold projEntry at h
  by_cases hstar : pv.1 = lit "*"
  · rw [if_pos hstar] at h; simp at h
  · rw [if_neg hstar] at h
    cases hg : objGetJ pv.2 (lit "mcpServers") with
    | none => rw [hg] at h; simp at h
    | some m =>
      simp only [hg] at h
      by_cases hc : jsTruthy m = true ∧ 0 < jsKeysCount m
      · rw [if_pos hc] at h
        have he := Option.some.inj h
        exact ⟨by rw [← he], m, rfl, he.symm⟩
      · rw [if_neg hc] at h; simp at h

theorem filterMap_projEntry_benign {l : List (Str × Json)} (hb : benignFields l = true) :
    benignFields (l.filterMap projEntry) = true := by
  rw [benignFields_mem]
  intro kv hkv
  obtain ⟨pv, hpv, hpe⟩ := List.mem_filterMap.mp hkv
  obtain ⟨hk, m, hg, he⟩ := projEntry_some hpe
  have hpvb := benignFields_mem.mp hb pv hpv
  rw [he]
  exact ⟨hpvb.1, objGetJ_benign hpvb.2 hg⟩

theorem filterMap_projEntry_nodup {l : List (Str × Json)}
    (hnd : (l.map Prod.fst).Nodup) :
    ((l.filterMap projEntry).map Prod.fst).Nodup := by
  have hsub : ((l.filterMap projEntry).map Prod.fst).Sublist (l.map Prod.fst) := by
    clear hnd
    induction l with
    | nil => exact List.Sublist.refl _
    | cons pv rest ih =>
      rw [List.filterMap_cons]
      cases hpe : projEntry pv with
      | none =>
        rw [List.map_cons]
        exact ih.cons pv.1
      | some kv =>
        rw [List.map_cons, List.map_cons, (projEntry_some hpe).1]
        exact ih.cons₂ pv.1
  exact List.Nodup.sublist hsub hnd

theorem benignJson_obj_of {fs : List (Str × Json)} (hnd : (fs.map Prod.fst).Nodup)
    (hbf : benignFields fs = true) : benignJson (Json.obj fs) = true := by
  show (decide ((fs.map Prod.fst).Nodup) && benignFields fs) = true
  rw [Bool.and_eq_true, decide_eq_true_eq]
  exact ⟨hnd, hbf⟩

theorem benignJson_obj2 {k1 k2 : Str} {v1 v2 : Json} (hne : k1 ≠ k2)
    (hk1 : benignStr k1 = true) (hk2 : benignStr k2 = true)
    (hv1 : benignJson v1 = true) (hv2 : benignJson v2 = true) :
    benignJson (Json.obj [(k1, v1), (k2, v2)]) = true := by
  apply benignJson_obj_of
  · show ([k1, k2] : List Str).Nodup
    rw [List.nodup_cons]
    refine ⟨?_, List.nodup_singleton k2⟩
    rw [List.mem_singleton]
    exact hne
  · show (benignStr k1 && benignJson v1 &&
      (benignStr k2 && benignJson v2 && benignFields ([] : List (Str × Json)))) = true
    simp only [Bool.and_eq_true]
    exact ⟨⟨hk1, hv1⟩, ⟨hk2, hv2⟩, rfl⟩

theorem buildAllMcp_benign {cfg : Json} (hb : benignJson cfg = true) :
    benignJson (buildAllMcp cfg) = true := by
  have hG : benignJson (match objGetJ cfg (lit "mcpServers") with
      | some g => if jsTruthy g then g else Json.obj []
      | none => Json.obj []) = true := by
    cases hg : objGetJ cfg (lit "mcpServers") with
    | none => rfl
    | some g =>
      simp only [hg]
      by_cases ht : jsTruthy g = true
      · rw [if_pos ht]
        exact objGetJ_benign hb hg
      · rw [if_neg ht]
        rfl
  have hP : benignFields (match objGetJ cfg (lit "projects") with
      | some p => if jsTruthy p then jFields p else []
      | none => []) = true ∧
      ((match objGetJ cfg (lit "projects") with
      | some p => if jsTruthy p then jFields p else []
      | none => []).map Prod.fst).Nodup := by
    cases hg : objGetJ cfg (lit "projects") with
    | none => exact ⟨rfl, List.nodup_nil⟩
    | some p =>
      simp only [hg]
      by_cases ht : jsTruthy p = true
      · rw [if_pos ht]
        exact jFields_benign (objGetJ_benign hb hg)
      · rw [if_neg ht]
        exact ⟨rfl, List.nodup_nil⟩
  exact benignJson_obj2 (by decide) (by decide) (by decide) hG
    (benignJson_obj_of (filterMap_projEntry_nodup hP.2) (filterMap_projEntry_benign hP.1))

/-- The snapshot text the extraction pipeline writes (lines 181-201 of
`extract-mcp.js`). -/
def snapshotText (codeDir home : Str) (cfg : Json) : Str :=
  (extractSecrets (abstractPaths codeDir home
    (renderJ (extractEnvSecrets (buildAllMcp cfg)).1 0))).1

/-- The secrets the extraction pipeline discovers: env secrets merged with
pattern secrets. -/
def pipelineSecrets (codeDir home : Str) (cfg : Json) : List (Str × Str) :=
  objMerge (extractEnvSecrets (buildAllMcp cfg)).2
    (extractSecrets (abstractPaths codeDir home
      (renderJ (extractEnvSecrets (buildAllMcp cfg)).1 0))).2

theorem pipelineSecrets_ok (codeDir home : Str) {cfg : Json}
    (hb : benignJson cfg = true) :
    (∀ kv ∈ pipelineSecrets codeDir home cfg,
      benignStr kv.1 = true ∧ benignStr kv.2 = true) ∧
      ((pipelineSecrets codeDir home cfg).map Prod.fst).Nodup := by
  have hwalk : AccOk (extractEnvSecrets (buildAllMcp cfg)).2 :=
    (walk_acc _).1 _ [] (buildAllMcp_benign hb) accOk_nil
  have hex : ExAcc (extractSecrets (abstractPaths codeDir home
      (renderJ (extractEnvSecrets (buildAllMcp cfg)).1 0))).2 :=
    extract_fold_ok SECRET_PATTERNS patBenign_all _
      ⟨fun kv h => absurd h (List.not_mem_nil kv), List.nodup_nil⟩
  constructor
  · intro kv hkv
    rcases objMerge_mem _ _ kv hkv with h1 | h1
    · have h2 := hwalk.1 kv h1
      exact ⟨envKeys_benign kv.1 h2.1, h2.2⟩
    · exact hex.1 kv h1
  · exact objMerge_nodup _ _ hwalk.2

theorem candidates_benign : ∀ d ∈ CANDIDATE_DIRS, benignStr d = true := by decide

/-- After a successful resolution, resolving again with the machine config
the first run persisted (or left alone) yields the same directory and
writes nothing. -/
theorem resolveCodeDir_again (home : Str) (dirExists : Str → Bool) (mc : Option Str)
    {codeDir : Str} {mw : Option Str} {e0 : Option RunErr}
    (hbh : benignStr home = true)
    (h1 : resolveCodeDir home dirExists mc = (some (codeDir, mw), e0)) :
    resolveCodeDir home dirExists (mw.or mc) = (some (codeDir, none), none) := by
  cases mc with
  | some t =>
    unfold resolveCodeDir at h1
    have hpj : ∃ j, parse t = some j := by
      cases hpp : parse t with
      | none => simp only [hpp] at h1; exact absurd h1 (by simp)
      | some j => exact ⟨j, rfl⟩
    obtain ⟨j, hp⟩ := hpj
    simp only [hp] at h1
    have hres : codeDir = (match objGetJ j (lit "codeDir") with
        | some (Json.str c) => c
        | _ => []) ∧ mw = none := by
      cases hg : objGetJ j (lit "codeDir") with
      | none =>
        simp only [hg] at h1 ⊢
        have h3 := (Prod.mk.injEq _ _ _ _).mp (Option.some.inj ((Prod.mk.injEq _ _ _ _).mp h1).1)
        exact ⟨h3.1.symm, h3.2.symm⟩
      | some v =>
        cases v <;> simp only [hg] at h1 ⊢ <;>
          exact ⟨(((Prod.mk.injEq _ _ _ _).mp (Option.some.inj ((Prod.mk.injEq _ _ _ _).mp h1).1)).1).symm,
            (((Prod.mk.injEq _ _ _ _).mp (Option.some.inj ((Prod.mk.injEq _ _ _ _).mp h1).1)).2).symm⟩
    obtain ⟨hcd, hmw⟩ := hres
    subst hmw
    show resolveCodeDir home dirExists (some t) = (some (codeDir, none), none)
    unfold resolveCodeDir
    simp only [hp]
    cases hg : objGetJ j (lit "codeDir") with
    | none =>
      simp only [hg] at hcd ⊢
      rw [hcd]
    | some v =>
      cases v <;> simp only [hg] at hcd ⊢ <;> rw [hcd]
  | none =>
    unfold resolveCodeDir at h1
    have hfc : ∃ c, (CANDIDATE_DIRS.map (pathJoin home)).find? dirExists = some c := by
      cases hff : (CANDIDATE_DIRS.map (pathJoin home)).find? dirExists with
      | none => simp only [hff] at h1; exact absurd h1 (by simp)
      | some c => exact ⟨c, rfl⟩
    obtain ⟨c, hf⟩ := hfc
    simp only [hf] at h1
    have h3 := (Prod.mk.injEq _ _ _ _).mp (Option.some.inj ((Prod.mk.injEq _ _ _ _).mp h1).1)
    have hcd : codeDir = c := h3.1.symm
    have hmw : mw = some (renderJ (Json.obj [(lit "codeDir", Json.str c)]) 0) := h3.2.symm
    rw [hmw]
    have hcmem : c ∈ CANDIDATE_DIRS.map (pathJoin home) :=
      List.mem_of_find?_eq_some hf
    obtain ⟨d, hd, hcd2⟩ := List.mem_map.mp hcmem
    have hbc : benignStr c = true := by
      rw [← hcd2]
      exact pathJoin_benign hbh (candidates_benign d hd)
    have hobj : benignJson (Json.obj [(lit "codeDir", Json.str c)]) = true := by
      apply benignJson_obj_of
      · show ([lit "codeDir"] : List Str).Nodup
        exact List.nodup_singleton _
      · show (benignStr (lit "codeDir") && benignJson (Json.str c) &&
          benignFields ([] : List (Str × Json))) = true
        simp only [Bool.and_eq_true]
        exact ⟨⟨by decide, hbc⟩, rfl⟩
    have hparse := parse_render _ hobj
    show resolveCodeDir home dirExists
      (some (renderJ (Json.obj [(lit "codeDir", Json.str c)]) 0)) = _
    unfold resolveCodeDir
    simp only [hparse]
    rw [hcd]
    rfl

/-- The machine-config write list of a run, from the optional persisted
text. -/
def mcWrites (mw : Option Str) : List (FileTag × Str) :=
  match mw with
  | some t => [(FileTag.machineCfg, t)]
  | none => []

set_option maxHeartbeats 1000000 in
/-- Shape of a successful extractor run (codeDir resolved, live
configuration parsed). -/
theorem runExtract_shape (home : Str) (dirExists : Str → Bool) (mc : Option Str)
    (live : Str) (sec : Option Str) {codeDir : Str} {mw : Option Str}
    {e0 : Option RunErr} {cfg : Json}
    (h1 : resolveCodeDir home dirExists mc = (some (codeDir, mw), e0))
    (h2 : parse live = some cfg) :
    runExtract home dirExists mc live sec =
      (if (pipelineSecrets codeDir home cfg).isEmpty then
        ⟨mcWrites mw ++ [(FileTag.snapshot, snapshotText codeDir home cfg)], none⟩
      else
        match sec with
        | some t =>
          match parse t with
          | none => ⟨mcWrites mw ++ [(FileTag.snapshot, snapshotText codeDir home cfg)],
              some RunErr.parseError⟩
          | some ex => ⟨mcWrites mw ++ [(FileTag.snapshot, snapshotText codeDir home cfg)] ++
              [(FileTag.secretsFile, renderJ (Json.obj (objMerge (jFields ex)
                ((pipelineSecrets codeDir home cfg).map
                  (fun q => (q.1, Json.str q.2))))) 0)], none⟩
        | none => ⟨mcWrites mw ++ [(FileTag.snapshot, snapshotText codeDir home cfg)] ++
            [(FileTag.secretsFile, renderJ (Json.obj
              ((pipelineSecrets codeDir home cfg).map
                (fun q => (q.1, Json.str q.2)))) 0)], none⟩) := by
  unfold runExtract snapshotText pipelineSecrets mcWrites
  simp only [h1, h2]

/-- C5: running the extractor a second time — with the live configuration
unchanged, the machine config as the first run left it, and the secrets
store as the first run wrote it — produces a byte-identical snapshot
write, a byte-identical secrets-store write (hence no new keys and no
changed values in the store), and no machine-config write. -/
theorem claim_C5 (home : Str) (dirExists : Str → Bool) (mc : Option Str)
    (live : Str) (sec : Option Str) (codeDir : Str) (mw : Option Str)
    (e0 : Option RunErr) (cfg : Json) (exfs : List (Str × Json))
    (hbh : benignStr home = true)
    (h1 : resolveCodeDir home dirExists mc = (some (codeDir, mw), e0))
    (h2 : parse live = some cfg) (hbc : benignJson cfg = true)
    (hsec : (sec = none ∧ exfs = []) ∨
      (∃ t ex, sec = some t ∧ parse t = some ex ∧ exfs = jFields ex ∧
        benignFields exfs = true ∧ (exfs.map Prod.fst).Nodup)) :
    ∃ tail : List (FileTag × Str),
      runExtract home dirExists mc live sec =
        ⟨mcWrites mw ++ ((FileTag.snapshot, snapshotText codeDir home cfg) :: tail),
          none⟩ ∧
      runExtract home dirExists (mw.or mc) live
          (match tail with | [] => sec | w :: _ => some w.2) =
        ⟨(FileTag.snapshot, snapshotText codeDir home cfg) :: tail, none⟩ := by
  have hres2 := resolveCodeDir_again home dirExists mc hbh h1
  have hok := pipelineSecrets_ok codeDir home hbc
  obtain ⟨P, hP⟩ : ∃ P, P = pipelineSecrets codeDir home cfg := ⟨_, rfl⟩
  obtain ⟨SN, hSN⟩ : ∃ SN, SN = snapshotText codeDir home cfg := ⟨_, rfl⟩
  rw [← hP] at hok
  have hr1 := runExtract_shape home dirExists mc live sec h1 h2
  rw [← hP, ← hSN] at hr1
  rw [← hSN]
  have hsjb : benignFields (P.map (fun q => (q.1, Json.str q.2))) = true := by
    rw [benignFields_mem]
    intro kv hkv
    obtain ⟨q, hq, he⟩ := List.mem_map.mp hkv
    have h3 := hok.1 q hq
    rw [← he]
    exact ⟨h3.1, h3.2⟩
  have hsjnd : ((P.map (fun q => (q.1, Json.str q.2))).map Prod.fst).Nodup := by
    have hmm : (P.map (fun q => (q.1, Json.str q.2))).map Prod.fst = P.map Prod.fst := by
      rw [List.map_map]
      rfl
    rw [hmm]
    exact hok.2
  cases hemp : P.isEmpty with
  | true =>
    refine ⟨[], ?_, ?_⟩
    · rw [hr1, if_pos hemp]
    · have harg : (match ([] : List (FileTag × Str)) with
        | [] => sec
        | w :: _ => some w.2) = sec := by rfl
      have hr2 := runExtract_shape home dirExists (mw.or mc) live sec hres2 h2
      rw [← hP, ← hSN] at hr2
      rw [harg, hr2, if_pos hemp]
      rfl
  | false =>
    have hB : ¬ (P.isEmpty = true) := by
      rw [hemp]
      exact Bool.false_ne_true
    rcases hsec with ⟨hsn, hexn⟩ | ⟨t, ex, hst, hpt, hexf, hbex, hndex⟩
    · subst hsn
      refine ⟨[(FileTag.secretsFile,
        renderJ (Json.obj (P.map (fun q => (q.1, Json.str q.2)))) 0)], ?_, ?_⟩
      · rw [hr1, if_neg hB]
        show (⟨mcWrites mw ++ [(FileTag.snapshot, SN)] ++
          [(FileTag.secretsFile,
            renderJ (Json.obj (P.map (fun q => (q.1, Json.str q.2)))) 0)], none⟩ :
          ToolRun) = _
        rw [List.append_assoc]
        rfl
      · have hrt : parse (renderJ (Json.obj (P.map (fun q => (q.1, Json.str q.2)))) 0) =
            some (Json.obj (P.map (fun q => (q.1, Json.str q.2)))) :=
          parse_render _ (benignJson_obj_of hsjnd hsjb)
        have harg : (match ([(FileTag.secretsFile,
            renderJ (Json.obj (P.map (fun q => (q.1, Json.str q.2)))) 0)] :
            List (FileTag × Str)) with
          | [] => (none : Option Str)
          | w :: _ => some w.2) =
          some (renderJ (Json.obj (P.map (fun q => (q.1, Json.str q.2)))) 0) := by rfl
        have hr2 := runExtract_shape home dirExists (mw.or mc) live
          (some (renderJ (Json.obj (P.map (fun q => (q.1, Json.str q.2)))) 0)) hres2 h2
        rw [← hP, ← hSN] at hr2
        simp only [hrt] at hr2
        rw [harg, hr2, if_neg hB]
        have hstab : objMerge (P.map (fun q => (q.1, Json.str q.2)))
            (P.map (fun q => (q.1, Json.str q.2))) =
            P.map (fun q => (q.1, Json.str q.2)) :=
          objMerge_self_stable _ _ hsjnd (fun kv hkv => objGet_of_mem_nodup hsjnd hkv)
        rw [show objMerge (jFields (Json.obj (P.map (fun q => (q.1, Json.str q.2)))))
            (P.map (fun q => (q.1, Json.str q.2))) =
            P.map (fun q => (q.1, Json.str q.2)) from hstab]
        rfl
    · subst hst
      subst hexf
      refine ⟨[(FileTag.secretsFile, renderJ (Json.obj (objMerge (jFields ex)
        (P.map (fun q => (q.1, Json.str q.2))))) 0)], ?_, ?_⟩
      · rw [hr1, if_neg hB]
        simp only [hpt]
        rw [List.append_assoc]
        rfl
      · have hmb : benignFields (objMerge (jFields ex)
            (P.map (fun q => (q.1, Json.str q.2)))) = true := by
          rw [benignFields_mem]
          intro kv hkv
          rcases objMerge_mem _ _ kv hkv with hA | hB2
          · exact benignFields_mem.mp hbex kv hA
          · exact benignFields_mem.mp hsjb kv hB2
        have hmnd : ((objMerge (jFields ex)
            (P.map (fun q => (q.1, Json.str q.2)))).map Prod.fst).Nodup :=
          objMerge_nodup _ _ hndex
        have hrt : parse (renderJ (Json.obj (objMerge (jFields ex)
            (P.map (fun q => (q.1, Json.str q.2))))) 0) =
            some (Json.obj (objMerge (jFields ex)
              (P.map (fun q => (q.1, Json.str q.2))))) :=
          parse_render _ (benignJson_obj_of hmnd hmb)
        have harg : (match ([(FileTag.secretsFile, renderJ (Json.obj (objMerge (jFields ex)
            (P.map (fun q => (q.1, Json.str q.2))))) 0)] : List (FileTag × Str)) with
          | [] => (some t : Option Str)
          | w :: _ => some w.2) =
          some (renderJ (Json.obj (objMerge (jFields ex)
            (P.map (fun q => (q.1, Json.str q.2))))) 0) := by rfl
        have hr2 := runExtract_shape home dirExists (mw.or mc) live
          (some (renderJ (Json.obj (objMerge (jFields ex)
            (P.map (fun q => (q.1, Json.str q.2))))) 0)) hres2 h2
        rw [← hP, ← hSN] at hr2
        simp only [hrt] at hr2
        rw [harg, hr2, if_neg hB]
        have hstab : objMerge (objMerge (jFields ex)
            (P.map (fun q => (q.1, Json.str q.2))))
            (P.map (fun q => (q.1, Json.str q.2))) =
            objMerge (jFields ex) (P.map (fun q => (q.1, Json.str q.2))) := by
          apply objMerge_self_stable _ _ hmnd
          intro kv hkv
          rw [objGet_objMerge _ _ _ hsjnd, objGet_of_mem_nodup hsjnd hkv]
        rw [show objMerge (jFields (Json.obj (objMerge (jFields ex)
            (P.map (fun q => (q.1, Json.str q.2))))))
            (P.map (fun q => (q.1, Json.str q.2))) =
            objMerge (jFields ex) (P.map (fun q => (q.1, Json.str q.2))) from hstab]
        rfl

/-- A small live configuration with one env secret, used to exercise the
idempotence theorem. -/
def C5cfg : Json :=
  Json.obj [(lit "mcpServers", Json.obj [(lit "jira", Json.obj [
    (lit "command", Json.str (lit "/home/alice/code/tools/run.sh")),
    (lit "env", Json.obj [(lit "JIRA_API_TOKEN", Json.str (lit "abc123"))])])])]

theorem claim_C5_witness :
    ∃ tail : List (FileTag × Str),
      runExtract (lit "/home/alice") (fun s => decide (s = lit "/home/alice/code"))
          none (renderJ C5cfg 0) none =
        ⟨mcWrites (some (renderJ (Json.obj [(lit "codeDir",
            Json.str (lit "/home/alice/code"))]) 0)) ++
          ((FileTag.snapshot,
            snapshotText (lit "/home/alice/code") (lit "/home/alice") C5cfg) :: tail),
          none⟩ ∧
      runExtract (lit "/home/alice") (fun s => decide (s = lit "/home/alice/code"))
          ((some (renderJ (Json.obj [(lit "codeDir",
            Json.str (lit "/home/alice/code"))]) 0)).or none) (renderJ C5cfg 0)
          (match tail with | [] => none | w :: _ => some w.2) =
        ⟨(FileTag.snapshot,
          snapshotText (lit "/home/alice/code") (lit "/home/alice") C5cfg) :: tail,
          none⟩ :=
  claim_C5 (lit "/home/alice") (fun s => decide (s = lit "/home/alice/code")) none
    (renderJ C5cfg 0) none (lit "/home/alice/code")
    (some (renderJ (Json.obj [(lit "codeDir", Json.str (lit "/home/alice/code"))]) 0))
    none C5cfg [] (by decide) (by rfl) (by rfl) (by decide) (Or.inl ⟨rfl, rfl⟩)

/-- Characters that occur in a placeholder name (letters, digits,
underscore — the `\w` class of the scripts' token patterns). -/
def nameChar (c : Char) : Bool := c.isAlpha || c.isDigit || decide (c = '_')

theorem nameChar_ne_dollar {c : Char} (h : nameChar c = true) : c ≠ dollar := by
  intro heq
  rw [heq] at h
  exact absurd h (by decide)

theorem nameChar_ne_rbrace {c : Char} (h : nameChar c = true) : c ≠ rbrace := by
  intro heq
  rw [heq] at h
  exact absurd h (by decide)

theorem tokTail_ne_dollar {K : Str} (hK : K.all nameChar = true) :
    ∀ d ∈ lbrace :: (K ++ [rbrace]), d ≠ dollar := by
  intro d hd
  rcases List.mem_cons.mp hd with rfl | hd2
  · decide
  · rcases List.mem_append.mp hd2 with hdK | hdr
    · exact nameChar_ne_dollar (List.all_eq_true.mp hK d hdK)
    · rw [List.mem_singleton.mp hdr]
      decide

theorem namePrefix (b : Str) : ∀ K N : Str, K.all nameChar = true →
    N.all nameChar = true → (K ++ [rbrace]) <+: (N ++ rbrace :: b) → K = N := by
  intro K
  induction K with
  | nil =>
    intro N _ hN hp
    cases N with
    | nil => rfl
    | cons n N' =>
      exfalso
      rw [List.nil_append, List.cons_append] at hp
      have h1 := (List.cons_prefix_cons.mp hp).1
      rw [List.all_cons, Bool.and_eq_true] at hN
      exact nameChar_ne_rbrace hN.1 h1.symm
  | cons k K' ih =>
    intro N hK hN hp
    rw [List.all_cons, Bool.and_eq_true] at hK
    cases N with
    | nil =>
      exfalso
      rw [List.cons_append, List.nil_append] at hp
      have h1 := (List.cons_prefix_cons.mp hp).1
      exact nameChar_ne_rbrace hK.1 h1
    | cons n N' =>
      rw [List.all_cons, Bool.and_eq_true] at hN
      rw [List.cons_append, List.cons_append] at hp
      obtain ⟨h1, h2⟩ := List.cons_prefix_cons.mp hp
      rw [h1, ih N' hK.2 hN.2 h2]

theorem tok_no_match {K N : Str} (b : Str)
    (hK : K.all nameChar = true) (hN : N.all nameChar = true) (hne : K ≠ N) :
    ∀ t1 t2, tokOf N = t1 ++ t2 → t2 ≠ [] →
      ¬ (tokOf K).isPrefixOf (t2 ++ b) = true := by
  intro t1 t2 ht ht2 hp
  have hp' : tokOf K <+: t2 ++ b := List.isPrefixOf_iff_prefix.mp hp
  cases t1 with
  | nil =>
    rw [List.nil_append] at ht
    rw [← ht] at hp'
    rw [tokOf, tokOf, List.cons_append, List.cons_append] at hp'
    obtain ⟨_, hp2⟩ := List.cons_prefix_cons.mp hp'
    obtain ⟨_, hp3⟩ := List.cons_prefix_cons.mp hp2
    rw [List.append_assoc, List.singleton_append] at hp3
    exact hne (namePrefix b K N hK hN hp3)
  | cons c t1' =>
    have hsuf : t2 <:+ lbrace :: (N ++ [rbrace]) := by
      rw [tokOf, List.cons_append] at ht
      injection ht with h1 h2
      exact ⟨t1', h2.symm⟩
    obtain ⟨d, t2', rfl⟩ := List.exists_cons_of_ne_nil ht2
    have hd : d ∈ lbrace :: (N ++ [rbrace]) := hsuf.subset (List.mem_cons_self d t2')
    have hdne : d ≠ dollar := tokTail_ne_dollar hN d hd
    rw [List.cons_append, tokOf] at hp'
    exact hdne ((List.cons_prefix_cons.mp hp').1).symm

theorem replaceTokF_succ (tok val : Str) (f : Nat) (before : Str) (c : Char)
    (rest : Str) :
    replaceTokF tok val (f + 1) before (c :: rest) =
      if tok ≠ [] ∧ tok.isPrefixOf (c :: rest) then
        expandRepl tok before ((c :: rest).drop tok.length) val ++
          replaceTokF tok val f (before ++ tok) ((c :: rest).drop tok.length)
      else c :: replaceTokF tok val f (before ++ [c]) rest := by
  simp only [replaceTokF]

theorem replaceTokF_pass (tok val : Str) :
    ∀ t b f before, (t ++ b).length ≤ f →
      (∀ t1 t2, t = t1 ++ t2 → t2 ≠ [] → ¬ tok.isPrefixOf (t2 ++ b) = true) →
      replaceTokF tok val f before (t ++ b) =
        t ++ replaceTokF tok val (f - t.length) (before ++ t) b := by
  intro t
  induction t with
  | nil =>
    intro b f before _ _
    simp
  | cons c t' ih =>
    intro b f before hlen hcond
    cases f with
    | zero => simp at hlen
    | succ f' =>
      rw [List.cons_append, replaceTokF_succ]
      rw [if_neg (fun h => hcond [] (c :: t') rfl (by simp) h.2)]
      rw [ih b f' (before ++ [c])
        (by simp only [List.length_append, List.length_cons] at hlen ⊢; omega)
        (fun t1 t2 h1 h2 => hcond (c :: t1) t2 (by rw [h1, List.cons_append]) h2)]
      simp only [List.length_cons, Nat.succ_sub_succ]
      rw [List.append_cons before c t']
      rfl

theorem infix_of_infix_append {α : Type} {t u : List α} (v : List α)
    (h : t <:+: u) : t <:+: v ++ u := by
  obtain ⟨x, y, hxy⟩ := h
  exact ⟨v ++ x, y, by rw [← hxy]; simp [List.append_assoc]⟩

theorem replaceTokF_keeps {K N : Str} (val : Str)
    (hK : K.all nameChar = true) (hN : N.all nameChar = true) (hne : K ≠ N) :
    ∀ f before a b, (a ++ (tokOf N ++ b)).length ≤ f →
      (tokOf N) <:+: replaceTokF (tokOf K) val f before (a ++ (tokOf N ++ b)) := by
  intro f
  induction f with
  | zero =>
    intro before a b hlen
    exfalso
    rw [tokOf] at hlen
    simp [List.length_append] at hlen
  | succ f ih =>
    intro before a b hlen
    cases a with
    | nil =>
      rw [List.nil_append]
      rw [replaceTokF_pass (tokOf K) val (tokOf N) b (f + 1) before
        (by simpa using hlen) (tok_no_match b hK hN hne)]
      exact ⟨[], _, rfl⟩
    | cons a0 a' =>
      rw [List.cons_append, replaceTokF_succ]
      by_cases hm : (tokOf K).isPrefixOf (a0 :: (a' ++ (tokOf N ++ b))) = true
      · rw [if_pos ⟨by simp [tokOf], hm⟩]
        have hKlen : (tokOf K).length ≤ (a0 :: a').length := by
          by_contra hlt
          push_neg at hlt
          have haP : (a0 :: a') <+: (a0 :: a') ++ (tokOf N ++ b) :=
            ⟨tokOf N ++ b, rfl⟩
          have hKP : tokOf K <+: (a0 :: a') ++ (tokOf N ++ b) :=
            List.isPrefixOf_iff_prefix.mp hm
          have hprefK : (a0 :: a') <+: tokOf K :=
            List.prefix_of_prefix_length_le haP hKP (le_of_lt hlt)
          obtain ⟨m, hma⟩ := hprefK
          have hmne : m ≠ [] := by
            intro h0
            rw [h0, List.append_nil] at hma
            rw [← hma] at hlt
            exact lt_irrefl _ hlt
          obtain ⟨s', hs'⟩ := hKP
          rw [← hma, List.append_assoc] at hs'
          have hms : m ++ s' = tokOf N ++ b := List.append_cancel_left hs'
          obtain ⟨m0, m', rfl⟩ := List.exists_cons_of_ne_nil hmne
          have hm0 : m0 = dollar := by
            simp only [tokOf, List.cons_append] at hms
            injection hms with h6 _
          have hsufK : (m0 :: m') <:+ tokOf K := ⟨a0 :: a', hma⟩
          rw [tokOf] at hsufK
          rcases List.suffix_cons_iff.mp hsufK with heq | hsuf2
          · have h1 := congrArg List.length hma
            have h2 := congrArg List.length heq
            simp [tokOf] at h1 h2
            omega
          · have hd : m0 ∈ lbrace :: (K ++ [rbrace]) :=
              hsuf2.subset (List.mem_cons_self _ _)
            exact tokTail_ne_dollar hK m0 hd hm0
        have hdrop : (a0 :: (a' ++ (tokOf N ++ b))).drop (tokOf K).length =
            ((a0 :: a').drop (tokOf K).length) ++ (tokOf N ++ b) := by
          rw [← List.cons_append, List.drop_append_eq_append_drop]
          rw [Nat.sub_eq_zero_of_le hKlen, List.drop_zero]
        rw [hdrop]
        apply infix_of_infix_append
        apply ih (before ++ tokOf K) ((a0 :: a').drop (tokOf K).length) b
        have h2 : 1 ≤ (tokOf K).length := by simp [tokOf]
        have h1 : ((a0 :: a') ++ (tokOf N ++ b)).length ≤ f + 1 := hlen
        simp only [List.length_append, List.length_drop] at h1 ⊢
        omega
      · rw [if_neg (fun h => hm h.2)]
        have h1 : ((a0 :: a') ++ (tokOf N ++ b)).length ≤ f + 1 := hlen
        exact infix_of_infix_append [a0]
          (ih (before ++ [a0]) a' b
            (by simp only [List.length_append, List.length_cons] at h1 ⊢; omega))

theorem replaceTok_keeps {K N : Str} (val : Str)
    (hK : K.all nameChar = true) (hN : N.all nameChar = true) (hne : K ≠ N)
    {s : Str} (h : (tokOf N) <:+: s) :
    (tokOf N) <:+: replaceTok (tokOf K) val s := by
  obtain ⟨x, y, hxy⟩ := h
  rw [replaceTok, ← hxy]
  rw [List.append_assoc x (tokOf N) y]
  exact replaceTokF_keeps val hK hN hne _ [] x y (le_refl _)

theorem substSecrets_keeps (N : Str) (hN : N.all nameChar = true) :
    ∀ (st : List (Str × Json)) (s : Str),
      (∀ kv ∈ st, kv.1.all nameChar = true) →
      N ∉ st.map Prod.fst →
      (tokOf N) <:+: s → (tokOf N) <:+: substSecrets st s := by
  intro st
  induction st with
  | nil =>
    intro s _ _ h
    exact h
  | cons kv st' ih =>
    intro s hall hnot h
    have hkv : kv.1.all nameChar = true := hall kv (List.mem_cons_self _ _)
    have hne : kv.1 ≠ N := by
      intro h0
      exact hnot (by rw [List.map_cons, h0]; exact List.mem_cons_self _ _)
    exact ih (replaceTok (tokOf kv.1) (jsToString kv.2) s)
      (fun kv2 hkv2 => hall kv2 (List.mem_cons_of_mem _ hkv2))
      (fun hmem => hnot (List.mem_cons_of_mem _ hmem))
      (replaceTok_keeps _ hkv hN hne h)

theorem runRestore_warned (home : Str) (dirExists : Str → Bool)
    (mc : Option Str) (snap : Str) (sec : Option Str) (live : Option Str)
    (h : (runRestore home dirExists mc snap sec live).warnedNoSecrets = true) :
    sec = none := by
  unfold runRestore at h
  rcases hres : resolveCodeDir home dirExists mc with ⟨_ | ⟨codeDir, mw⟩, e⟩
  · rw [hres] at h
    simp at h
  · rw [hres] at h
    cases sec with
    | none => rfl
    | some t =>
      exfalso
      cases hpt : parse t with
      | none => simp [hpt] at h
      | some sj =>
        simp only [hpt] at h
        cases hb3 : parse (substSecrets (jFields sj)
            (splitJoin (tokOf (lit "HOME")) home
              (splitJoin (tokOf (lit "CODE_DIR")) codeDir snap))) with
        | none => simp [hb3] at h
        | some backup =>
          simp only [hb3] at h
          cases live with
          | some t2 =>
            cases hc : parse t2 with
            | none => simp [hc] at h
            | some cfg0 => simp [hc] at h
          | none => simp at h

theorem splitJoin_id (sep repl : Str) : ∀ s, ¬ sep <:+: s →
    splitJoin sep repl s = s := by
  intro s
  induction s with
  | nil => intro _; exact splitJoin_nil sep repl
  | cons c rest ih =>
    intro h
    rw [splitJoin_cons_neg repl
      (fun hand => h (List.isPrefixOf_iff_prefix.mp hand.2).isInfix)]
    rw [ih (fun hinf => h (infix_of_infix_append [c] hinf))]

theorem splitJoin_tok_id (X repl : Str) {s : Str} (hd : dollar ∉ s) :
    splitJoin (tokOf X) repl s = s := by
  apply splitJoin_id
  intro hinf
  apply hd
  apply hinf.subset
  show dollar ∈ dollar :: lbrace :: (X ++ [rbrace])
  exact List.mem_cons_self _ _

theorem extractSecretsStep_cases (acc : Str × List (Str × Str)) (p : SecPat) :
    (extractSecretsStep acc p = acc ∧ (scanPat p (tokOf p.name) acc.1).1 = []) ∨
    (∃ m ms, (scanPat p (tokOf p.name) acc.1).1 = m :: ms ∧
      extractSecretsStep acc p =
        ((scanPat p (tokOf p.name) acc.1).2, objSet acc.2 p.name m)) := by
  cases hr : (scanPat p (tokOf p.name) acc.1).1 with
  | nil => exact Or.inl ⟨by simp [extractSecretsStep, hr], rfl⟩
  | cons m ms => exact Or.inr ⟨m, ms, rfl, by simp [extractSecretsStep, hr]⟩

theorem fold_no_match {p : SecPat} (hp : PatOk p) :
    ∀ (ps : List SecPat), (∀ q ∈ ps, TokOk (tokOf q.name)) →
    ∀ (acc : Str × List (Str × Str)) (m : Str), isPatMatch p m →
      ¬ m <:+: acc.1 → ¬ m <:+: (ps.foldl extractSecretsStep acc).1 := by
  intro ps
  induction ps with
  | nil => intro _ acc m _ h; exact h
  | cons q ps ih =>
    intro htoks acc m hm hno
    rw [List.foldl_cons]
    apply ih (fun r hr => htoks r (List.mem_cons_of_mem _ hr)) _ m hm
    rcases extractSecretsStep_cases acc q with ⟨he, _⟩ | ⟨m0, ms, _, he⟩
    · rw [he]; exact hno
    · rw [he]
      intro hinf
      exact hno (scan_match_infix_to_src q (tokOf q.name) p
        (htoks q (List.mem_cons_self _ _)) hp acc.1 hm hinf)

theorem step_no_own_match {p : SecPat} (hp : PatOk p) (htok : TokOk (tokOf p.name))
    (acc : Str × List (Str × Str)) {m : Str} (hm : isPatMatch p m) :
    ¬ m <:+: (extractSecretsStep acc p).1 := by
  rcases extractSecretsStep_cases acc p with ⟨he, hscan⟩ | ⟨m0, ms, _, he⟩
  · rw [he]
    intro hinf
    exact (hasMatch_iff_scan p (tokOf p.name) acc.1).mp ⟨m, hm, hinf⟩ hscan
  · rw [he]
    exact scan_output_no_match p (tokOf p.name) htok hp acc.1 hm

/-- The sanitized output of `extractSecrets` contains no match of any
pattern of the table: each pattern's own pass removes its matches, and no
later placeholder insertion can recreate one. -/
theorem extract_no_match (s : Str) (p : SecPat) (hp : p ∈ SECRET_PATTERNS)
    {m : Str} (hm : isPatMatch p m) : ¬ m <:+: (extractSecrets s).1 := by
  obtain ⟨ps1, ps2, hsp⟩ := List.append_of_mem hp
  have hpok : PatOk p := patOk_all p hp
  have htokp : TokOk (tokOf p.name) := tokOk_patterns p hp
  have htoks2 : ∀ q ∈ ps2, TokOk (tokOf q.name) := fun q hq =>
    tokOk_patterns q (by
      rw [hsp]
      exact List.mem_append.mpr (Or.inr (List.mem_cons_of_mem _ hq)))
  unfold extractSecrets
  rw [hsp, List.foldl_append, List.foldl_cons]
  exact fold_no_match hpok ps2 htoks2 _ m hm (step_no_own_match hpok htokp _ hm)

theorem objSet_keys_mem {α : Type} (o : List (Str × α)) (k : Str) (v : α) :
    k ∈ (objSet o k v).map Prod.fst := by
  unfold objSet
  by_cases h : o.any (fun q => decide (q.1 = k))
  · rw [if_pos h]
    obtain ⟨q, hq, hqk⟩ := List.any_eq_true.mp h
    exact List.mem_map.mpr ⟨(k, v),
      List.mem_map.mpr ⟨q, hq, by simp [of_decide_eq_true hqk]⟩, rfl⟩
  · rw [if_neg h, List.map_append]
    exact List.mem_append.mpr (Or.inr (List.mem_singleton.mpr rfl))

theorem objSet_keys_sub {α : Type} {o : List (Str × α)} {k nm : Str} {v : α}
    (h : nm ∈ (objSet o k v).map Prod.fst) : nm ∈ o.map Prod.fst ∨ nm = k := by
  obtain ⟨q, hq, hq2⟩ := List.mem_map.mp h
  rcases mem_objSet hq with hqo | rfl
  · exact Or.inl (List.mem_map.mpr ⟨q, hqo, hq2⟩)
  · exact Or.inr hq2.symm

theorem objSet_keys_mono {α : Type} {o : List (Str × α)} (k : Str) (v : α)
    {nm : Str} (h : nm ∈ o.map Prod.fst) : nm ∈ (objSet o k v).map Prod.fst := by
  unfold objSet
  by_cases ha : o.any (fun q => decide (q.1 = k))
  · rw [if_pos ha]
    obtain ⟨q, hq, hfst⟩ := List.mem_map.mp h
    by_cases hqk : q.1 = k
    · exact List.mem_map.mpr ⟨(k, v),
        List.mem_map.mpr ⟨q, hq, by simp [hqk]⟩, by rw [← hfst, hqk]⟩
    · exact List.mem_map.mpr ⟨q, List.mem_map.mpr ⟨q, hq, by simp [hqk]⟩, hfst⟩
  · rw [if_neg ha, List.map_append]
    exact List.mem_append.mpr (Or.inl h)

theorem fold_keys_mono : ∀ (ps : List SecPat) (acc : Str × List (Str × Str))
    (nm : Str), nm ∈ acc.2.map Prod.fst →
    nm ∈ ((ps.foldl extractSecretsStep acc).2).map Prod.fst := by
  intro ps
  induction ps with
  | nil => intro acc nm h; exact h
  | cons q ps ih =>
    intro acc nm h
    rw [List.foldl_cons]
    apply ih
    rcases extractSecretsStep_cases acc q with ⟨he, _⟩ | ⟨m0, ms, _, he⟩
    · rw [he]; exact h
    · rw [he]; exact objSet_keys_mono q.name m0 h

theorem fold_keys_absent : ∀ (ps : List SecPat) (acc : Str × List (Str × Str))
    (nm : Str), nm ∉ acc.2.map Prod.fst → (∀ q ∈ ps, q.name ≠ nm) →
    nm ∉ ((ps.foldl extractSecretsStep acc).2).map Prod.fst := by
  intro ps
  induction ps with
  | nil => intro acc nm h _; exact h
  | cons q ps ih =>
    intro acc nm h hq
    rw [List.foldl_cons]
    apply ih _ nm ?_ (fun r hr => hq r (List.mem_cons_of_mem _ hr))
    rcases extractSecretsStep_cases acc q with ⟨he, _⟩ | ⟨m0, ms, _, he⟩
    · rw [he]; exact h
    · rw [he]
      intro hmem
      rcases objSet_keys_sub hmem with hin | heq
      · exact h hin
      · exact hq q (List.mem_cons_self _ _) heq.symm

/-- A pattern's name appears in the collected secrets exactly when the
pattern has a match in the text as it stands at the pattern's own stage
of the pass (after the earlier patterns have already masked the text). -/
theorem extract_entry_iff (s : Str) (ps1 : List SecPat) (p : SecPat)
    (ps2 : List SecPat) (hsp : SECRET_PATTERNS = ps1 ++ p :: ps2) :
    HasMatch p (ps1.foldl extractSecretsStep (s, [])).1 ↔
      p.name ∈ (extractSecrets s).2.map Prod.fst := by
  have hnd : (SECRET_PATTERNS.map SecPat.name).Nodup := by decide
  rw [hsp, List.map_append, List.map_cons] at hnd
  obtain ⟨hnd1, hnd2, hdisj⟩ := List.nodup_append.mp hnd
  have h1 : ∀ q ∈ ps1, q.name ≠ p.name := by
    intro q hq heq
    exact hdisj (List.mem_map.mpr ⟨q, hq, heq⟩) (List.mem_cons_self _ _)
  have h2 : ∀ q ∈ ps2, q.name ≠ p.name := by
    intro q hq heq
    exact (List.nodup_cons.mp hnd2).1 (List.mem_map.mpr ⟨q, hq, heq⟩)
  have hfold : extractSecrets s =
      ps2.foldl extractSecretsStep
        (extractSecretsStep (ps1.foldl extractSecretsStep (s, [])) p) := by
    unfold extractSecrets
    rw [hsp, List.foldl_append, List.foldl_cons]
  have habs : p.name ∉ (ps1.foldl extractSecretsStep (s, ([] : List (Str × Str)))).2.map
      Prod.fst :=
    fold_keys_absent ps1 (s, []) p.name (by simp) (fun q hq => h1 q hq)
  rw [hfold]
  constructor
  · intro hm
    rcases extractSecretsStep_cases (ps1.foldl extractSecretsStep (s, [])) p with
      ⟨he, hscan⟩ | ⟨m0, ms, hscan, he⟩
    · exact absurd hscan
        ((hasMatch_iff_scan p (tokOf p.name) _).mp hm)
    · rw [he]
      exact fold_keys_mono ps2 _ p.name (objSet_keys_mem _ p.name m0)
  · intro hmem
    by_contra hno
    rcases extractSecretsStep_cases (ps1.foldl extractSecretsStep (s, [])) p with
      ⟨he, hscan⟩ | ⟨m0, ms, hscan, he⟩
    · rw [he] at hmem
      exact fold_keys_absent ps2 _ p.name habs (fun q hq => h2 q hq) hmem
    · exact hno ((hasMatch_iff_scan p (tokOf p.name) _).mpr (by rw [hscan]; simp))

/-- Serialized text of the C1 scenario: the Slack token literally contains
a Stripe test key. -/
def C1text : Str := lit "a xoxc-sk_test_AB1 b"

/-- C1 (corrected): the sanitized snapshot text contains no occurrence of
any match of any pattern of the table, and the collected secrets never
hold a duplicate name — but a pattern whose match overlaps an earlier
pattern's match can end up with no entry at all: the name is recorded iff
the pattern still has a match at its own stage of the pass, after the
earlier patterns have masked the text (see the counterexample). -/
theorem claim_C1 :
    (∀ (s : Str) (p : SecPat), p ∈ SECRET_PATTERNS →
      ∀ m, isPatMatch p m → ¬ m <:+: (extractSecrets s).1) ∧
    (∀ s : Str, ((extractSecrets s).2.map Prod.fst).Nodup) ∧
    (∀ (s : Str) (ps1 : List SecPat) (p : SecPat) (ps2 : List SecPat),
      SECRET_PATTERNS = ps1 ++ p :: ps2 →
      (HasMatch p (ps1.foldl extractSecretsStep (s, [])).1 ↔
        p.name ∈ (extractSecrets s).2.map Prod.fst)) := by
  refine ⟨?_, ?_, ?_⟩
  · intro s p hp m hm
    exact extract_no_match s p hp hm
  · intro s
    exact (extract_fold_ok SECRET_PATTERNS patBenign_all (s, [])
      ⟨fun kv h => absurd h (List.not_mem_nil kv), List.nodup_nil⟩).2
  · intro s ps1 p ps2 hsp
    exact extract_entry_iff s ps1 p ps2 hsp

/-- Counterexample to the spec's C1: the text contains a match of the
`xoxc-` Slack pattern, yet after the pass no entry named SLACK_XOXC_TOKEN
exists — the Stripe `sk_test_` pattern runs first and masks the tail of
the Slack token, so the Slack pattern no longer matches at its own stage
and its first-match value is silently lost. -/
theorem claim_C1_counterexample :
    SECRET_PATTERNS.get ⟨5, by decide⟩ =
      ⟨lit "xoxc-", clsXoxc, lit "SLACK_XOXC_TOKEN"⟩ ∧
    isPatMatch ⟨lit "xoxc-", clsXoxc, lit "SLACK_XOXC_TOKEN"⟩ (lit "xoxc-sk") ∧
    (lit "xoxc-sk") <:+: C1text ∧
    (extractSecrets C1text).1 = lit "a xoxc-$\x7bSTRIPE_TEST_API_KEY\x7d b" ∧
    lit "SLACK_XOXC_TOKEN" ∉ (extractSecrets C1text).2.map Prod.fst :=
  ⟨rfl, ⟨lit "sk", by decide, by decide, rfl⟩, by decide, rfl, by decide⟩

theorem claim_C1_witness :
    (¬ (lit "sk_test_AB1") <:+: (extractSecrets C1text).1) ∧
    ((extractSecrets C1text).2.map Prod.fst).Nodup ∧
    (HasMatch ⟨lit "sk_test_", clsAlnum, lit "STRIPE_TEST_API_KEY"⟩
        (([] : List SecPat).foldl extractSecretsStep (C1text, [])).1 ↔
      lit "STRIPE_TEST_API_KEY" ∈ (extractSecrets C1text).2.map Prod.fst) :=
  ⟨claim_C1.1 C1text ⟨lit "sk_test_", clsAlnum, lit "STRIPE_TEST_API_KEY"⟩
      (by unfold SECRET_PATTERNS; exact List.mem_cons_self _ _)
      (lit "sk_test_AB1") ⟨lit "AB1", by decide, by decide, rfl⟩,
   claim_C1.2.1 C1text,
   claim_C1.2.2 C1text [] ⟨lit "sk_test_", clsAlnum, lit "STRIPE_TEST_API_KEY"⟩
      [⟨lit "sk_live_", clsAlnum, lit "STRIPE_LIVE_API_KEY"⟩,
       ⟨lit "rk_test_", clsAlnum, lit "STRIPE_TEST_RESTRICTED_KEY"⟩,
       ⟨lit "rk_live_", clsAlnum, lit "STRIPE_LIVE_RESTRICTED_KEY"⟩,
       ⟨lit "whsec_", clsAlnum, lit "STRIPE_WEBHOOK_SECRET"⟩,
       ⟨lit "xoxc-", clsXoxc, lit "SLACK_XOXC_TOKEN"⟩,
       ⟨lit "xoxd-", clsXoxd, lit "SLACK_XOXD_TOKEN"⟩,
       ⟨lit "ATATT3x", clsJira, lit "JIRA_API_TOKEN"⟩] rfl⟩

/-- Machine config used by the C8 scenario. -/
def C8mcText : Str := renderJ (Json.obj [(lit "codeDir", Json.str (lit "/home/bob/code"))]) 0

/-- A snapshot whose global server carries the placeholder
`${GHOST_TOKEN}` in an env value. -/
def C8snapJ : Json :=
  Json.obj [(lit "global", Json.obj [(lit "ghost", Json.obj
      [(lit "env", Json.obj [(lit "TOK", Json.str (tokOf (lit "GHOST_TOKEN")))])])]),
    (lit "projects", Json.obj [])]

def C8snapText : Str := renderJ C8snapJ 0

/-- A secrets store that exists but has no entry for GHOST_TOKEN. -/
def C8storeJ : Json := Json.obj [(lit "OTHER_KEY", Json.str (lit "v"))]

def C8storeText : Str := renderJ C8storeJ 0

/-- The live configuration the C8 scenario ends up writing. -/
def C8finalJ : Json :=
  Json.obj [(lit "mcpServers", Json.obj [(lit "ghost", Json.obj
      [(lit "env", Json.obj [(lit "TOK", Json.str (tokOf (lit "GHOST_TOKEN")))])])])]

/-- C8 (corrected): when a placeholder's key is missing from a present
secrets store, the placeholder survives the substitution stage verbatim
and the run completes without error — but no warning is reported for it:
the restorer sets its warning exactly when the secrets store file is
absent altogether, so "reports the unresolved-placeholder condition as a
warning" fails for a store that exists but lacks the key (see the
counterexample). -/
theorem claim_C8 :
    (∀ (home : Str) (dirExists : Str → Bool) (mc : Option Str) (snap : Str)
        (sec live : Option Str),
      (runRestore home dirExists mc snap sec live).warnedNoSecrets = true →
        sec = none) ∧
    (∀ (st : List (Str × Json)) (N : Str) (s : Str),
      N.all nameChar = true →
      (∀ kv ∈ st, kv.1.all nameChar = true) →
      N ∉ st.map Prod.fst →
      (tokOf N) <:+: s → (tokOf N) <:+: substSecrets st s) ∧
    (∀ (home : Str) (dirExists : Str → Bool) (mc : Option Str) (snap t : Str)
        (live : Option Str) (codeDir : Str) (mw : Option Str)
        (e0 : Option RunErr) (sj backup cfg0 : Json),
      resolveCodeDir home dirExists mc = (some (codeDir, mw), e0) →
      parse t = some sj →
      parse (substSecrets (jFields sj) (splitJoin (tokOf (lit "HOME")) home
        (splitJoin (tokOf (lit "CODE_DIR")) codeDir snap))) = some backup →
      ((∃ t2, live = some t2 ∧ parse t2 = some cfg0) ∨
        (live = none ∧ cfg0 = Json.obj [])) →
      (runRestore home dirExists mc snap (some t) live).err = none ∧
      (runRestore home dirExists mc snap (some t) live).warnedNoSecrets = false) := by
  refine ⟨runRestore_warned, ?_, ?_⟩
  · intro st N s hN hall hnot h
    exact substSecrets_keeps N hN st s hall hnot h
  · intro home dirExists mc snap t live codeDir mw e0 sj backup cfg0 h1 h2 h3 h4
    rw [runRestore_success home dirExists mc snap (some t) live h1
      (Or.inl ⟨t, sj, rfl, h2, rfl, rfl⟩) h3 h4]
    exact ⟨rfl, rfl⟩

/-- Counterexample to the spec's C8: the secrets store exists but lacks
the key GHOST_TOKEN used by a placeholder in the snapshot; the restorer
completes, writes the placeholder verbatim into the live configuration,
and reports no warning. -/
theorem claim_C8_counterexample :
    (runRestore (lit "/home/bob") (fun _ => false) (some C8mcText) C8snapText
        (some C8storeText) none).err = none ∧
    (runRestore (lit "/home/bob") (fun _ => false) (some C8mcText) C8snapText
        (some C8storeText) none).warnedNoSecrets = false ∧
    (runRestore (lit "/home/bob") (fun _ => false) (some C8mcText) C8snapText
        (some C8storeText) none).writes =
      [(FileTag.liveCfg, renderJ C8finalJ 0)] ∧
    (tokOf (lit "GHOST_TOKEN")) <:+: renderJ C8finalJ 0 := by
  refine ⟨rfl, rfl, rfl, ?_⟩
  decide

theorem claim_C8_witness :
    ((runRestore (lit "/home/bob") (fun _ => false) (some C8mcText) C8snapText
        (some C8storeText) none).warnedNoSecrets = true →
      (some C8storeText : Option Str) = none) ∧
    (tokOf (lit "GHOST_TOKEN")) <:+: substSecrets (jFields C8storeJ) C8snapText ∧
    (runRestore (lit "/home/bob") (fun _ => false) (some C8mcText) C8snapText
        (some C8storeText) none).err = none ∧
    (runRestore (lit "/home/bob") (fun _ => false) (some C8mcText) C8snapText
        (some C8storeText) none).warnedNoSecrets = false :=
  ⟨claim_C8.1 (lit "/home/bob") (fun _ => false) (some C8mcText) C8snapText
      (some C8storeText) none,
   claim_C8.2.1 (jFields C8storeJ) (lit "GHOST_TOKEN") C8snapText (by decide)
      (by decide) (by decide) (by decide),
   claim_C8.2.2 (lit "/home/bob") (fun _ => false) (some C8mcText) C8snapText
      C8storeText none (lit "/home/bob/code") none none C8storeJ C8snapJ
      (Json.obj []) (by rfl) (by rfl) (by rfl) (Or.inr ⟨rfl, rfl⟩)⟩

theorem resolveCodeDir_none {home : Str} {dirExists : Str → Bool} {mc : Option Str}
    {e : Option RunErr} (h : resolveCodeDir home dirExists mc = (none, e)) :
    e ≠ none := by
  cases mc with
  | some t =>
    unfold resolveCodeDir at h
    cases hp : parse t with
    | none =>
      simp only [hp] at h
      have h2 := ((Prod.mk.injEq _ _ _ _).mp h).2
      rw [← h2]
      simp
    | some j =>
      simp only [hp] at h
      cases hg : objGetJ j (lit "codeDir") with
      | none =>
        simp only [hg] at h
        exact absurd ((Prod.mk.injEq _ _ _ _).mp h).1 (by simp)
      | some v =>
        cases v <;> simp only [hg] at h <;>
          exact absurd ((Prod.mk.injEq _ _ _ _).mp h).1 (by simp)
  | none =>
    unfold resolveCodeDir at h
    cases hf : (CANDIDATE_DIRS.map (pathJoin home)).find? dirExists with
    | none =>
      simp only [hf] at h
      have h2 := ((Prod.mk.injEq _ _ _ _).mp h).2
      rw [← h2]
      simp
    | some c =>
      simp only [hf] at h
      exact absurd ((Prod.mk.injEq _ _ _ _).mp h).1 (by simp)

/-- C9 (corrected): a parse failure of the live configuration (extractor)
or of any restorer input is fatal, and an aborted run has written at most
the machine config — but the machine-config persistence itself may already
have happened before the failing parse, so "aborts before any file write"
does not hold (see the counterexample). -/
theorem claim_C9 :
    (∀ (home : Str) (dirExists : Str → Bool) (mc : Option Str) (live : Str)
        (sec : Option Str), parse live = none →
      (runExtract home dirExists mc live sec).err ≠ none ∧
      ∀ w ∈ (runExtract home dirExists mc live sec).writes,
        w.1 = FileTag.machineCfg) ∧
    (∀ (home : Str) (dirExists : Str → Bool) (mc : Option Str) (snap : Str)
        (sec liveR : Option Str),
      ∀ w ∈ (runRestore home dirExists mc snap sec liveR).writes,
        w.1 = FileTag.machineCfg ∨
          (runRestore home dirExists mc snap sec liveR).err = none) := by
  constructor
  · intro home dirExists mc live sec hl
    unfold runExtract
    rcases hres : resolveCodeDir home dirExists mc with ⟨_ | ⟨codeDir, mw⟩, e⟩
    · simp only [hres]
      refine ⟨resolveCodeDir_none hres, ?_⟩
      intro w hw
      exact absurd hw (List.not_mem_nil w)
    · simp only [hres, hl]
      refine ⟨by simp, ?_⟩
      intro w hw
      cases mw with
      | some t0 =>
        have hw2 : w ∈ [(FileTag.machineCfg, t0)] := hw
        rw [List.mem_singleton.mp hw2]
      | none => exact absurd hw (List.not_mem_nil w)
  · intro home dirExists mc snap sec liveR
    unfold runRestore
    rcases hres : resolveCodeDir home dirExists mc with ⟨_ | ⟨codeDir, mw⟩, e⟩
    · simp only [hres]
      intro w hw
      exact absurd hw (List.not_mem_nil w)
    · simp only [hres]
      have hmc : ∀ w ∈ (match mw with
          | some t => [(FileTag.machineCfg, t)]
          | none => ([] : List (FileTag × Str))), w.1 = FileTag.machineCfg := by
        intro w hw
        cases mw with
        | some t0 =>
          have hw2 : w ∈ [(FileTag.machineCfg, t0)] := hw
          rw [List.mem_singleton.mp hw2]
        | none => exact absurd hw (List.not_mem_nil w)
      cases sec with
      | some t =>
        cases hpt : parse t with
        | none =>
          simp only [hpt]
          intro w hw
          exact Or.inl (hmc w hw)
        | some sj =>
          simp only [hpt]
          cases hb3 : parse (substSecrets (jFields sj)
              (splitJoin (tokOf (lit "HOME")) home
                (splitJoin (tokOf (lit "CODE_DIR")) codeDir snap))) with
          | none =>
            simp only [hb3]
            intro w hw
            exact Or.inl (hmc w hw)
          | some backup =>
            simp only [hb3]
            cases liveR with
            | some t2 =>
              cases hc : parse t2 with
              | none =>
                simp only [hc]
                intro w hw
                exact Or.inl (hmc w hw)
              | some cfg0 =>
                simp only [hc]
                intro w _
                exact Or.inr trivial
            | none =>
              intro w _
              exact Or.inr rfl
      | none =>
        cases hb3 : parse (splitJoin (tokOf (lit "HOME")) home
            (splitJoin (tokOf (lit "CODE_DIR")) codeDir snap)) with
        | none =>
          simp only [hb3]
          intro w hw
          exact Or.inl (hmc w hw)
        | some backup =>
          simp only [hb3]
          cases liveR with
          | some t2 =>
            cases hc : parse t2 with
            | none =>
              simp only [hc]
              intro w hw
              exact Or.inl (hmc w hw)
            | some cfg0 =>
              simp only [hc]
              intro w _
              exact Or.inr trivial
          | none =>
            intro w _
            exact Or.inr rfl

/-- Counterexample to the spec's C9: with no machine config and an
auto-detected code directory, the extractor persists the machine config
and only then fails to parse the invalid live configuration — the run is
fatal, yet a file has been written. -/
theorem claim_C9_counterexample :
    parse (lit "nope") = none ∧
    (runExtract (lit "/home/alice") (fun s => decide (s = lit "/home/alice/code"))
        none (lit "nope") none).err = some RunErr.parseError ∧
    (runExtract (lit "/home/alice") (fun s => decide (s = lit "/home/alice/code"))
        none (lit "nope") none).writes =
      [(FileTag.machineCfg,
        renderJ (Json.obj [(lit "codeDir", Json.str (lit "/home/alice/code"))]) 0)] :=
  ⟨rfl, rfl, rfl⟩

theorem claim_C9_witness :
    (runExtract (lit "/home/bob") (fun _ => false) (some (lit "\x7b\x7d"))
        (lit "nope") none).err ≠ none ∧
    ∀ w ∈ (runExtract (lit "/home/bob") (fun _ => false) (some (lit "\x7b\x7d"))
        (lit "nope") none).writes, w.1 = FileTag.machineCfg :=
  claim_C9.1 (lit "/home/bob") (fun _ => false) (some (lit "\x7b\x7d"))
    (lit "nope") none (by rfl)

theorem extract_fold_id : ∀ (ps : List SecPat) (acc : Str × List (Str × Str)),
    (∀ p ∈ ps, (scanPat p (tokOf p.name) acc.1).1 = []) →
    ps.foldl extractSecretsStep acc = acc := by
  intro ps
  induction ps with
  | nil => intro acc _; rfl
  | cons q ps ih =>
    intro acc h
    rw [List.foldl_cons]
    rcases extractSecretsStep_cases acc q with ⟨he, _⟩ | ⟨m0, ms, hscan, _⟩
    · rw [he]
      exact ih acc (fun p hp => h p (List.mem_cons_of_mem _ hp))
    · rw [h q (List.mem_cons_self _ _)] at hscan
      simp at hscan

/-- When no pattern matches anywhere in the text, the secret pass is the
identity and collects nothing. -/
theorem extractSecrets_id (s : Str)
    (h : ∀ p ∈ SECRET_PATTERNS, (scanPat p (tokOf p.name) s).1 = []) :
    extractSecrets s = (s, []) :=
  extract_fold_id SECRET_PATTERNS (s, []) h

theorem restoreProjStep_fix {F P E M : List (Str × Json)} (dirExists : Str → Bool)
    (hFnd : (F.map Prod.fst).Nodup)
    (hFP : objGet F (lit "projects") = some (Json.obj P))
    (hPnd : (P.map Prod.fst).Nodup)
    {path : Str}
    (hdir : dirExists path = true)
    (hPE : objGet P path = some (Json.obj E))
    (hEnd : (E.map Prod.fst).Nodup)
    (hEM : objGet E (lit "mcpServers") = some (Json.obj M))
    (hMnd : (M.map Prod.fst).Nodup)
    (n m : Nat) :
    restoreProjStep dirExists (Json.obj F, n, m) (path, Json.obj M) =
      (Json.obj F, n + 1, m) := by
  have hproj : projFieldsOf (Json.obj F) = P := by
    unfold projFieldsOf
    rw [show objGetJ (Json.obj F) (lit "projects") =
      objGet F (lit "projects") from rfl, hFP]
    rfl
  rw [restoreProjStep_hit dirExists _ _ hdir]
  show (jObjSet (Json.obj F) (lit "projects")
      (Json.obj (objSet (projFieldsOf (Json.obj F)) path
        (Json.obj (objSet (truthyFields (objGet (projFieldsOf (Json.obj F)) path))
          (lit "mcpServers")
          (Json.obj (objMerge
            (truthyFields (objGet
              (truthyFields (objGet (projFieldsOf (Json.obj F)) path))
              (lit "mcpServers")))
            (jFields (Json.obj M)))))))), n + 1, m) = (Json.obj F, n + 1, m)
  rw [hproj, hPE]
  rw [show truthyFields (some (Json.obj E)) = E from rfl]
  rw [hEM]
  rw [show truthyFields (some (Json.obj M)) = M from rfl]
  rw [show jFields (Json.obj M) = M from rfl]
  rw [objMerge_self_stable M M hMnd (fun kv hkv => objGet_of_mem_nodup hMnd hkv)]
  rw [objSet_self hEnd hEM]
  rw [objSet_self hPnd hPE]
  rw [show jObjSet (Json.obj F) (lit "projects") (Json.obj P) =
    Json.obj (objSet F (lit "projects") (Json.obj P)) from rfl]
  rw [objSet_self hFnd hFP]

theorem restoreProjects_fold_fix {F P : List (Str × Json)} (dirExists : Str → Bool)
    (hFnd : (F.map Prod.fst).Nodup)
    (hFP : objGet F (lit "projects") = some (Json.obj P))
    (hPnd : (P.map Prod.fst).Nodup) :
    ∀ (l : List (Str × Json)),
      (∀ pv ∈ l, dirExists pv.1 = true ∧ ∃ E M,
        objGet P pv.1 = some (Json.obj E) ∧ (E.map Prod.fst).Nodup ∧
        objGet E (lit "mcpServers") = some (Json.obj M) ∧
        (M.map Prod.fst).Nodup ∧ pv.2 = Json.obj M) →
      ∀ n m, l.foldl (restoreProjStep dirExists) (Json.obj F, n, m) =
        (Json.obj F, n + l.length, m) := by
  intro l
  induction l with
  | nil => intro _ n m; rfl
  | cons pv rest ih =>
    intro h n m
    obtain ⟨hdir, E, M, hPE, hEnd, hEM, hMnd, hpv2⟩ := h pv (List.mem_cons_self _ _)
    have hpv : pv = (pv.1, Json.obj M) := by rw [← hpv2]
    rw [List.foldl_cons, hpv,
      restoreProjStep_fix dirExists hFnd hFP hPnd hdir hPE hEnd hEM hMnd n m,
      ih (fun q hq => h q (List.mem_cons_of_mem _ hq)) (n + 1) m]
    simp only [List.length_cons]
    have hl : n + 1 + rest.length = n + (rest.length + 1) := by omega
    rw [hl]

theorem restoreGlobal_fix {F G : List (Str × Json)}
    (hFnd : (F.map Prod.fst).Nodup)
    (hFG : objGet F (lit "mcpServers") = some (Json.obj G))
    (hGnd : (G.map Prod.fst).Nodup)
    (backup : Json)
    (hBG : objGetJ backup (lit "global") = some (Json.obj G)) :
    restoreGlobal backup (Json.obj F) = Json.obj F := by
  unfold restoreGlobal
  simp only [hBG]
  cases G with
  | nil =>
    rw [if_neg (by intro hc; exact absurd hc.2 (by decide))]
  | cons g0 G' =>
    rw [if_pos ⟨rfl, by simp [jsKeysCount]⟩]
    have hex : (match objGetJ (Json.obj F) (lit "mcpServers") with
        | some m => if jsTruthy m then jFields m else []
        | none => ([] : List (Str × Json))) = g0 :: G' := by
      rw [show objGetJ (Json.obj F) (lit "mcpServers") =
        objGet F (lit "mcpServers") from rfl, hFG]
      rfl
    rw [hex]
    rw [show jFields (Json.obj (g0 :: G')) = g0 :: G' from rfl]
    rw [objMerge_self_stable (g0 :: G') (g0 :: G') hGnd
      (fun kv hkv => objGet_of_mem_nodup hGnd hkv)]
    rw [show jObjSet (Json.obj F) (lit "mcpServers") (Json.obj (g0 :: G')) =
      Json.obj (objSet F (lit "mcpServers") (Json.obj (g0 :: G'))) from rfl]
    rw [objSet_self hFnd hFG]

theorem buildAllMcp_eq {F G P : List (Str × Json)}
    (hFG : objGet F (lit "mcpServers") = some (Json.obj G))
    (hFP : objGet F (lit "projects") = some (Json.obj P)) :
    buildAllMcp (Json.obj F) =
      Json.obj [(lit "global", Json.obj G),
                (lit "projects", Json.obj (P.filterMap projEntry))] := by
  unfold buildAllMcp
  rw [show objGetJ (Json.obj F) (lit "mcpServers") =
    objGet F (lit "mcpServers") from rfl, hFG]
  rw [show objGetJ (Json.obj F) (lit "projects") =
    objGet F (lit "projects") from rfl, hFP]
  rfl

theorem snapshot_entries {P : List (Str × Json)}
    (hP2 : ∀ pv ∈ P, ∃ E M, pv.2 = Json.obj E ∧ (E.map Prod.fst).Nodup ∧
      objGet E (lit "mcpServers") = some (Json.obj M) ∧ (M.map Prod.fst).Nodup)
    (hPnd : (P.map Prod.fst).Nodup) :
    ∀ qv ∈ P.filterMap projEntry, ∃ E M,
      objGet P qv.1 = some (Json.obj E) ∧ (E.map Prod.fst).Nodup ∧
      objGet E (lit "mcpServers") = some (Json.obj M) ∧
      (M.map Prod.fst).Nodup ∧ qv.2 = Json.obj M := by
  intro qv hqv
  obtain ⟨pv, hpv, hpe⟩ := List.mem_filterMap.mp hqv
  obtain ⟨E, M, hv, hEnd, hEM, hMnd⟩ := hP2 pv hpv
  unfold projEntry at hpe
  by_cases hstar : pv.1 = lit "*"
  · rw [if_pos hstar] at hpe
    exact absurd hpe (by simp)
  · rw [if_neg hstar] at hpe
    rw [hv] at hpe
    simp only [show objGetJ (Json.obj E) (lit "mcpServers") =
      objGet E (lit "mcpServers") from rfl, hEM] at hpe
    by_cases hc : jsTruthy (Json.obj M) ∧ 0 < jsKeysCount (Json.obj M)
    · rw [if_pos hc] at hpe
      have hq := Option.some.inj hpe
      have hget := objGet_of_mem_nodup hPnd hpv
      rw [hv] at hget
      refine ⟨E, M, ?_, hEnd, hEM, hMnd, ?_⟩
      · rw [← hq]
        exact hget
      · rw [← hq]
    · rw [if_neg hc] at hpe
      exact absurd hpe (by simp)

set_option maxHeartbeats 1000000 in
/-- C4 (corrected): extraction followed by restoration on the same machine
reproduces the original live configuration — in fact byte for byte — for
well-formed configurations on which the text substitutions are inert: no
string of the rendered snapshot contains the code directory, the home
directory, a dollar character, or a secret-pattern match, and no env
secret is extracted.  Without those provisos the claim is false: a literal
placeholder such as a dollar-brace HOME token in a configuration string is
rewritten to the real home directory on restoration, so the round trip
changes the value (see the counterexample). -/
theorem claim_C4 (home codeDir : Str) (dirExists : Str → Bool) (mc : Option Str)
    (F G P : List (Str × Json))
    (hres : resolveCodeDir home dirExists mc = (some (codeDir, none), none))
    (hbc : benignJson (Json.obj F) = true)
    (hFnd : (F.map Prod.fst).Nodup)
    (hFG : objGet F (lit "mcpServers") = some (Json.obj G))
    (hGnd : (G.map Prod.fst).Nodup)
    (hFP : objGet F (lit "projects") = some (Json.obj P))
    (hPnd : (P.map Prod.fst).Nodup)
    (hP2 : ∀ pv ∈ P, ∃ E M, pv.2 = Json.obj E ∧ (E.map Prod.fst).Nodup ∧
      objGet E (lit "mcpServers") = some (Json.obj M) ∧ (M.map Prod.fst).Nodup)
    (hdirs : ∀ pv ∈ P, dirExists pv.1 = true)
    (henv : extractEnvSecrets (buildAllMcp (Json.obj F)) =
      (buildAllMcp (Json.obj F), []))
    (hncd : ¬ codeDir <:+: renderJ (buildAllMcp (Json.obj F)) 0)
    (hnh : ¬ home <:+: renderJ (buildAllMcp (Json.obj F)) 0)
    (hnom : ∀ p ∈ SECRET_PATTERNS,
      (scanPat p (tokOf p.name) (renderJ (buildAllMcp (Json.obj F)) 0)).1 = [])
    (hndo : dollar ∉ renderJ (buildAllMcp (Json.obj F)) 0) :
    runExtract home dirExists mc (renderJ (Json.obj F) 0) none =
      ⟨[(FileTag.snapshot, renderJ (buildAllMcp (Json.obj F)) 0)], none⟩ ∧
    runRestore home dirExists mc (renderJ (buildAllMcp (Json.obj F)) 0) none
        (some (renderJ (Json.obj F) 0)) =
      ⟨[(FileTag.liveCfg, renderJ (Json.obj F) 0)], none, true,
        (P.filterMap projEntry).length, 0⟩ := by
  have hlive : parse (renderJ (Json.obj F) 0) = some (Json.obj F) :=
    parse_render _ hbc
  have ht1 : abstractPaths codeDir home
      (renderJ (extractEnvSecrets (buildAllMcp (Json.obj F))).1 0) =
      renderJ (buildAllMcp (Json.obj F)) 0 := by
    rw [henv]
    unfold abstractPaths
    rw [show ((buildAllMcp (Json.obj F), ([] : List (Str × Str))).1) =
      buildAllMcp (Json.obj F) from rfl]
    rw [splitJoin_id codeDir (tokOf (lit "CODE_DIR")) _ hncd]
    rw [splitJoin_id home (tokOf (lit "HOME")) _ hnh]
  have hsnap : snapshotText codeDir home (Json.obj F) =
      renderJ (buildAllMcp (Json.obj F)) 0 := by
    unfold snapshotText
    rw [ht1, extractSecrets_id _ hnom]
  have hsec : pipelineSecrets codeDir home (Json.obj F) = [] := by
    unfold pipelineSecrets
    rw [ht1, extractSecrets_id _ hnom, henv]
    rfl
  constructor
  · rw [runExtract_shape home dirExists mc (renderJ (Json.obj F) 0) none hres hlive]
    rw [hsec, hsnap]
    rfl
  · have hB := buildAllMcp_eq hFG hFP
    have hBb : benignJson (buildAllMcp (Json.obj F)) = true :=
      buildAllMcp_benign hbc
    have hsnapparse : parse (renderJ (buildAllMcp (Json.obj F)) 0) =
        some (buildAllMcp (Json.obj F)) := parse_render _ hBb
    have h3 : parse (substSecrets [] (splitJoin (tokOf (lit "HOME")) home
        (splitJoin (tokOf (lit "CODE_DIR")) codeDir
          (renderJ (buildAllMcp (Json.obj F)) 0)))) =
        some (buildAllMcp (Json.obj F)) := by
      rw [splitJoin_tok_id _ _ hndo, splitJoin_tok_id _ _ hndo]
      exact hsnapparse
    rw [runRestore_success home dirExists mc
      (renderJ (buildAllMcp (Json.obj F)) 0) none (some (renderJ (Json.obj F) 0))
      hres (Or.inr ⟨rfl, rfl, rfl⟩) h3 (Or.inl ⟨_, rfl, hlive⟩)]
    have hglob : restoreGlobal (buildAllMcp (Json.obj F)) (Json.obj F) =
        Json.obj F := by
      apply restoreGlobal_fix hFnd hFG hGnd
      rw [hB]
      rfl
    have hprojB : projFieldsOf (buildAllMcp (Json.obj F)) =
        P.filterMap projEntry := by
      rw [hB]
      rfl
    have hfold : restoreProjects dirExists (buildAllMcp (Json.obj F))
        (restoreGlobal (buildAllMcp (Json.obj F)) (Json.obj F)) =
        (Json.obj F, (P.filterMap projEntry).length, 0) := by
      unfold restoreProjects
      rw [hglob, hprojB]
      have hents : ∀ qv ∈ P.filterMap projEntry,
          dirExists qv.1 = true ∧ ∃ E M,
          objGet P qv.1 = some (Json.obj E) ∧ (E.map Prod.fst).Nodup ∧
          objGet E (lit "mcpServers") = some (Json.obj M) ∧
          (M.map Prod.fst).Nodup ∧ qv.2 = Json.obj M := by
        intro qv hqv
        obtain ⟨E, M, hPE, hEnd, hEM, hMnd, hqv2⟩ :=
          snapshot_entries hP2 hPnd qv hqv
        exact ⟨hdirs (qv.1, Json.obj E) (objGet_mem hPE), E, M, hPE, hEnd, hEM,
          hMnd, hqv2⟩
      rw [restoreProjects_fold_fix dirExists hFnd hFP hPnd
        (P.filterMap projEntry) hents 0 0]
      rw [show 0 + (P.filterMap projEntry).length =
        (P.filterMap projEntry).length from by omega]
    rw [hfold]
    rfl

/-- Live configuration of the C4 counterexample: a server command holding
a literal HOME placeholder token. -/
def C4cfg : Json := Json.obj [(lit "mcpServers", Json.obj [(lit "srv", Json.obj
  [(lit "command", Json.str (lit "echo $\x7bHOME\x7d"))])])]

def C4mcT : Str := renderJ (Json.obj
  [(lit "codeDir", Json.str (lit "/home/alice/code"))]) 0

/-- Snapshot the extractor writes for `C4cfg` (no masking applies). -/
def C4snapText : Str := renderJ (Json.obj
  [(lit "global", Json.obj [(lit "srv", Json.obj
    [(lit "command", Json.str (lit "echo $\x7bHOME\x7d"))])]),
   (lit "projects", Json.obj [])]) 0

/-- Live configuration the restorer writes back for `C4cfg`: the literal
placeholder has been rewritten to the real home directory. -/
def C4finalJ : Json := Json.obj [(lit "mcpServers", Json.obj [(lit "srv", Json.obj
  [(lit "command", Json.str (lit "echo /home/alice"))])])]

/-- Counterexample to the spec's C4: for a configuration whose command
string contains the literal text of the HOME placeholder, extraction
succeeds and restoration on the same machine succeeds, but the restored
`mcpServers` mapping differs from the original: the placeholder text was
substituted with the home directory. -/
theorem claim_C4_counterexample :
    runExtract (lit "/home/alice") (fun _ => false) (some C4mcT)
        (renderJ C4cfg 0) none =
      ⟨[(FileTag.snapshot, C4snapText)], none⟩ ∧
    (runRestore (lit "/home/alice") (fun _ => false) (some C4mcT) C4snapText
        none (some (renderJ C4cfg 0))).err = none ∧
    (runRestore (lit "/home/alice") (fun _ => false) (some C4mcT) C4snapText
        none (some (renderJ C4cfg 0))).writes =
      [(FileTag.liveCfg, renderJ C4finalJ 0)] ∧
    objGetJ C4finalJ (lit "mcpServers") = some (Json.obj [(lit "srv", Json.obj
      [(lit "command", Json.str (lit "echo /home/alice"))])]) ∧
    objGetJ C4cfg (lit "mcpServers") = some (Json.obj [(lit "srv", Json.obj
      [(lit "command", Json.str (lit "echo $\x7bHOME\x7d"))])]) ∧
    lit "echo /home/alice" ≠ lit "echo $\x7bHOME\x7d" :=
  ⟨rfl, rfl, rfl, rfl, rfl, by decide⟩

def C4WF : List (Str × Json) :=
  [(lit "mcpServers", Json.obj [(lit "alpha", Json.obj
     [(lit "command", Json.str (lit "run"))])]),
   (lit "projects", Json.obj [(lit "proj1", Json.obj
     [(lit "mcpServers", Json.obj [(lit "beta", Json.obj
       [(lit "command", Json.str (lit "go"))])])])])]

def C4Wmc : Str := renderJ (Json.obj [(lit "codeDir", Json.str (lit "/hc"))]) 0

theorem claim_C4_witness :
    runExtract (lit "/hh") (fun s => decide (s = lit "proj1")) (some C4Wmc)
        (renderJ (Json.obj C4WF) 0) none =
      ⟨[(FileTag.snapshot, renderJ (buildAllMcp (Json.obj C4WF)) 0)], none⟩ ∧
    runRestore (lit "/hh") (fun s => decide (s = lit "proj1")) (some C4Wmc)
        (renderJ (buildAllMcp (Json.obj C4WF)) 0) none
        (some (renderJ (Json.obj C4WF) 0)) =
      ⟨[(FileTag.liveCfg, renderJ (Json.obj C4WF) 0)], none, true, 1, 0⟩ :=
  claim_C4 (lit "/hh") (lit "/hc") (fun s => decide (s = lit "proj1"))
    (some C4Wmc) C4WF
    [(lit "alpha", Json.obj [(lit "command", Json.str (lit "run"))])]
    [(lit "proj1", Json.obj [(lit "mcpServers", Json.obj [(lit "beta", Json.obj
      [(lit "command", Json.str (lit "go"))])])])]
    (by rfl) (by decide) (by decide) (by rfl) (by decide) (by rfl) (by decide)
    (by
      intro pv hpv
      rw [List.mem_singleton] at hpv
      subst hpv
      exact ⟨[(lit "mcpServers", Json.obj [(lit "beta", Json.obj
          [(lit "command", Json.str (lit "go"))])])],
        [(lit "beta", Json.obj [(lit "command", Json.str (lit "go"))])],
        rfl, by decide, by rfl, by decide⟩)
    (by decide) (by rfl) (by decide) (by decide) (by decide) (by decide)

end MCP
